import Mathlib

/-!
# MTSP solver (SMO clustering + ACO routing): embedding and verified properties

Shallow embedding of `graph.cpp`, `aco.cpp`, `smo.cpp` and `hybrid.cpp`.

Conventions of the embedding

* A `double` given by the caller (a coordinate, a hyperparameter, a canonical
  random draw) is a rational number: every finite double is one.  Arithmetic
  on doubles is exact arithmetic (no rounding, no overflow, no underflow);
  values that pass through `std::sqrt` or `pow` live in `ℝ`.
* Exact arithmetic gives no value to a division by zero or to zero raised to a
  negative power, where the machine produces an infinity and from it NaN; the
  functions `/` and `Real.rpow` of Lean return 0 there.  In `aco.cpp` this
  concerns `1 / graph.getDistance(i, j)`, `pow(tau, alpha)`,
  `1.0 / (num_cities * L_nn)` and `Q / length`.  `Graph.Separated` (no zero
  distance between different points) together with `alpha >= 0` and a
  pheromone that is not negative excludes all four for graphs of two or more
  points whose tours visit every city once, and the statements that depend on
  the value of these expressions assume them; on one point no pheromone entry
  is ever read.
* `int` arithmetic in `Graph::computeDistanceMatrix` is integer arithmetic
  without wrap-around; `Graph.inIntRange` states that no product or sum leaves
  the 32-bit range, and under it the embedding and the machine agree
  (`Graph.distArgInt32` is the wrap-around computation).
* `std::vector` is `List`; an access the source performs out of range makes
  the embedded function return `none`.
* A random generator is the stream of the values it is going to return.  A
  rejection loop (`do … while`) is run with a bound `fuel` on its number of
  draws and returns `none` when the bound is hit.
-/

namespace MTSP

/-- A point: `std::pair<double,double>`. -/
abbrev Point := ℚ × ℚ

/-- Conversion `double → int` of C++: truncation toward zero. -/
def truncToInt (q : ℚ) : Int := Int.tdiv q.num q.den

/-- The content of a 32-bit two's-complement `int` after an `int` operation whose
exact result is `z`. -/
def wrapInt32 (z : Int) : Int := (z + 2 ^ 31) % 2 ^ 32 - 2 ^ 31

/-- The value `std::numeric_limits<double>::max()`. -/
def DBL_MAX : ℚ := 2 ^ 1024 - 2 ^ 971

/-- The state of a `std::mt19937` as seen through the distributions applied to
it: the integer draws and the canonical real draws (in `[0,1)`) still to come. -/
structure Rng where
  ints : Nat → Nat
  reals : Nat → ℚ

namespace Rng

/-- Library call `std::uniform_int_distribution<int>(0, n - 1)(rng)`. -/
def nextInt (g : Rng) (n : Nat) : Nat × Rng :=
  (g.ints 0 % n, { g with ints := fun k => g.ints (k + 1) })

/-- The canonical draw `u` behind `std::uniform_real_distribution<double>(a, b)(rng)`,
which returns `a + u * (b - a)`. -/
def nextReal (g : Rng) : ℚ × Rng :=
  (g.reals 0, { g with reals := fun k => g.reals (k + 1) })

/-- Every canonical real draw lies in `[0,1)`. -/
def RealsInUnit (g : Rng) : Prop := ∀ k, 0 ≤ g.reals k ∧ g.reals k < 1

/-- Within any `fuel` consecutive integer draws every residue below `n` occurs. -/
def Fair (g : Rng) (fuel n : Nat) : Prop :=
  ∀ k t, t < n → ∃ i, i < fuel ∧ g.ints (k + i) % n = t

/-- A generator used in examples: the integer draws are 0, 1, 2, … and the
canonical real draws are 0, 1/5, 2/5, 3/5, 4/5, 0, 1/5, … -/
def counting : Rng := { ints := fun k => k, reals := fun k => ((k % 5 : Nat) : ℚ) / 5 }

/-- A generator used in examples: every integer draw and every canonical real
draw is 0. -/
def zeros : Rng := { ints := fun _ => 0, reals := fun _ => 0 }

end Rng

noncomputable section

/-- The Euclidean distance `sqrt((xi-xj)^2 + (yi-yj)^2)` between two points, as
the specification defines the entries of the distance matrix. -/
def euclid (p q : Point) : ℝ :=
  Real.sqrt ((((p.1 - q.1) ^ 2 + (p.2 - q.2) ^ 2 : ℚ)) : ℝ)

/-! ## graph.cpp -/

/-- Class `Graph`. -/
structure Graph where
  dist : List (List ℝ)
  Points : List Point

namespace Graph

/-- The argument of `std::sqrt` in `computeDistanceMatrix`: `dx*dx + dy*dy`
with `int dx = Points[i].first - Points[j].first` and likewise `dy`, in exact
integer arithmetic.  It is the value the machine computes when `inIntRange`
holds (`distArgInt32_eq`). -/
def distArg (Points : List Point) (i j : Nat) : Int :=
  let dx := truncToInt ((Points.getD i (0, 0)).1 - (Points.getD j (0, 0)).1)
  let dy := truncToInt ((Points.getD i (0, 0)).2 - (Points.getD j (0, 0)).2)
  dx * dx + dy * dy

/-- The argument of `std::sqrt` in `computeDistanceMatrix` in 32-bit `int`
arithmetic with wrap-around: the two products and the sum `dx*dx + dy*dy` are
each reduced to the 32-bit range. -/
def distArgInt32 (Points : List Point) (i j : Nat) : Int :=
  let dx := truncToInt ((Points.getD i (0, 0)).1 - (Points.getD j (0, 0)).1)
  let dy := truncToInt ((Points.getD i (0, 0)).2 - (Points.getD j (0, 0)).2)
  wrapInt32 (wrapInt32 (dx * dx) + wrapInt32 (dy * dy))

/-- Method `Graph::computeDistanceMatrix`. -/
def computeDistanceMatrix (Points : List Point) : List (List ℝ) :=
  (List.range Points.length).map fun i =>
    (List.range Points.length).map fun j => Real.sqrt ((distArg Points i j : Int) : ℝ)

/-- Constructor `Graph::Graph`. -/
def new (pts : List Point) : Graph :=
  { Points := pts, dist := computeDistanceMatrix pts }

/-- Method `Graph::getDistance`. -/
def getDistance (g : Graph) (i j : Nat) : ℝ := (g.dist.getD i []).getD j 0

/-- Method `Graph::size`. -/
def size (g : Graph) : Nat := g.Points.length

/-- Method `Graph::getPoints`. -/
def getPoints (g : Graph) : List Point := g.Points

/-- No `int` operation of `computeDistanceMatrix` overflows: every
`dx*dx + dy*dy` is below `2^31`, and the graph has fewer than `2^31` points. -/
def inIntRange (Points : List Point) : Prop :=
  Points.length < 2 ^ 31 ∧
    ∀ i, i < Points.length → ∀ j, j < Points.length → distArg Points i j < 2 ^ 31

/-- The inner `for j` loop of `nearest_neighbor_tour_length`, from
`best = 1e9`, `next = -1`. -/
def nnScan (g : Graph) (visited : List Bool) (current : Nat) : ℝ × Int :=
  (List.range g.size).foldl
    (fun (acc : ℝ × Int) j =>
      if (!visited.getD j false && j != current) = true then
        if g.getDistance current j < acc.1 then (g.getDistance current j, (j : Int)) else acc
      else acc)
    (1000000000, -1)

/-- The outer `for step` loop of `nearest_neighbor_tour_length`, with `steps`
rounds left; `none` when `visited[next]` is reached with `next = -1`. -/
def nnLoop (g : Graph) : Nat → List Bool → ℝ → Nat → Option (ℝ × Nat)
  | 0, _, best_length, current => some (best_length, current)
  | steps + 1, visited, best_length, current =>
    let bn := nnScan g visited current
    if bn.2 < 0 then none
    else nnLoop g steps (visited.set bn.2.toNat true) (best_length + bn.1) bn.2.toNat

/-- Method `Graph::nearest_neighbor_tour_length`; `none` when a vector is indexed out
of range (`visited[0]` on an empty graph, `visited[-1]`). -/
def nearest_neighbor_tour_length (g : Graph) : Option ℝ :=
  if g.size = 0 then none
  else
    match nnLoop g (g.size - 1) ((List.replicate g.size false).set 0 true) 0 0 with
    | none => none
    | some (best_length, current) => some (best_length + g.getDistance current 0)

end Graph

/-! ## aco.cpp -/

/-- Class `ACO`.  The field `lengths_log` is a ghost: it records the length of
every tour built so far and is read by no operation. -/
structure ACO where
  graph : Graph
  num_ants : Nat
  num_cities : Nat
  alpha : ℝ
  beta : ℝ
  rho : ℝ
  Q : ℝ
  pher_mat : List (List ℝ)
  tours : List (List Int)
  tour_length : List ℝ
  best_tour : List Int
  best_length : ℝ
  rng : Rng
  lengths_log : List ℝ

namespace ACO

/-- Constructor `ACO::ACO`; `none` when `nearest_neighbor_tour_length` indexes out of range.
The initial pheromone `tau_0 = 1.0 / (num_cities * L_nn)` is a division by zero
exactly when `L_nn = 0`: on one point (where no entry is ever read), or when
different points have a zero distance (excluded by `Graph.Separated`). -/
def new (pts : List Point) (ants : Nat) (alpha beta rho Q : ℚ) (rng : Rng) : Option ACO :=
  match (Graph.new pts).nearest_neighbor_tour_length with
  | none => none
  | some L_nn =>
    some
      { graph := Graph.new pts
        num_ants := ants
        num_cities := pts.length
        alpha := alpha
        beta := beta
        rho := rho
        Q := Q
        pher_mat :=
          List.replicate pts.length (List.replicate pts.length (1 / ((pts.length : ℝ) * L_nn)))
        tours := List.replicate ants (List.replicate pts.length (-1))
        tour_length := List.replicate ants (DBL_MAX : ℝ)
        best_tour := List.replicate pts.length (-1)
        best_length := (DBL_MAX : ℝ)
        rng := rng
        lengths_log := [] }

/-- The guard `!visited[j] && j != current_city` of `select_next_city`. -/
def eligible (visited : List Bool) (current_city j : Nat) : Bool :=
  !visited.getD j false && j != current_city

/-- The value `pow(tau, alpha) * pow(eta, beta)` of `select_next_city`, with
`eta = 1 / graph.getDistance(current_city, j)`.  It is the value of exact
arithmetic when the distance is not zero and the pheromone `tau` is positive, or
zero with `alpha >= 0`. -/
def desirability (a : ACO) (current_city j : Nat) : ℝ :=
  Real.rpow ((a.pher_mat.getD current_city []).getD j 0) a.alpha
    * Real.rpow (1 / a.graph.getDistance current_city j) a.beta

/-- The entry `prob[j]` after the first loop of `select_next_city`. -/
def prob (a : ACO) (current_city : Nat) (visited : List Bool) (j : Nat) : ℝ :=
  if eligible visited current_city j = true then desirability a current_city j else 0

/-- The variable `sum` after the first loop of `select_next_city`. -/
def probSum (a : ACO) (current_city : Nat) (visited : List Bool) : ℝ :=
  (List.range a.num_cities).foldl
    (fun sum j => if eligible visited current_city j = true then
      sum + desirability a current_city j else sum) 0

/-- The loop `do { j = dist(rng); } while (visited[j]);` of `select_next_city`,
with at most `fuel` draws. -/
def rejectLoop (num_cities : Nat) (visited : List Bool) : Nat → Rng → Option (Nat × Rng)
  | 0, _ => none
  | fuel + 1, g =>
    if visited.getD (g.nextInt num_cities).1 false = true then
      rejectLoop num_cities visited fuel (g.nextInt num_cities).2
    else some (g.nextInt num_cities)

/-- The cumulative scan of `select_next_city` over the cities `js`, entered with
the running value `cumulative`; `none` when the loop ends without returning. -/
def cumulativeScan (a : ACO) (current_city : Nat) (visited : List Bool) (r : ℝ) :
    List Nat → ℝ → Option Nat
  | [], _ => none
  | j :: js, cumulative =>
    if eligible visited current_city j = true then
      if r ≤ cumulative + prob a current_city visited j then some j
      else cumulativeScan a current_city visited r js (cumulative + prob a current_city visited j)
    else cumulativeScan a current_city visited r js cumulative

/-- Method `ACO::select_next_city`: the city returned and the generator afterwards. -/
def select_next_city (fuel : Nat) (a : ACO) (_ant_idx : Nat) (current_city : Nat)
    (visited : List Bool) : Option (Nat × Rng) :=
  if probSum a current_city visited = 0 then rejectLoop a.num_cities visited fuel a.rng
  else
    match cumulativeScan a current_city visited
        ((a.rng.nextReal.1 : ℝ) * probSum a current_city visited) (List.range a.num_cities) 0 with
    | some j => some (j, a.rng.nextReal.2)
    | none => some (0, a.rng.nextReal.2)

/-- The loop `for (step = 1; step < num_cities; ++step)` of `construct_tour` with
`steps` rounds left; `path` holds the entries of `tours[ant_idx]` written so far. -/
def tourLoop (fuel : Nat) (ant_idx : Nat) :
    Nat → ACO → Nat → List Bool → List Nat → Option (ACO × List Nat)
  | 0, a, _, _, path => some (a, path)
  | steps + 1, a, current, visited, path =>
    match select_next_city fuel a ant_idx current visited with
    | none => none
    | some (next, g) =>
      tourLoop fuel ant_idx steps { a with rng := g } next (visited.set next true)
        (path ++ [next])

/-- The value `total_len` of `construct_tour` for the tour `path`. -/
def closedLength (g : Graph) (path : List Nat) : ℝ :=
  (List.range (path.length - 1)).foldl
      (fun total_len i => total_len + g.getDistance (path.getD i 0) (path.getD (i + 1) 0)) 0
    + g.getDistance (path.getD (path.length - 1) 0) (path.getD 0 0)

/-- Method `ACO::construct_tour`; `none` for an empty city set (`tours[ant_idx][0]` is out
of range) and when a rejection loop runs out of fuel. -/
def construct_tour (fuel : Nat) (a : ACO) (ant_idx : Nat) : Option ACO :=
  if a.num_cities = 0 then none
  else
    match tourLoop fuel ant_idx (a.num_cities - 1)
        { a with rng := (a.rng.nextInt a.num_cities).2 } (a.rng.nextInt a.num_cities).1
        ((List.replicate a.num_cities false).set (a.rng.nextInt a.num_cities).1 true)
        [(a.rng.nextInt a.num_cities).1] with
    | none => none
    | some (a1, path) =>
      some
        { a1 with
          tours := a1.tours.set ant_idx (path.map Int.ofNat)
          tour_length := a1.tour_length.set ant_idx (closedLength a1.graph path)
          lengths_log := a1.lengths_log ++ [closedLength a1.graph path]
          best_length :=
            if closedLength a1.graph path < a1.best_length then closedLength a1.graph path
            else a1.best_length
          best_tour :=
            if closedLength a1.graph path < a1.best_length then path.map Int.ofNat
            else a1.best_tour }

/-- Method `ACO::evaporate_pher` (the matrix has `num_cities` rows and columns, so the
two loops reach every entry). -/
def evaporate_pher (a : ACO) : ACO :=
  { a with pher_mat := a.pher_mat.map fun row => row.map fun x => x * (1 - a.rho) }

/-- The update `m[i][j] += v`. -/
def matAdd (m : List (List ℝ)) (i j : Nat) (v : ℝ) : List (List ℝ) :=
  m.set i ((m.getD i []).set j ((m.getD i []).getD j 0 + v))

/-- The pair of updates `pher_mat[x][y] += v; pher_mat[y][x] += v;` of
`deposit_pher`; `none` when `x` or `y` is not an index of the matrix. -/
def depositEdge (n : Nat) (v : ℝ) (m : List (List ℝ)) (x y : Int) : Option (List (List ℝ)) :=
  if 0 ≤ x ∧ x < n ∧ 0 ≤ y ∧ y < n then some (matAdd (matAdd m x.toNat y.toNat v) y.toNat x.toNat v)
  else none

/-- Method `ACO::deposit_pher`. -/
def deposit_pher (a : ACO) (path : List Int) (length : ℝ) : Option ACO :=
  match (List.range (path.length - 1)).foldlM
      (fun m i => depositEdge a.num_cities (a.Q / length) m (path.getD i (-1))
        (path.getD (i + 1) (-1))) a.pher_mat with
  | none => none
  | some m =>
    match depositEdge a.num_cities (a.Q / length) m (path.getD (path.length - 1) (-1))
        (path.getD 0 (-1)) with
    | none => none
    | some m1 => some { a with pher_mat := m1 }

/-- Method `ACO::update_pher`. -/
def update_pher (a : ACO) : Option ACO :=
  (List.range a.num_ants).foldlM
    (fun a i => deposit_pher a (a.tours.getD i []) (a.tour_length.getD i 0))
    (evaporate_pher a)

/-- The loop `for (j = 0; j < num_ants; j++) construct_tour(j);` of `run`. -/
def constructAll (fuel : Nat) (a : ACO) : Option ACO :=
  (List.range a.num_ants).foldlM (fun a j => construct_tour fuel a j) a

/-- The main loop of `ACO::run` with `remaining` rounds left, entered at round `i`. -/
def runLoop (fuel : Nat) (iterations : Nat) : Nat → Nat → ACO → ℝ → ℝ → Option ACO
  | 0, _, a, _, _ => some a
  | remaining + 1, i, a, prev_best, curr_best =>
    match constructAll fuel a with
    | none => none
    | some a1 =>
      match update_pher a1 with
      | none => none
      | some a2 =>
        if i % 100 = 0 ∨ i = iterations - 1 then
          if curr_best = a2.best_length then some a2
          else runLoop fuel iterations remaining (i + 1) a2 curr_best a2.best_length
        else runLoop fuel iterations remaining (i + 1) a2 prev_best curr_best

/-- Method `ACO::run`. -/
def run (fuel : Nat) (a : ACO) (iterations : Nat) : Option ACO :=
  runLoop fuel iterations iterations 0 a (DBL_MAX : ℝ) (DBL_MAX : ℝ)

/-- Method `ACO::final_route`. -/
def final_route (a : ACO) : List Int :=
  (List.range a.num_cities).map
      (fun i => a.best_tour.getD ((a.best_tour.indexOf 0 + i) % a.num_cities) (-1))
    ++ [0]

/-- Method `ACO::best_distance`. -/
def best_distance (a : ACO) : ℝ := a.best_length

/-- A tour as `construct_tour` stores it for `n` cities: every city once. -/
def IsTour (n : Nat) (tour : List Int) : Prop :=
  tour.Perm ((List.range n).map Int.ofNat)

/-- The relation between `visited` and the part `path` of the tour written so
far that the loop of `construct_tour` maintains for `n` cities. -/
structure TourInv (n : Nat) (visited : List Bool) (path : List Nat) : Prop where
  vlen : visited.length = n
  vis : ∀ j, j < n → (visited.getD j false = true ↔ j ∈ path)
  nodup : path.Nodup
  lt : ∀ j ∈ path, j < n

/-- The conditions under which the routing stage is analysed: the object is
built on the non-empty point list `pts` whose distance computation stays in
`int` range, the pheromone is non-negative, `rho <= 1`, `Q >= 0`, the canonical
real draws lie in `[0,1)`, and among any `fuel` consecutive integer draws every
city occurs. -/
structure WF (fuel : Nat) (pts : List Point) (a : ACO) : Prop where
  graph_eq : a.graph = Graph.new pts
  cities : a.num_cities = pts.length
  pos : 0 < pts.length
  inRange : Graph.inIntRange pts
  pher_nonneg : ∀ i j, 0 ≤ (a.pher_mat.getD i []).getD j 0
  rho_le : a.rho ≤ 1
  Q_nonneg : 0 ≤ a.Q
  reals : a.rng.RealsInUnit
  fair : a.rng.Fair fuel pts.length
  tours_len : a.tours.length = a.num_ants
  tour_length_len : a.tour_length.length = a.num_ants
  tour_length_nonneg : ∀ i, 0 ≤ a.tour_length.getD i 0

end ACO

/-! ## smo.cpp -/

/-- Library call `std::vector::resize(n, v)`: keeps the first `n` elements and pads with `v`. -/
def resize {α : Type} (l : List α) (n : Nat) (v : α) : List α :=
  l.take n ++ List.replicate (n - l.length) v

/-- Class `SMO`. -/
structure SMO where
  m_num_clusters : Nat
  m_iterations : Nat
  m_graph : Graph
  m_population_size : Nat
  m_local_leader_limit : Int
  m_global_leader_limit : Int
  m_pr : ℚ
  m_x_bounds : ℚ × ℚ
  m_y_bounds : ℚ × ℚ
  m_population : List (List Point)
  m_fitness : List ℚ
  m_local_leaders : List (List Point)
  m_local_leader_fitness : List ℚ
  m_local_leader_limit_count : List Int
  m_global_leader : List Point
  m_global_leader_fitness : ℚ
  m_global_leader_limit_count : Int
  m_group_id : List Nat
  m_num_groups : Nat
  m_rng : Rng

namespace SMO

/-- Constructor `SMO::SMO`. -/
def new (num_clusters iterations : Nat) (g : Graph) (population_size : Nat)
    (local_leader_limit global_leader_limit : Int) (pr : ℚ) (rng : Rng) : SMO :=
  { m_num_clusters := num_clusters
    m_iterations := iterations
    m_graph := g
    m_population_size := population_size
    m_local_leader_limit := local_leader_limit
    m_global_leader_limit := global_leader_limit
    m_pr := pr
    m_x_bounds := (0, 0)
    m_y_bounds := (0, 0)
    m_population := []
    m_fitness := []
    m_local_leaders := []
    m_local_leader_fitness := []
    m_local_leader_limit_count := []
    m_global_leader := []
    m_global_leader_fitness := DBL_MAX
    m_global_leader_limit_count := 0
    m_group_id := []
    m_num_groups := 1
    m_rng := rng }

/-- The inner `for j` loop of `assignPointsToClusters` for the point `pt`:
the pair `(min_dist_sq, best_cluster)` it ends with. -/
def nearestCentroid (num_clusters : Nat) (pt : Point) (position : List Point) : ℚ × Nat :=
  (List.range num_clusters).foldl
    (fun (acc : ℚ × Nat) j =>
      if (pt.1 - (position.getD j (0, 0)).1) * (pt.1 - (position.getD j (0, 0)).1)
          + (pt.2 - (position.getD j (0, 0)).2) * (pt.2 - (position.getD j (0, 0)).2) < acc.1
      then ((pt.1 - (position.getD j (0, 0)).1) * (pt.1 - (position.getD j (0, 0)).1)
          + (pt.2 - (position.getD j (0, 0)).2) * (pt.2 - (position.getD j (0, 0)).2), j)
      else acc)
    (DBL_MAX, 0)

/-- Method `SMO::assignPointsToClusters`: the value returned and the final `clusters`.
(For `m_num_clusters = 0` the source writes `clusters[0]` out of range; the
embedding then leaves `clusters` empty.) -/
def assignPointsToClusters (s : SMO) (position : List Point) : ℚ × List (List Nat) :=
  (List.range s.m_graph.getPoints.length).foldl
    (fun (acc : ℚ × List (List Nat)) i =>
      (acc.1 + (nearestCentroid s.m_num_clusters (s.m_graph.getPoints.getD i (0, 0)) position).1,
        acc.2.set (nearestCentroid s.m_num_clusters (s.m_graph.getPoints.getD i (0, 0)) position).2
          (acc.2.getD
            (nearestCentroid s.m_num_clusters (s.m_graph.getPoints.getD i (0, 0)) position).2 []
            ++ [i])))
    (0, List.replicate s.m_num_clusters [])

/-- Method `SMO::calculateFitness`. -/
def calculateFitness (s : SMO) (position : List Point) : ℚ :=
  (assignPointsToClusters s position).1

/-- Method `SMO::clampCentroid`. -/
def clampCentroid (s : SMO) (centroid : Point) : Point :=
  (max s.m_x_bounds.1 (min s.m_x_bounds.2 centroid.1),
    max s.m_y_bounds.1 (min s.m_y_bounds.2 centroid.2))

/-- The bounding-box loop of `initialize`: `(m_x_bounds, m_y_bounds)`. -/
def boundsOf (pts : List Point) : (ℚ × ℚ) × (ℚ × ℚ) :=
  pts.foldl
    (fun (b : (ℚ × ℚ) × (ℚ × ℚ)) pt =>
      ((if pt.1 < b.1.1 then pt.1 else b.1.1, if pt.1 > b.1.2 then pt.1 else b.1.2),
        (if pt.2 < b.2.1 then pt.2 else b.2.1, if pt.2 > b.2.2 then pt.2 else b.2.2)))
    ((DBL_MAX, -DBL_MAX), (DBL_MAX, -DBL_MAX))

/-- The loop `for j` of `initialize` drawing the `k` centroids of one monkey with
`dist_x`, `dist_y`. -/
def drawCentroids (xb yb : ℚ × ℚ) : Nat → Rng → List Point × Rng
  | 0, g => ([], g)
  | k + 1, g =>
    ((xb.1 + g.nextReal.1 * (xb.2 - xb.1),
        yb.1 + g.nextReal.2.nextReal.1 * (yb.2 - yb.1))
      :: (drawCentroids xb yb k g.nextReal.2.nextReal.2).1,
      (drawCentroids xb yb k g.nextReal.2.nextReal.2).2)

/-- One round `i` of the population loop of `initialize`. -/
def initMonkey (s : SMO) (i : Nat) : SMO :=
  let dc := drawCentroids s.m_x_bounds s.m_y_bounds s.m_num_clusters s.m_rng
  if calculateFitness s dc.1 < s.m_global_leader_fitness then
    { s with
      m_population := s.m_population.set i dc.1
      m_fitness := s.m_fitness.set i (calculateFitness s dc.1)
      m_rng := dc.2
      m_global_leader_fitness := calculateFitness s dc.1
      m_global_leader := dc.1 }
  else
    { s with
      m_population := s.m_population.set i dc.1
      m_fitness := s.m_fitness.set i (calculateFitness s dc.1)
      m_rng := dc.2 }

/-- Method `SMO::initialize` (that name is reserved in Lean). -/
def init (s : SMO) : SMO :=
  let s1 : SMO :=
    { s with
      m_x_bounds := (boundsOf s.m_graph.getPoints).1
      m_y_bounds := (boundsOf s.m_graph.getPoints).2
      m_population := List.replicate s.m_population_size (List.replicate s.m_num_clusters (0, 0))
      m_fitness := List.replicate s.m_population_size DBL_MAX
      m_group_id := List.replicate s.m_population_size 0
      m_local_leaders := [List.replicate s.m_num_clusters (0, 0)]
      m_local_leader_fitness := [DBL_MAX]
      m_local_leader_limit_count := [0]
      m_global_leader := resize s.m_global_leader s.m_num_clusters (0, 0) }
  let s2 := (List.range s.m_population_size).foldl initMonkey s1
  { s2 with
    m_local_leaders := s2.m_local_leaders.set 0 s2.m_global_leader
    m_local_leader_fitness := s2.m_local_leader_fitness.set 0 s2.m_global_leader_fitness }

/-- The loop `do { k = uniform(0, P-1)(rng); } while (m_group_id[k] != group || k == i);`
of `localLeaderPhase`, with at most `fuel` draws. -/
def pickPeer (s : SMO) (i group : Nat) : Nat → Rng → Option (Nat × Rng)
  | 0, _ => none
  | fuel + 1, g =>
    if s.m_group_id.getD (g.nextInt s.m_population_size).1 0 ≠ group
        ∨ (g.nextInt s.m_population_size).1 = i then
      pickPeer s i group fuel (g.nextInt s.m_population_size).2
    else some (g.nextInt s.m_population_size)

/-- The two-term move shared by the leader phases: from `p` a random fraction
`u1`, `u2` toward `leader`, then a signed fraction `2*u3-1`, `2*u4-1` toward `other`. -/
def moveToward (p leader other : Point) (u1 u2 u3 u4 : ℚ) : Point :=
  (p.1 + u1 * (leader.1 - p.1)
      + (u3 * 2 - 1) * (other.1 - (p.1 + u1 * (leader.1 - p.1))),
    p.2 + u2 * (leader.2 - p.2)
      + (u4 * 2 - 1) * (other.2 - (p.2 + u2 * (leader.2 - p.2))))

/-- One round `j` of the centroid loop of `localLeaderPhase` for monkey `i`, on
`(new_pos, m_rng)`. -/
def llpCentroid (fuel : Nat) (s : SMO) (i : Nat) (acc : List Point × Rng) (j : Nat) :
    Option (List Point × Rng) :=
  if acc.2.nextReal.1 ≥ s.m_pr then
    match pickPeer s i (s.m_group_id.getD i 0) fuel acc.2.nextReal.2.nextReal.2.nextReal.2 with
    | none => none
    | some (k, g) =>
      some
        (acc.1.set j
          (clampCentroid s
            (moveToward (acc.1.getD j (0, 0))
              ((s.m_local_leaders.getD (s.m_group_id.getD i 0) []).getD j (0, 0))
              ((s.m_population.getD k []).getD j (0, 0))
              acc.2.nextReal.2.nextReal.1 acc.2.nextReal.2.nextReal.2.nextReal.1
              g.nextReal.1 g.nextReal.2.nextReal.1)),
          g.nextReal.2.nextReal.2)
  else some (acc.1.set j (clampCentroid s (acc.1.getD j (0, 0))), acc.2.nextReal.2)

/-- The greedy replacement closing a round of a leader phase: monkey `i` takes
`new_pos` when its fitness is strictly better; the generator becomes `g`. -/
def accept (s : SMO) (i : Nat) (new_pos : List Point) (g : Rng) : SMO :=
  if calculateFitness s new_pos < s.m_fitness.getD i 0 then
    { s with
      m_population := s.m_population.set i new_pos
      m_fitness := s.m_fitness.set i (calculateFitness s new_pos)
      m_rng := g }
  else { s with m_rng := g }

/-- One round `i` of the monkey loop of `localLeaderPhase`. -/
def llpMonkey (fuel : Nat) (s : SMO) (i : Nat) : Option SMO :=
  match (List.range s.m_num_clusters).foldlM (llpCentroid fuel s i)
      (s.m_population.getD i [], s.m_rng) with
  | none => none
  | some (new_pos, g) => some (accept s i new_pos g)

/-- Method `SMO::localLeaderPhase`; `none` when a peer loop runs out of fuel. -/
def localLeaderPhase (fuel : Nat) (s : SMO) : Option SMO :=
  (List.range s.m_population_size).foldlM (llpMonkey fuel) s

/-- The value `max_fit` of `globalLeaderPhase` after its guard. -/
def maxFit (fitness : List ℚ) : ℚ :=
  if fitness.foldl (fun m f => if f ≠ DBL_MAX ∧ f > m then f else m) (-1) ≤ 0 then 1
  else fitness.foldl (fun m f => if f ≠ DBL_MAX ∧ f > m then f else m) (-1)

/-- The entry `prob[i]` of `globalLeaderPhase`. -/
def glpProb (fitness : List ℚ) (i : Nat) : ℚ :=
  9 / 10 * ((maxFit fitness - fitness.getD i 0) / maxFit fitness) + 1 / 10

/-- The value `sum_fit` of `globalLeaderPhase`. -/
def sumFit (fitness : List ℚ) (population_size : Nat) : ℚ :=
  (List.range population_size).foldl (fun sum_fit i => sum_fit + glpProb fitness i) 0

/-- The roulette scan of `globalLeaderPhase` over the monkeys `ks`, entered with
the running value `cumulative`; `none` stands for `selected_monkey == -1`. -/
def roulette (fitness : List ℚ) (r : ℚ) : List Nat → ℚ → Option Nat
  | [], _ => none
  | k :: ks, cumulative =>
    if r ≤ cumulative + glpProb fitness k then some k
    else roulette fitness r ks (cumulative + glpProb fitness k)

/-- One round `j` of the centroid loop of `globalLeaderPhase` for the donor
`selected_monkey`, on `(new_pos, m_rng)`. -/
def glpCentroid (s : SMO) (selected_monkey : Nat) (acc : List Point × Rng) (j : Nat) :
    List Point × Rng :=
  if acc.2.nextReal.1 ≥ s.m_pr then
    (acc.1.set j
      (clampCentroid s
        (moveToward (acc.1.getD j (0, 0)) (s.m_global_leader.getD j (0, 0))
          ((s.m_population.getD selected_monkey []).getD j (0, 0))
          acc.2.nextReal.2.nextReal.1 acc.2.nextReal.2.nextReal.2.nextReal.1
          acc.2.nextReal.2.nextReal.2.nextReal.2.nextReal.1
          acc.2.nextReal.2.nextReal.2.nextReal.2.nextReal.2.nextReal.1)),
      acc.2.nextReal.2.nextReal.2.nextReal.2.nextReal.2.nextReal.2)
  else (acc.1.set j (clampCentroid s (acc.1.getD j (0, 0))), acc.2.nextReal.2)

/-- One round `i` of the monkey loop of `globalLeaderPhase`; `fitness0` is
`m_fitness` at the start of the phase, from which `prob` and `sum_fit` were built. -/
def glpMonkey (fitness0 : List ℚ) (s : SMO) (i : Nat) : SMO :=
  let selected_monkey :=
    (roulette fitness0 (s.m_rng.nextReal.1 * sumFit fitness0 s.m_population_size)
      (List.range s.m_population_size) 0).getD i
  let np := (List.range s.m_num_clusters).foldl (glpCentroid s selected_monkey)
    (s.m_population.getD i [], s.m_rng.nextReal.2)
  accept s i np.1 np.2

/-- Method `SMO::globalLeaderPhase`. -/
def globalLeaderPhase (s : SMO) : SMO :=
  (List.range s.m_population_size).foldl (glpMonkey s.m_fitness) s

/-- The first loop of `globalLeaderLearningPhase`, one round `i`. -/
def gllpMonkey (s : SMO) (i : Nat) : SMO :=
  if s.m_fitness.getD i 0 < s.m_local_leader_fitness.getD (s.m_group_id.getD i 0) 0 then
    { s with
      m_local_leader_fitness :=
        s.m_local_leader_fitness.set (s.m_group_id.getD i 0) (s.m_fitness.getD i 0)
      m_local_leaders :=
        s.m_local_leaders.set (s.m_group_id.getD i 0) (s.m_population.getD i []) }
  else s

/-- The search for the best local leader in `globalLeaderLearningPhase`:
`(best_local_fitness, best_local_leader_idx)`. -/
def bestLocal (s : SMO) : ℚ × Nat :=
  (List.range (s.m_num_groups - 1)).foldl
    (fun (acc : ℚ × Nat) g0 =>
      if s.m_local_leader_fitness.getD (g0 + 1) 0 < acc.1 then
        (s.m_local_leader_fitness.getD (g0 + 1) 0, g0 + 1)
      else acc)
    (s.m_local_leader_fitness.getD 0 0, 0)

/-- Method `SMO::globalLeaderLearningPhase`. -/
def globalLeaderLearningPhase (s : SMO) : SMO :=
  let s1 := (List.range s.m_population_size).foldl gllpMonkey
    { s with
      m_local_leader_fitness := s.m_local_leader_fitness.map fun _ => DBL_MAX }
  if (bestLocal s1).1 < s1.m_global_leader_fitness then
    { s1 with
      m_global_leader_fitness := (bestLocal s1).1
      m_global_leader := s1.m_local_leaders.getD (bestLocal s1).2 []
      m_global_leader_limit_count := 0 }
  else { s1 with m_global_leader_limit_count := s1.m_global_leader_limit_count + 1 }

/-- The flag `local_leader_updated` of `localLeaderLearningPhase` for group `g`. -/
def localLeaderUpdated (s : SMO) (g : Nat) : Bool :=
  (List.range s.m_population_size).any fun i =>
    decide (s.m_group_id.getD i 0 = g ∧ s.m_fitness.getD i 0 < s.m_local_leader_fitness.getD g 0)

/-- Method `SMO::localLeaderLearningPhase`. -/
def localLeaderLearningPhase (s : SMO) : SMO :=
  (List.range s.m_num_groups).foldl
    (fun s g =>
      if localLeaderUpdated s g = true then
        { s with m_local_leader_limit_count := s.m_local_leader_limit_count.set g 0 }
      else
        { s with
          m_local_leader_limit_count :=
            s.m_local_leader_limit_count.set g (s.m_local_leader_limit_count.getD g 0 + 1) })
    s

/-- The first part of `localLeaderDecisionPhase`: the split or the merge taken
when the global leader's counter exceeds its limit. -/
def regroup (s : SMO) : SMO :=
  if s.m_global_leader_limit_count > s.m_global_leader_limit then
    if s.m_num_groups < max 1 (s.m_population_size / 5) then
      { s with
        m_global_leader_limit_count := 0
        m_num_groups := s.m_num_groups + 1
        m_local_leaders :=
          resize s.m_local_leaders (s.m_num_groups + 1) (List.replicate s.m_num_clusters (0, 0))
        m_local_leader_fitness := resize s.m_local_leader_fitness (s.m_num_groups + 1) DBL_MAX
        m_local_leader_limit_count := resize s.m_local_leader_limit_count (s.m_num_groups + 1) 0
        m_group_id :=
          (List.range s.m_population_size).foldl
            (fun gid i =>
              gid.set i (min (i / (s.m_population_size / (s.m_num_groups + 1)))
                (s.m_num_groups + 1 - 1)))
            s.m_group_id }
    else
      { s with
        m_global_leader_limit_count := 0
        m_num_groups := 1
        m_local_leaders := resize s.m_local_leaders 1 s.m_global_leader
        m_local_leader_fitness := resize s.m_local_leader_fitness 1 s.m_global_leader_fitness
        m_local_leader_limit_count := resize s.m_local_leader_limit_count 1 0
        m_group_id := s.m_group_id.map fun _ => 0 }
  else s

/-- One round `j` of the re-seeding loop of `localLeaderDecisionPhase` for monkey
`i` of group `g`. -/
def reseedCentroid (g i : Nat) (s : SMO) (j : Nat) : SMO :=
  { s with
    m_population :=
      s.m_population.set i
        ((s.m_population.getD i []).set j
          (clampCentroid s
            ((s.m_global_leader.getD j (0, 0)).1
                + s.m_rng.nextReal.1
                  * (((s.m_local_leaders.getD g []).getD j (0, 0)).1
                    - ((s.m_population.getD i []).getD j (0, 0)).1),
              (s.m_global_leader.getD j (0, 0)).2
                + s.m_rng.nextReal.2.nextReal.1
                  * (((s.m_local_leaders.getD g []).getD j (0, 0)).2
                    - ((s.m_population.getD i []).getD j (0, 0)).2))))
    m_rng := s.m_rng.nextReal.2.nextReal.2 }

/-- One round `i` of the monkey loop of the re-seeding of group `g`. -/
def reseedMonkey (g : Nat) (s : SMO) (i : Nat) : SMO :=
  if s.m_group_id.getD i 0 = g then
    let s1 := (List.range s.m_num_clusters).foldl (reseedCentroid g i) s
    { s1 with m_fitness := s1.m_fitness.set i (calculateFitness s1 (s1.m_population.getD i [])) }
  else s

/-- One round `g` of the group loop of `localLeaderDecisionPhase`. -/
def reseedGroup (s : SMO) (g : Nat) : SMO :=
  if s.m_local_leader_limit_count.getD g 0 > s.m_local_leader_limit then
    (List.range s.m_population_size).foldl (reseedMonkey g)
      { s with m_local_leader_limit_count := s.m_local_leader_limit_count.set g 0 }
  else s

/-- Method `SMO::localLeaderDecisionPhase`. -/
def localLeaderDecisionPhase (s : SMO) : SMO :=
  (List.range (regroup s).m_num_groups).foldl reseedGroup (regroup s)

/-- One round of the main loop of `SMO::run`: the five phases in order. -/
def iteration (fuel : Nat) (s : SMO) : Option SMO :=
  match localLeaderPhase fuel s with
  | none => none
  | some s1 =>
    some (localLeaderDecisionPhase
      (localLeaderLearningPhase (globalLeaderLearningPhase (globalLeaderPhase s1))))

/-- The main loop of `SMO::run` with `remaining` rounds left. -/
def runLoop (fuel : Nat) : Nat → SMO → Option SMO
  | 0, s => some s
  | remaining + 1, s =>
    match iteration fuel s with
    | none => none
    | some s1 => runLoop fuel remaining s1

/-- Method `SMO::run`. -/
def run (fuel : Nat) (s : SMO) : Option SMO :=
  runLoop fuel s.m_iterations (init s)

/-- The members of `SMO` that are only set by the constructor keep their value
from `s` to `t`. -/
def SameConfig (s t : SMO) : Prop :=
  t.m_num_clusters = s.m_num_clusters ∧ t.m_iterations = s.m_iterations ∧
    t.m_graph = s.m_graph ∧ t.m_population_size = s.m_population_size ∧
    t.m_local_leader_limit = s.m_local_leader_limit ∧
    t.m_global_leader_limit = s.m_global_leader_limit ∧ t.m_pr = s.m_pr

/-- Method `SMO::getClusters`. -/
def getClusters (s : SMO) : List (List Nat) :=
  (assignPointsToClusters s s.m_global_leader).2

end SMO

/-! ## hybrid.cpp -/

/-- Class `Hybrid`. -/
structure Hybrid where
  m_main_graph : Graph
  m_num_salesmen : Nat
  m_smo_iterations : Nat
  m_smo_population_size : Nat
  m_smo_local_limit : Int
  m_smo_global_limit : Int
  m_smo_pr : ℚ
  m_aco_ants : Nat
  m_aco_iterations : Nat
  m_aco_alpha : ℚ
  m_aco_beta : ℚ
  m_aco_rho : ℚ
  m_aco_Q : ℚ
  m_clusters : List (List Nat)
  m_final_routes : List (List Nat)
  m_total_length : ℝ

namespace Hybrid

/-- Constructor `Hybrid::Hybrid`. -/
def new (pts : List Point) (num_salesmen smo_iterations smo_population_size : Nat)
    (smo_local_limit smo_global_limit : Int) (smo_pr : ℚ) (aco_ants aco_iterations : Nat)
    (aco_alpha aco_beta aco_rho aco_Q : ℚ) : Hybrid :=
  { m_main_graph := Graph.new pts
    m_num_salesmen := num_salesmen
    m_smo_iterations := smo_iterations
    m_smo_population_size := smo_population_size
    m_smo_local_limit := smo_local_limit
    m_smo_global_limit := smo_global_limit
    m_smo_pr := smo_pr
    m_aco_ants := aco_ants
    m_aco_iterations := aco_iterations
    m_aco_alpha := aco_alpha
    m_aco_beta := aco_beta
    m_aco_rho := aco_rho
    m_aco_Q := aco_Q
    m_clusters := []
    m_final_routes := []
    m_total_length := 0 }

/-- Steps 3 and 4 of the loop body of `Hybrid::run` for one cluster: the `ACO`
object built on the cluster's points, after `aco.run(m_aco_iterations)`. -/
def acoOfCluster (h : Hybrid) (fuel : Nat) (rng : Rng) (cluster_indices : List Nat) :
    Option ACO :=
  match ACO.new (cluster_indices.map fun original_index =>
      h.m_main_graph.getPoints.getD original_index (0, 0))
      h.m_aco_ants h.m_aco_alpha h.m_aco_beta h.m_aco_rho h.m_aco_Q rng with
  | none => none
  | some aco => aco.run fuel h.m_aco_iterations

/-- Step 5 of the loop body of `Hybrid::run`: `global_route`; `none` when a
`local_index` is not an index of `cluster_indices`. -/
def translate (cluster_indices : List Nat) (local_route : List Int) : Option (List Nat) :=
  local_route.mapM fun (local_index : Int) =>
    if 0 ≤ local_index ∧ local_index < (cluster_indices.length : Int) then
      some (cluster_indices.getD local_index.toNat 0)
    else none

/-- The loop over the clusters of `Hybrid::run`, entered at cluster `i` with
`(m_final_routes, m_total_length)`; cluster `i` is routed by an `ACO` object
seeded with `acoRng i`. -/
def routeLoop (h : Hybrid) (fuel : Nat) (acoRng : Nat → Rng) :
    List (List Nat) → Nat → List (List Nat) × ℝ → Option (List (List Nat) × ℝ)
  | [], _, acc => some acc
  | cluster_indices :: rest, i, acc =>
    if cluster_indices = [] then routeLoop h fuel acoRng rest (i + 1) (acc.1 ++ [[]], acc.2)
    else
      match acoOfCluster h fuel (acoRng i) cluster_indices with
      | none => none
      | some aco =>
        match translate cluster_indices aco.final_route with
        | none => none
        | some global_route =>
          routeLoop h fuel acoRng rest (i + 1)
            (acc.1 ++ [global_route], acc.2 + aco.best_distance)

/-- Method `Hybrid::run`; the `SMO` object is seeded with `smoRng`. -/
def run (h : Hybrid) (fuel : Nat) (smoRng : Rng) (acoRng : Nat → Rng) : Option Hybrid :=
  match (SMO.new h.m_num_salesmen h.m_smo_iterations h.m_main_graph h.m_smo_population_size
      h.m_smo_local_limit h.m_smo_global_limit h.m_smo_pr smoRng).run fuel with
  | none => none
  | some smo =>
    match routeLoop h fuel acoRng smo.getClusters 0 ([], 0) with
    | none => none
    | some res =>
      some { h with m_clusters := smo.getClusters, m_final_routes := res.1, m_total_length := res.2 }

/-- What `Hybrid::run` is expected to store for one cluster: nothing for an empty
cluster, and for a cluster of `n` points a route of `n + 1` entries whose first
`n` entries are the cluster's indices, each once, and whose last entry repeats
the first. -/
def RouteOK (cluster_indices route : List Nat) : Prop :=
  if cluster_indices = [] then route = []
  else
    route.length = cluster_indices.length + 1 ∧
      (route.take cluster_indices.length).Perm cluster_indices ∧
      route.getLast? = route.head?

/-- What each cluster adds to `m_total_length`, for the clusters `cs` numbered from
`i`: nothing for an empty cluster, and `aco.best_distance()` of the cluster's
`ACO` object after its run otherwise. -/
def clusterLengths (h : Hybrid) (fuel : Nat) (acoRng : Nat → Rng) :
    List (List Nat) → Nat → List ℝ
  | [], _ => []
  | cluster_indices :: rest, i =>
    (if cluster_indices = [] then 0
      else
        match acoOfCluster h fuel (acoRng i) cluster_indices with
        | some aco => aco.best_distance
        | none => 0) :: clusterLengths h fuel acoRng rest (i + 1)

/-- Method `Hybrid::getRoutes`. -/
def getRoutes (h : Hybrid) : List (List Nat) := h.m_final_routes

/-- Method `Hybrid::getTotalLength`. -/
def getTotalLength (h : Hybrid) : ℝ := h.m_total_length

end Hybrid

/-! ## Notions used in the statements about smo.cpp and aco.cpp -/

/-- The squared Euclidean distance between a point and a centroid: the quantity
`dx * dx + dy * dy` of `assignPointsToClusters`. -/
def SMO.distSq (pt c : Point) : ℚ :=
  (pt.1 - c.1) * (pt.1 - c.1) + (pt.2 - c.2) * (pt.2 - c.2)

/-- A generator used in examples: the canonical real draws are the entries of
`l` followed by zeros, and every integer draw is 0. -/
def Rng.ofList (l : List ℚ) : Rng := { ints := fun _ => 0, reals := fun k => l.getD k 0 }

/-- An `n` by `n` matrix whose entry `[i][j]` equals its entry `[j][i]`. -/
def ACO.Symmetric (n : Nat) (m : List (List ℝ)) : Prop :=
  m.length = n ∧ (∀ row ∈ m, row.length = n) ∧
    ∀ i j, (m.getD i []).getD j 0 = (m.getD j []).getD i 0

/-- The body of the loop of `ACO::run` up to the checkpoint: every ant's
`construct_tour`, then `update_pher`. -/
def ACO.round (fuel : Nat) (a : ACO) : Option ACO :=
  match ACO.constructAll fuel a with
  | none => none
  | some a1 => ACO.update_pher a1

/-- The object after `k` rounds of tour construction and pheromone update. -/
def ACO.rounds (fuel : Nat) : Nat → ACO → Option ACO
  | 0, a => some a
  | k + 1, a =>
    match ACO.rounds fuel k a with
    | none => none
    | some a1 => ACO.round fuel a1

/-- The best-known tour is a list of city numbers whose closed length in the
object's graph is the best-known length. -/
def ACO.BestClosed (a : ACO) : Prop :=
  ∃ path : List Nat, a.best_tour = path.map Int.ofNat ∧
    a.best_length = ACO.closedLength a.graph path

/-- The early-exit condition at checkpoint `k` of a run of `I` rounds started on
`a0`: `k` is a multiple of 100 with `100 <= k < I - 1`, and the best-known length
after round `k` equals the best-known length after round `k - 100`, the value
recorded at the previous checkpoint. -/
def ACO.StopsAt (fuel : Nat) (a0 : ACO) (I k : Nat) : Prop :=
  100 ≤ k ∧ k % 100 = 0 ∧ k + 1 < I ∧
    ∃ s s', ACO.rounds fuel (k + 1) a0 = some s ∧ ACO.rounds fuel (k - 99) a0 = some s' ∧
      s.best_length = s'.best_length

/-- The length of a route as its reader measures it: the sum of the graph
distances between consecutive entries. -/
def ACO.routeLength (g : Graph) (route : List Int) : ℝ :=
  (List.range (route.length - 1)).foldl
    (fun total i => total + g.getDistance (route.getD i 0).toNat (route.getD (i + 1) 0).toNat) 0

/-- The sum of the graph distances between consecutive entries of a list of
cities, by recursion on the list. -/
def ACO.pairSum (g : Graph) : List Nat → ℝ
  | [] => 0
  | [_] => 0
  | x :: y :: t => g.getDistance x y + ACO.pairSum g (y :: t)

/-- The best-known tour is a list of `num_cities` city numbers that contains
city 0, and the best-known length is its closed length in the object's graph. -/
def ACO.BestRoute (a : ACO) : Prop :=
  ∃ path : List Nat, a.best_tour = path.map Int.ofNat ∧
    a.best_length = ACO.closedLength a.graph path ∧ path.length = a.num_cities ∧ 0 ∈ path

/-- Point `c` lies inside the bounding box of the points `pts`: its `x` is not
below the `x` of some point and not above the `x` of some point, and its `y`
likewise. -/
def SMO.InBox (pts : List Point) (c : Point) : Prop :=
  (∃ p ∈ pts, p.1 ≤ c.1) ∧ (∃ p ∈ pts, c.1 ≤ p.1) ∧
    (∃ p ∈ pts, p.2 ≤ c.2) ∧ ∃ p ∈ pts, c.2 ≤ p.2

/-- Every centroid of every candidate of the population and every centroid of
the global leader lies inside the bounding box of the points. -/
def SMO.AllInBox (s : SMO) : Prop :=
  (∀ pos ∈ s.m_population, ∀ c ∈ pos, SMO.InBox s.m_graph.getPoints c) ∧
    ∀ c ∈ s.m_global_leader, SMO.InBox s.m_graph.getPoints c

/-- Point `c` lies between the bounds `xb` and `yb`, the two ends included. -/
def SMO.InBounds (xb yb : ℚ × ℚ) (c : Point) : Prop :=
  xb.1 ≤ c.1 ∧ c.1 ≤ xb.2 ∧ yb.1 ≤ c.2 ∧ c.2 ≤ yb.2

/-- The positions of a state with bounds `xb`, `yb`: every centroid of the
population and of the global leader lies between the bounds, the global leader's
fitness is at most `numeric_limits<double>::max()`, and the vectors of local
leaders and of their fitnesses have the same length. -/
structure SMO.BoxInv (xb yb : ℚ × ℚ) (s : SMO) : Prop where
  x_bounds : s.m_x_bounds = xb
  y_bounds : s.m_y_bounds = yb
  pop : ∀ pos ∈ s.m_population, ∀ c ∈ pos, SMO.InBounds xb yb c
  leader : ∀ c ∈ s.m_global_leader, SMO.InBounds xb yb c
  glf_le : s.m_global_leader_fitness ≤ DBL_MAX
  lens : s.m_local_leaders.length = s.m_local_leader_fitness.length

/-- The group structure of a state is well formed: between 1 and
`max(1, P / 5)` groups, the three local-leader vectors have one entry per group,
every monkey has a group number below the number of groups, the group numbers do
not decrease with the monkey's index, and, when there are at least two monkeys,
every group has at least two. -/
structure SMO.GroupsWF (s : SMO) : Prop where
  groups_pos : 1 ≤ s.m_num_groups
  groups_le : s.m_num_groups ≤ max 1 (s.m_population_size / 5)
  leaders_len : s.m_local_leaders.length = s.m_num_groups
  fitness_len : s.m_local_leader_fitness.length = s.m_num_groups
  count_len : s.m_local_leader_limit_count.length = s.m_num_groups
  ids_len : s.m_group_id.length = s.m_population_size
  ids_lt : ∀ i, i < s.m_population_size → s.m_group_id.getD i 0 < s.m_num_groups
  ids_mono : ∀ i j, i ≤ j → j < s.m_population_size →
    s.m_group_id.getD i 0 ≤ s.m_group_id.getD j 0
  members : 2 ≤ s.m_population_size → ∀ g, g < s.m_num_groups → 2 ≤ s.m_group_id.count g

/-- From `s` to `t` the group structure is the same (number of groups,
population size, lengths of the three local-leader vectors, group numbers) and
the generator has only advanced. -/
def SMO.SameGroups (s t : SMO) : Prop :=
  t.m_num_groups = s.m_num_groups ∧ t.m_population_size = s.m_population_size ∧
    t.m_local_leaders.length = s.m_local_leaders.length ∧
    t.m_local_leader_fitness.length = s.m_local_leader_fitness.length ∧
    t.m_local_leader_limit_count.length = s.m_local_leader_limit_count.length ∧
    t.m_group_id = s.m_group_id ∧
    ∀ fuel n, s.m_rng.Fair fuel n → t.m_rng.Fair fuel n

/-- The first loop of `globalLeaderLearningPhase` after `n` rounds, started in
the state `s` and now in the state `t`: only the local leaders and their
fitnesses have changed, the fitness recorded for the group of each of the first
`n` monkeys is at most that monkey's fitness, and the fitness recorded for a
group is `numeric_limits<double>::max()` or the fitness of one of the first `n`
monkeys, a member of the group, whose position is the recorded leader. -/
structure SMO.LeadersOf (s : SMO) (n : Nat) (t : SMO) : Prop where
  fitness_eq : t.m_fitness = s.m_fitness
  ids_eq : t.m_group_id = s.m_group_id
  pop_eq : t.m_population = s.m_population
  size_eq : t.m_population_size = s.m_population_size
  count_eq : t.m_local_leader_limit_count = s.m_local_leader_limit_count
  leader_eq : t.m_global_leader = s.m_global_leader
  glf_eq : t.m_global_leader_fitness = s.m_global_leader_fitness
  groups_eq : t.m_num_groups = s.m_num_groups
  x_eq : t.m_x_bounds = s.m_x_bounds
  y_eq : t.m_y_bounds = s.m_y_bounds
  fit_len : t.m_local_leader_fitness.length = s.m_local_leader_fitness.length
  lead_len : t.m_local_leaders.length = s.m_local_leaders.length
  le_member : ∀ i, i < n →
    t.m_local_leader_fitness.getD (s.m_group_id.getD i 0) 0 ≤ s.m_fitness.getD i 0
  attained : ∀ g, g < s.m_local_leader_fitness.length →
    t.m_local_leader_fitness.getD g 0 ≤ DBL_MAX ∧
      (t.m_local_leader_fitness.getD g 0 = DBL_MAX ∨
        ∃ i, i < n ∧ s.m_group_id.getD i 0 = g ∧
          t.m_local_leader_fitness.getD g 0 = s.m_fitness.getD i 0 ∧
          t.m_local_leaders.getD g [] = s.m_population.getD i [])

/-- The population loop of `initialize` after `n` rounds, started on the object
`s` and now in the state `t`, for the bounds `xb`, `yb`: the first `n` monkeys
have been drawn between the bounds, and the global leader is still unset (before
the first round) or is a drawn position with a fitness below
`numeric_limits<double>::max()`. -/
structure SMO.InitInv (xb yb : ℚ × ℚ) (s : SMO) (n : Nat) (t : SMO) : Prop where
  x_bounds : t.m_x_bounds = xb
  y_bounds : t.m_y_bounds = yb
  clusters : t.m_num_clusters = s.m_num_clusters
  graph_eq : t.m_graph = s.m_graph
  pop_len : t.m_population.length = s.m_population_size
  reals : t.m_rng.RealsInUnit
  lens : t.m_local_leaders.length = t.m_local_leader_fitness.length
  drawn : ∀ i, i < n → ∀ c ∈ t.m_population.getD i [], SMO.InBounds xb yb c
  leader : (n = 0 ∧ t.m_global_leader_fitness = DBL_MAX) ∨
    (t.m_global_leader_fitness < DBL_MAX ∧ ∀ c ∈ t.m_global_leader, SMO.InBounds xb yb c)

end

/-! ## Properties of graph.cpp -/

namespace Graph

theorem truncToInt_neg (q : ℚ) : truncToInt (-q) = -truncToInt q := by
  simp [truncToInt, Int.neg_tdiv]

theorem distArg_comm (Points : List Point) (i j : Nat) :
    distArg Points i j = distArg Points j i := by
  have hx : ∀ a b : ℚ, truncToInt (a - b) * truncToInt (a - b)
      = truncToInt (b - a) * truncToInt (b - a) := by
    intro a b
    rw [← neg_sub b a, truncToInt_neg]; ring
  simp only [distArg]
  rw [hx, hx (Points.getD i (0, 0)).2]

theorem distArg_self (Points : List Point) (i : Nat) : distArg Points i i = 0 := by
  simp [distArg, truncToInt]

theorem getDistance_new (pts : List Point) (i j : Nat) (hi : i < pts.length)
    (hj : j < pts.length) :
    (new pts).getDistance i j = Real.sqrt ((distArg pts i j : Int) : ℝ) := by
  simp [getDistance, new, computeDistanceMatrix, List.getD_eq_getElem?_getD, hi, hj]

theorem getDistance_new_of_le (pts : List Point) (i j : Nat)
    (h : pts.length ≤ i ∨ pts.length ≤ j) : (new pts).getDistance i j = 0 := by
  rcases Nat.lt_or_ge i pts.length with hi | hi
  · have hj : pts.length ≤ j := by omega
    simp [getDistance, new, computeDistanceMatrix, List.getD_eq_getElem?_getD, hi,
      List.getElem?_eq_none, hj]
  · simp [getDistance, new, computeDistanceMatrix, List.getD_eq_getElem?_getD,
      List.getElem?_eq_none, hi]

end Graph

/-- C4: on the points (0,0), (1/2,0) the entry `dist[0][1]` built by
`computeDistanceMatrix` is 0, because `int dx` truncates the difference -1/2 to 0,
while the Euclidean distance between the two points is 1/2. -/
theorem C4_dist_entry_truncated :
    (Graph.new [(0, 0), (1 / 2, 0)]).getDistance 0 1 = 0 ∧
      euclid (0, 0) (1 / 2, 0) = 1 / 2 := by
  constructor
  · rw [Graph.getDistance_new _ _ _ (by simp) (by simp)]
    have h01 : Graph.distArg [(0, 0), (1 / 2, 0)] 0 1 = 0 := by decide!
    rw [h01]; simp
  · have h : ((((0 : ℚ) - 1 / 2) ^ 2 + ((0 : ℚ) - 0) ^ 2 : ℚ) : ℝ) = (1 / 2 : ℝ) ^ 2 := by
      norm_num
    simp only [euclid]
    rw [h, Real.sqrt_sq (by norm_num)]

/-- C5: on the collinear points (0,0), (3/4,0), (3/2,0) the matrix built by
`computeDistanceMatrix` has `dist[0][2] = 1` and `dist[0][1] = dist[1][2] = 0`, so
the triangle inequality `dist[0][2] <= dist[0][1] + dist[1][2]` is violated. -/
theorem C5_triangle_inequality_violated :
    ¬ ((Graph.new [(0, 0), (3 / 4, 0), (3 / 2, 0)]).getDistance 0 2
        ≤ (Graph.new [(0, 0), (3 / 4, 0), (3 / 2, 0)]).getDistance 0 1
          + (Graph.new [(0, 0), (3 / 4, 0), (3 / 2, 0)]).getDistance 1 2) := by
  rw [Graph.getDistance_new _ _ _ (by simp) (by simp),
    Graph.getDistance_new _ _ _ (by simp) (by simp),
    Graph.getDistance_new _ _ _ (by simp) (by simp)]
  have h02 : Graph.distArg [(0, 0), (3 / 4, 0), (3 / 2, 0)] 0 2 = 1 := by decide!
  have h01 : Graph.distArg [(0, 0), (3 / 4, 0), (3 / 2, 0)] 0 1 = 0 := by decide!
  have h12 : Graph.distArg [(0, 0), (3 / 4, 0), (3 / 2, 0)] 1 2 = 0 := by decide!
  rw [h02, h01, h12]; simp

namespace Graph

theorem wrapInt32_of_range (z : Int) (h0 : 0 ≤ z) (h1 : z < 2 ^ 31) : wrapInt32 z = z := by
  unfold wrapInt32
  rw [Int.emod_eq_of_lt (by omega) (by omega)]
  omega

/-- Under `inIntRange` the 32-bit computation of `dx*dx + dy*dy` gives the exact
value. -/
theorem distArgInt32_eq (pts : List Point) (hr : inIntRange pts) (i j : Nat)
    (hi : i < pts.length) (hj : j < pts.length) : distArgInt32 pts i j = distArg pts i j := by
  have h := hr.2 i hi j hj
  simp only [distArg] at h
  simp only [distArgInt32, distArg]
  have hx := mul_self_nonneg
    (truncToInt ((pts.getD i (0, 0)).1 - (pts.getD j (0, 0)).1))
  have hy := mul_self_nonneg
    (truncToInt ((pts.getD i (0, 0)).2 - (pts.getD j (0, 0)).2))
  rw [wrapInt32_of_range _ hx (by omega), wrapInt32_of_range _ hy (by omega),
    wrapInt32_of_range _ (by omega) h]

end Graph

/-- C6 (restricted to the `int` range; the claim as stated fails by the `int`
arithmetic of `computeDistanceMatrix`, the defect of C4, C5 and C7): when no
`dx*dx + dy*dy` leaves the 32-bit range, the machine computes the exact value of
every `dx*dx + dy*dy`, and the matrix built by `computeDistanceMatrix` is
symmetric, `dist[i][j] = dist[j][i]`, with a zero diagonal, `dist[i][i] = 0`. -/
theorem C6_dist_symmetric_zero_diagonal (pts : List Point) (i j : Nat)
    (hr : Graph.inIntRange pts) :
    (i < pts.length → j < pts.length → Graph.distArgInt32 pts i j = Graph.distArg pts i j) ∧
      (Graph.new pts).getDistance i j = (Graph.new pts).getDistance j i ∧
      (Graph.new pts).getDistance i i = 0 := by
  refine ⟨fun hi hj => Graph.distArgInt32_eq pts hr i j hi hj, ?_, ?_⟩
  · by_cases h : i < pts.length ∧ j < pts.length
    · rw [Graph.getDistance_new _ _ _ h.1 h.2, Graph.getDistance_new _ _ _ h.2 h.1,
        Graph.distArg_comm]
    · have h1 : pts.length ≤ i ∨ pts.length ≤ j := by omega
      rw [Graph.getDistance_new_of_le _ _ _ h1, Graph.getDistance_new_of_le _ _ _ h1.symm]
  · by_cases h : i < pts.length
    · rw [Graph.getDistance_new _ _ _ h h, Graph.distArg_self]; simp
    · exact Graph.getDistance_new_of_le _ _ _ (Or.inl (by omega))

/-- C6 fails on the machine for the points (0,0), (46341,0): the exact value of
`dx*dx + dy*dy` for the entries `dist[0][1]` and `dist[1][0]` is 2147488281, above
the largest `int` 2147483647, so the point set is outside `inIntRange`, and the
32-bit computation hands -2147479015, a negative number, to `std::sqrt` for
both entries. -/
theorem C6_counterexample :
    Graph.distArg [(0, 0), (46341, 0)] 0 1 = 2147488281 ∧
      ¬ Graph.inIntRange [(0, 0), (46341, 0)] ∧
      Graph.distArgInt32 [(0, 0), (46341, 0)] 0 1 = -2147479015 ∧
      Graph.distArgInt32 [(0, 0), (46341, 0)] 1 0 = -2147479015 := by
  refine ⟨by decide!, ?_, by decide!, by decide!⟩
  intro h
  have h01 := h.2 0 (by decide) 1 (by decide)
  have hv : Graph.distArg [(0, 0), (46341, 0)] 0 1 = 2147488281 := by decide!
  rw [hv] at h01
  exact absurd h01 (by decide)

/-- The condition of C6 holds for the points (0,0), (3,0), (0,4): the entries
`dist[1][2]` and `dist[2][1]` are both computed from 25 and are equal. -/
theorem C6_witness :
    Graph.inIntRange [(0, 0), (3, 0), (0, 4)] ∧
      Graph.distArgInt32 [(0, 0), (3, 0), (0, 4)] 1 2 = 25 ∧
      (Graph.new [(0, 0), (3, 0), (0, 4)]).getDistance 1 2
        = (Graph.new [(0, 0), (3, 0), (0, 4)]).getDistance 2 1 ∧
      (Graph.new [(0, 0), (3, 0), (0, 4)]).getDistance 1 1 = 0 := by
  have hr : Graph.inIntRange [(0, 0), (3, 0), (0, 4)] := by
    unfold Graph.inIntRange
    decide!
  have h := C6_dist_symmetric_zero_diagonal [(0, 0), (3, 0), (0, 4)] 1 2 hr
  exact ⟨hr, by decide!, h.2.1, h.2.2⟩

/-- C7: on the two points (0,0), (2000000000,0) `nearest_neighbor_tour_length`
finds no unvisited point (the only candidate is not below the initial `best = 1e9`),
leaves `next` at -1 and indexes `visited[-1]`: the embedding returns `none`. -/
theorem C7_nearest_neighbor_fails :
    Graph.nearest_neighbor_tour_length (Graph.new [(0, 0), (2000000000, 0)]) = none := by
  have h01 : Graph.distArg [(0, 0), (2000000000, 0)] 0 1 = 2000000000 * 2000000000 := by
    decide!
  have hd : (Graph.new [(0, 0), (2000000000, 0)]).getDistance 0 1 = 2000000000 := by
    rw [Graph.getDistance_new _ _ _ (by simp) (by simp), h01]
    have h : ((2000000000 * 2000000000 : Int) : ℝ) = 2000000000 * 2000000000 := by norm_num
    rw [h]
    exact Real.sqrt_mul_self (by norm_num : (0 : ℝ) ≤ 2000000000)
  have hs : (Graph.new [(0, 0), (2000000000, 0)]).size = 2 := rfl
  have hscan : Graph.nnScan (Graph.new [(0, 0), (2000000000, 0)])
      ((List.replicate 2 false).set 0 true) 0 = (1000000000, -1) := by
    simp only [Graph.nnScan, hs, List.range_succ, List.range_zero, List.nil_append,
      List.singleton_append, List.foldl_cons, List.foldl_nil, hd]
    norm_num
  simp only [Graph.nearest_neighbor_tour_length, hs, Graph.nnLoop, hscan]
  simp

theorem foldl_inv {σ ι : Type} (P : σ → Prop) (f : σ → ι → σ)
    (hf : ∀ s i, P s → P (f s i)) (l : List ι) (s : σ) (hs : P s) : P (l.foldl f s) := by
  induction l generalizing s with
  | nil => exact hs
  | cons x xs ih => exact ih _ (hf s x hs)

theorem foldlM_inv {σ ι : Type} (P : σ → Prop) (f : σ → ι → Option σ)
    (hf : ∀ s i s', P s → f s i = some s' → P s') (l : List ι) (s s' : σ) (hs : P s)
    (h : l.foldlM f s = some s') : P s' := by
  induction l generalizing s with
  | nil => simp [List.foldlM] at h; exact h ▸ hs
  | cons x xs ih =>
    simp only [List.foldlM_cons, Option.bind_eq_bind, Option.bind_eq_some] at h
    obtain ⟨s1, h1, h2⟩ := h
    exact ih s1 (hf s x s1 hs h1) h2

namespace SMO

theorem initMonkey_glf (s : SMO) (i : Nat) :
    (initMonkey s i).m_global_leader_fitness ≤ s.m_global_leader_fitness := by
  unfold initMonkey
  simp only
  split
  · exact le_of_lt (by assumption)
  · exact le_refl _

theorem init_glf (s : SMO) : (init s).m_global_leader_fitness ≤ s.m_global_leader_fitness := by
  unfold init
  simp only
  refine foldl_inv (fun t => t.m_global_leader_fitness ≤ s.m_global_leader_fitness) initMonkey
    (fun t i ht => le_trans (initMonkey_glf t i) ht) _ _ ?_
  exact le_refl _

theorem accept_glf (s : SMO) (i : Nat) (np : List Point) (g : Rng) :
    (accept s i np g).m_global_leader_fitness = s.m_global_leader_fitness := by
  unfold accept; split <;> rfl

theorem llpMonkey_glf (fuel : Nat) (s s' : SMO) (i : Nat) (h : llpMonkey fuel s i = some s') :
    s'.m_global_leader_fitness = s.m_global_leader_fitness := by
  unfold llpMonkey at h
  split at h
  · cases h
  · cases h; exact accept_glf _ _ _ _

theorem localLeaderPhase_glf (fuel : Nat) (s s' : SMO) (h : localLeaderPhase fuel s = some s') :
    s'.m_global_leader_fitness = s.m_global_leader_fitness :=
  foldlM_inv (fun t => t.m_global_leader_fitness = s.m_global_leader_fitness) (llpMonkey fuel)
    (fun t i t' ht h' => (llpMonkey_glf fuel t t' i h').trans ht) _ s s' rfl h

theorem globalLeaderPhase_glf (s : SMO) :
    (globalLeaderPhase s).m_global_leader_fitness = s.m_global_leader_fitness :=
  foldl_inv (fun t => t.m_global_leader_fitness = s.m_global_leader_fitness)
    (glpMonkey s.m_fitness) (fun _ _ ht => (accept_glf _ _ _ _).trans ht) _ s rfl

theorem gllpMonkey_glf (s : SMO) (i : Nat) :
    (gllpMonkey s i).m_global_leader_fitness = s.m_global_leader_fitness := by
  unfold gllpMonkey; split <;> rfl

theorem globalLeaderLearningPhase_glf (s : SMO) :
    (globalLeaderLearningPhase s).m_global_leader_fitness ≤ s.m_global_leader_fitness := by
  have h1 : ((List.range s.m_population_size).foldl gllpMonkey
      { s with m_local_leader_fitness := s.m_local_leader_fitness.map fun _ => DBL_MAX }
      ).m_global_leader_fitness = s.m_global_leader_fitness := by
    refine foldl_inv (fun t => t.m_global_leader_fitness = s.m_global_leader_fitness) gllpMonkey
      (fun t i ht => (gllpMonkey_glf t i).trans ht) _ _ ?_
    rfl
  unfold globalLeaderLearningPhase
  simp only
  split
  · rename_i hlt
    rw [h1] at hlt
    exact le_of_lt hlt
  · exact le_of_eq h1

theorem localLeaderLearningPhase_glf (s : SMO) :
    (localLeaderLearningPhase s).m_global_leader_fitness = s.m_global_leader_fitness := by
  unfold localLeaderLearningPhase
  refine foldl_inv (fun t => t.m_global_leader_fitness = s.m_global_leader_fitness) _
    (fun t i ht => ?_) _ s rfl
  simp only
  split <;> exact ht

theorem regroup_glf (s : SMO) :
    (regroup s).m_global_leader_fitness = s.m_global_leader_fitness := by
  unfold regroup
  split
  · split <;> rfl
  · rfl

theorem reseedCentroid_glf (g i : Nat) (s : SMO) (j : Nat) :
    (reseedCentroid g i s j).m_global_leader_fitness = s.m_global_leader_fitness := rfl

theorem reseedMonkey_glf (g : Nat) (s : SMO) (i : Nat) :
    (reseedMonkey g s i).m_global_leader_fitness = s.m_global_leader_fitness := by
  unfold reseedMonkey
  split
  · simp only
    exact foldl_inv (fun t => t.m_global_leader_fitness = s.m_global_leader_fitness)
      (reseedCentroid g i) (fun t j ht => (reseedCentroid_glf g i t j).trans ht) _ s rfl
  · rfl

theorem reseedGroup_glf (s : SMO) (g : Nat) :
    (reseedGroup s g).m_global_leader_fitness = s.m_global_leader_fitness := by
  unfold reseedGroup
  split
  · refine foldl_inv (fun t => t.m_global_leader_fitness = s.m_global_leader_fitness)
      (reseedMonkey g) (fun t j ht => (reseedMonkey_glf g t j).trans ht) _ _ ?_
    rfl
  · rfl

theorem localLeaderDecisionPhase_glf (s : SMO) :
    (localLeaderDecisionPhase s).m_global_leader_fitness = s.m_global_leader_fitness := by
  unfold localLeaderDecisionPhase
  exact foldl_inv (fun t => t.m_global_leader_fitness = s.m_global_leader_fitness)
    reseedGroup (fun t j ht => (reseedGroup_glf t j).trans ht) _ _ (regroup_glf s)

theorem iteration_glf (fuel : Nat) (s s' : SMO) (h : iteration fuel s = some s') :
    s'.m_global_leader_fitness ≤ s.m_global_leader_fitness := by
  unfold iteration at h
  split at h
  · cases h
  · rename_i s1 h1
    cases h
    rw [localLeaderDecisionPhase_glf, localLeaderLearningPhase_glf]
    refine le_trans (globalLeaderLearningPhase_glf _) ?_
    rw [globalLeaderPhase_glf, localLeaderPhase_glf fuel s s1 h1]

theorem runLoop_glf (fuel n : Nat) (s s' : SMO) (h : runLoop fuel n s = some s') :
    s'.m_global_leader_fitness ≤ s.m_global_leader_fitness := by
  induction n generalizing s with
  | zero => simp [runLoop] at h; rw [h]
  | succ k ih =>
    unfold runLoop at h
    split at h
    · cases h
    · rename_i s1 h1
      exact le_trans (ih s1 h) (iteration_glf fuel s s1 h1)

end SMO

/-- C9: the global leader's fitness never increases: `m_global_leader_fitness` after
`initialize`, after each of the five phases (the split or merge step of the
decision phase included), after a whole iteration, after any number of
iterations and after `SMO::run` is less than or equal to its value before. -/
theorem C9_global_leader_fitness_never_increases (fuel : Nat) (s : SMO) :
    (SMO.init s).m_global_leader_fitness ≤ s.m_global_leader_fitness ∧
      (∀ s', SMO.localLeaderPhase fuel s = some s' →
        s'.m_global_leader_fitness ≤ s.m_global_leader_fitness) ∧
      (SMO.globalLeaderPhase s).m_global_leader_fitness ≤ s.m_global_leader_fitness ∧
      (SMO.globalLeaderLearningPhase s).m_global_leader_fitness ≤ s.m_global_leader_fitness ∧
      (SMO.localLeaderLearningPhase s).m_global_leader_fitness ≤ s.m_global_leader_fitness ∧
      (SMO.regroup s).m_global_leader_fitness ≤ s.m_global_leader_fitness ∧
      (SMO.localLeaderDecisionPhase s).m_global_leader_fitness ≤ s.m_global_leader_fitness ∧
      (∀ s', SMO.iteration fuel s = some s' →
        s'.m_global_leader_fitness ≤ s.m_global_leader_fitness) ∧
      (∀ n s', SMO.runLoop fuel n s = some s' →
        s'.m_global_leader_fitness ≤ s.m_global_leader_fitness) ∧
      (∀ s', SMO.run fuel s = some s' →
        s'.m_global_leader_fitness ≤ s.m_global_leader_fitness) :=
  ⟨SMO.init_glf s, fun s' h => le_of_eq (SMO.localLeaderPhase_glf fuel s s' h),
    le_of_eq (SMO.globalLeaderPhase_glf s), SMO.globalLeaderLearningPhase_glf s,
    le_of_eq (SMO.localLeaderLearningPhase_glf s), le_of_eq (SMO.regroup_glf s),
    le_of_eq (SMO.localLeaderDecisionPhase_glf s), fun s' h => SMO.iteration_glf fuel s s' h,
    fun n s' h => SMO.runLoop_glf fuel n s s' h,
    fun s' h => le_trans (SMO.runLoop_glf fuel _ _ s' h) (SMO.init_glf s)⟩

namespace ACO

theorem map_range_getD_rotate {α : Type} (l : List α) (k : Nat) (d : α) :
    (List.range l.length).map (fun i => l.getD ((k + i) % l.length) d) = l.rotate k := by
  apply List.ext_getElem
  · simp
  · intro i h1 h2
    simp only [List.length_map, List.length_range] at h1
    have hlt : (k + i) % l.length < l.length := Nat.mod_lt _ (by omega)
    simp only [List.getElem_map, List.getElem_range, List.getElem_rotate]
    rw [List.getD_eq_getElem _ _ hlt]
    congr 1
    rw [Nat.add_comm]

theorem final_route_eq (a : ACO) (h : a.best_tour.length = a.num_cities) :
    a.final_route = a.best_tour.rotate (a.best_tour.indexOf 0) ++ [0] := by
  unfold final_route
  rw [← h, map_range_getD_rotate]

end ACO

/-- C10: when the best-known tour is a permutation of `0..n-1` with `n >= 1`,
`final_route` returns `n + 1` entries, its first and its last entry are the local
index 0, and entry `i < n` is `best_tour[(idx + i) mod n]` where `idx` is the
position of 0 in the best-known tour: the first `n` entries are the best-known
tour rotated to start at 0. -/
theorem C10_final_route_rotation (a : ACO) (n : Nat) (hn : 1 ≤ n) (hc : a.num_cities = n)
    (hp : a.best_tour.Perm ((List.range n).map Int.ofNat)) :
    a.final_route.length = n + 1 ∧
      a.final_route.head? = some 0 ∧
      a.final_route.getLast? = some 0 ∧
      a.best_tour.indexOf 0 < n ∧
      a.best_tour.getD (a.best_tour.indexOf 0) (-1) = 0 ∧
      (∀ i, i < n →
        a.final_route.getD i (-1)
          = a.best_tour.getD ((a.best_tour.indexOf 0 + i) % n) (-1)) ∧
      a.final_route.take n = a.best_tour.rotate (a.best_tour.indexOf 0) := by
  have hlen : a.best_tour.length = n := by simpa using hp.length_eq
  have hmem : (0 : Int) ∈ a.best_tour := by
    rw [hp.mem_iff]
    exact List.mem_map.mpr ⟨0, List.mem_range.mpr (by omega), rfl⟩
  have hidx : a.best_tour.indexOf 0 < a.best_tour.length := List.indexOf_lt_length.mpr hmem
  have hget : a.best_tour.getD (a.best_tour.indexOf 0) (-1) = 0 := by
    rw [List.getD_eq_getElem _ _ hidx]; exact List.getElem_indexOf hidx
  have hfr := ACO.final_route_eq a (by rw [hlen, hc])
  have hrl : (a.best_tour.rotate (a.best_tour.indexOf 0)).length = n := by simp [hlen]
  refine ⟨?_, ?_, ?_, by omega, hget, ?_, ?_⟩
  · rw [hfr]; simp [hlen]
  · rw [hfr]
    have h0 : (a.best_tour.rotate (a.best_tour.indexOf 0)).head? = some 0 := by
      rw [List.head?_eq_getElem?, List.getElem?_eq_getElem (by omega), List.getElem_rotate]
      simp only [Nat.zero_add, Nat.mod_eq_of_lt hidx]
      exact congrArg some (List.getElem_indexOf hidx)
    rw [List.head?_append, h0]; rfl
  · rw [hfr]; simp
  · intro i hi
    unfold ACO.final_route
    rw [hc]
    rw [List.getD_eq_getElem?_getD, List.getElem?_append_left (by simp; omega)]
    simp [hi]
  · rw [hfr, List.take_append_of_le_length (by omega), List.take_of_length_le (by omega)]

namespace Graph

theorem getDistance_new_nonneg (pts : List Point) (i j : Nat) :
    0 ≤ (new pts).getDistance i j := by
  by_cases h : i < pts.length ∧ j < pts.length
  · rw [getDistance_new _ _ _ h.1 h.2]; exact Real.sqrt_nonneg _
  · rw [getDistance_new_of_le _ _ _ (by omega)]

theorem getDistance_new_lt (pts : List Point) (hr : inIntRange pts) (i j : Nat) :
    (new pts).getDistance i j < 65536 := by
  by_cases h : i < pts.length ∧ j < pts.length
  · rw [getDistance_new _ _ _ h.1 h.2]
    have h1 : distArg pts i j < 2 ^ 31 := hr.2 i h.1 j h.2
    have h2 : ((distArg pts i j : Int) : ℝ) < (65536 : ℝ) ^ 2 := by
      have : ((distArg pts i j : Int) : ℝ) < ((2 ^ 31 : Int) : ℝ) := by exact_mod_cast h1
      refine lt_trans this ?_
      norm_num
    exact (Real.sqrt_lt' (by norm_num)).mpr h2
  · rw [getDistance_new_of_le _ _ _ (by omega)]; norm_num

/-- The state of the scan once a city has been recorded. -/
theorem nnScan_fold_found (g : Graph) (visited : List Bool) (current : Nat) (js : List Nat)
    (acc : ℝ × Int)
    (hacc : 0 ≤ acc.2 ∧ ACO.eligible visited current acc.2.toNat = true ∧
      (acc.2.toNat ∈ js ∨ acc.2.toNat < g.size))
    (hjs : ∀ j ∈ js, j < g.size) :
    let res := js.foldl
      (fun (acc : ℝ × Int) j =>
        if (!visited.getD j false && j != current) = true then
          if g.getDistance current j < acc.1 then (g.getDistance current j, (j : Int)) else acc
        else acc) acc
    0 ≤ res.2 ∧ ACO.eligible visited current res.2.toNat = true ∧ res.2.toNat < g.size := by
  induction js generalizing acc with
  | nil =>
    simp only [List.foldl_nil]
    refine ⟨hacc.1, hacc.2.1, ?_⟩
    rcases hacc.2.2 with h | h
    · simp at h
    · exact h
  | cons x xs ih =>
    simp only [List.foldl_cons]
    have hx : x < g.size := hjs x (List.mem_cons_self _ _)
    have hxs : ∀ j ∈ xs, j < g.size := fun j hj => hjs j (List.mem_cons_of_mem _ hj)
    have hacc' : acc.2.toNat < g.size := by
      rcases hacc.2.2 with h | h
      · exact hjs _ h
      · exact h
    apply ih _ _ hxs
    split
    · rename_i he
      split
      · refine ⟨by simp, ?_, Or.inr (by simpa using hx)⟩
        simpa [ACO.eligible] using he
      · exact ⟨hacc.1, hacc.2.1, Or.inr hacc'⟩
    · exact ⟨hacc.1, hacc.2.1, Or.inr hacc'⟩

theorem nnScan_fold_start (g : Graph) (visited : List Bool) (current : Nat) (js : List Nat)
    (acc : ℝ × Int) (hacc : acc.1 = 1000000000)
    (hjs : ∀ j ∈ js, j < g.size)
    (hex : ∃ j ∈ js, ACO.eligible visited current j = true ∧
      g.getDistance current j < 1000000000) :
    let res := js.foldl
      (fun (acc : ℝ × Int) j =>
        if (!visited.getD j false && j != current) = true then
          if g.getDistance current j < acc.1 then (g.getDistance current j, (j : Int)) else acc
        else acc) acc
    0 ≤ res.2 ∧ ACO.eligible visited current res.2.toNat = true ∧ res.2.toNat < g.size := by
  induction js generalizing acc with
  | nil => obtain ⟨j, hj, _⟩ := hex; simp at hj
  | cons x xs ih =>
    simp only [List.foldl_cons]
    have hx : x < g.size := hjs x (List.mem_cons_self _ _)
    have hxs : ∀ j ∈ xs, j < g.size := fun j hj => hjs j (List.mem_cons_of_mem _ hj)
    by_cases he : (!visited.getD x false && x != current) = true
    · by_cases hd : g.getDistance current x < acc.1
      · simp only [he, hd, if_true]
        apply nnScan_fold_found g visited current xs _ _ hxs
        refine ⟨by simp, ?_, Or.inr (by simpa using hx)⟩
        simpa [ACO.eligible] using he
      · simp only [he, hd, if_true, if_false]
        apply ih _ hacc hxs
        obtain ⟨j, hj, hej, hdj⟩ := hex
        rcases List.mem_cons.mp hj with rfl | hj'
        · exact absurd (hacc ▸ hdj) hd
        · exact ⟨j, hj', hej, hdj⟩
    · simp only [he]
      apply ih _ hacc hxs
      obtain ⟨j, hj, hej, hdj⟩ := hex
      rcases List.mem_cons.mp hj with rfl | hj'
      · exact absurd (by simpa [ACO.eligible] using hej) he
      · exact ⟨j, hj', hej, hdj⟩

theorem nnScan_found (g : Graph) (visited : List Bool) (current : Nat)
    (hex : ∃ j, j < g.size ∧ ACO.eligible visited current j = true ∧
      g.getDistance current j < 1000000000) :
    0 ≤ (nnScan g visited current).2 ∧
      ACO.eligible visited current (nnScan g visited current).2.toNat = true ∧
      (nnScan g visited current).2.toNat < g.size := by
  obtain ⟨j, hj, hej, hdj⟩ := hex
  exact nnScan_fold_start g visited current (List.range g.size) (1000000000, -1) rfl
    (fun j hj => List.mem_range.mp hj) ⟨j, List.mem_range.mpr hj, hej, hdj⟩

end Graph

theorem count_false_set_true (l : List Bool) (i : Nat) (h : l.getD i true = false) :
    (l.set i true).count false + 1 = l.count false := by
  induction l generalizing i with
  | nil => simp at h
  | cons x xs ih =>
    cases i with
    | zero =>
      simp at h
      subst h
      simp
    | succ k =>
      simp at h
      have := ih k (by simpa using h)
      simp only [List.set_cons_succ, List.count_cons]
      omega

theorem exists_unvisited_of_count (l : List Bool) (h : 0 < l.count false) :
    ∃ j, j < l.length ∧ l.getD j true = false := by
  have hm : false ∈ l := List.count_pos_iff.mp h
  obtain ⟨j, hj, hjv⟩ := List.getElem_of_mem hm
  exact ⟨j, hj, by simp [List.getD_eq_getElem?_getD, hj, hjv]⟩

namespace Graph

theorem nnScan_fst_nonneg (pts : List Point) (visited : List Bool) (current : Nat) :
    0 ≤ (nnScan (new pts) visited current).1 := by
  unfold nnScan
  refine foldl_inv (fun acc : ℝ × Int => 0 ≤ acc.1) _ (fun acc j h => ?_) _ _ (by norm_num)
  simp only
  split
  · split
    · exact getDistance_new_nonneg _ _ _
    · exact h
  · exact h

theorem nnLoop_some (pts : List Point) (hr : inIntRange pts) (steps : Nat) (visited : List Bool)
    (bl : ℝ) (current : Nat) (hlen : visited.length = pts.length)
    (hcount : steps ≤ visited.count false) (hcur : visited.getD current false = true)
    (hbl : 0 ≤ bl) :
    ∃ bl' c', nnLoop (new pts) steps visited bl current = some (bl', c') ∧ 0 ≤ bl' := by
  induction steps generalizing visited bl current with
  | zero => exact ⟨bl, current, rfl, hbl⟩
  | succ k ih =>
    obtain ⟨j, hj, hjv⟩ := exists_unvisited_of_count visited (by omega)
    have hjv' : visited.getD j false = false := by
      simp [List.getD_eq_getElem?_getD, hj] at hjv ⊢; exact hjv
    have hne : j ≠ current := by
      rintro rfl; rw [hjv'] at hcur; cases hcur
    have hsz : (new pts).size = pts.length := rfl
    have hfound := nnScan_found (new pts) visited current
      ⟨j, by rw [hsz, ← hlen]; exact hj, by unfold ACO.eligible; rw [hjv']; simp [hne],
        lt_trans (getDistance_new_lt pts hr _ _) (by norm_num)⟩
    obtain ⟨h0, hel, hlt⟩ := hfound
    have hnv : visited.getD (nnScan (new pts) visited current).2.toNat true = false := by
      simp only [ACO.eligible, Bool.and_eq_true, Bool.not_eq_true'] at hel
      have := hel.1
      rw [hsz, ← hlen] at hlt
      simp [List.getD_eq_getElem?_getD, hlt] at this ⊢; exact this
    have hc := count_false_set_true visited _ hnv
    unfold nnLoop
    simp only [not_lt.mpr h0, if_false]
    apply ih
    · simp [hlen]
    · omega
    · rw [hsz, ← hlen] at hlt
      simp [List.getD_eq_getElem?_getD, hlt]
    · exact add_nonneg hbl (nnScan_fst_nonneg _ _ _)

theorem nearest_neighbor_some (pts : List Point) (hr : inIntRange pts) (hpos : 0 < pts.length) :
    ∃ L, nearest_neighbor_tour_length (new pts) = some L ∧ 0 ≤ L := by
  have hsz : (new pts).size = pts.length := rfl
  obtain ⟨bl', c', h, hbl'⟩ := nnLoop_some pts hr (pts.length - 1)
    ((List.replicate pts.length false).set 0 true) 0 0 (by simp)
    (by
      have := count_false_set_true (List.replicate pts.length false) 0
        (by simp [List.getD_eq_getElem?_getD, hpos])
      simp only [List.count_replicate_self] at this
      omega)
    (by simp [List.getD_eq_getElem?_getD, hpos]) (le_refl _)
  refine ⟨bl' + (new pts).getDistance c' 0, ?_, add_nonneg hbl' (getDistance_new_nonneg _ _ _)⟩
  unfold nearest_neighbor_tour_length
  rw [hsz, if_neg (by omega), h]

end Graph

namespace Rng

theorem realsInUnit_nextInt (g : Rng) (n : Nat) (h : g.RealsInUnit) :
    (g.nextInt n).2.RealsInUnit := h

theorem realsInUnit_nextReal (g : Rng) (h : g.RealsInUnit) : g.nextReal.2.RealsInUnit :=
  fun k => h (k + 1)

theorem fair_nextReal (g : Rng) (fuel n : Nat) (h : g.Fair fuel n) :
    g.nextReal.2.Fair fuel n := h

theorem fair_nextInt (g : Rng) (fuel n m : Nat) (h : g.Fair fuel n) :
    (g.nextInt m).2.Fair fuel n := by
  intro k t ht
  obtain ⟨i, hi, hit⟩ := h (k + 1) t ht
  refine ⟨i, hi, ?_⟩
  simp only [nextInt]
  rw [← hit]
  congr 2
  omega

end Rng

namespace ACO

theorem rejectLoop_some (n : Nat) (visited : List Bool) (F : Nat) (hn : 0 < n) (fuel : Nat)
    (g : Rng) (hr : g.RealsInUnit) (hf : g.Fair F n)
    (hex : ∃ i, i < fuel ∧ visited.getD (g.ints i % n) false = false) :
    ∃ j g', rejectLoop n visited fuel g = some (j, g') ∧ j < n ∧
      visited.getD j false = false ∧ g'.RealsInUnit ∧ g'.Fair F n := by
  induction fuel generalizing g with
  | zero => obtain ⟨i, hi, _⟩ := hex; omega
  | succ k ih =>
    unfold rejectLoop
    by_cases hv : visited.getD (g.nextInt n).1 false = true
    · rw [if_pos hv]
      apply ih _ (Rng.realsInUnit_nextInt g n hr) (Rng.fair_nextInt g F n n hf)
      obtain ⟨i, hi, hiv⟩ := hex
      cases i with
      | zero =>
        simp only [Rng.nextInt] at hv
        rw [hiv] at hv; cases hv
      | succ i' => exact ⟨i', by omega, hiv⟩
    · rw [if_neg hv]
      refine ⟨(g.nextInt n).1, (g.nextInt n).2, rfl, Nat.mod_lt _ hn, ?_,
        Rng.realsInUnit_nextInt g n hr, Rng.fair_nextInt g F n n hf⟩
      simpa using hv

theorem cumulativeScan_some (a : ACO) (cur : Nat) (visited : List Bool) (r : ℝ) (js : List Nat)
    (c : ℝ) (j : Nat) (h : cumulativeScan a cur visited r js c = some j) :
    j ∈ js ∧ eligible visited cur j = true := by
  induction js generalizing c with
  | nil => simp [cumulativeScan] at h
  | cons x xs ih =>
    unfold cumulativeScan at h
    split at h
    · rename_i he
      split at h
      · cases h; exact ⟨List.mem_cons_self _ _, he⟩
      · exact ⟨List.mem_cons_of_mem _ (ih _ h).1, (ih _ h).2⟩
    · exact ⟨List.mem_cons_of_mem _ (ih _ h).1, (ih _ h).2⟩

theorem cumulativeScan_none (a : ACO) (cur : Nat) (visited : List Bool) (r : ℝ) (js : List Nat)
    (c : ℝ) (h : cumulativeScan a cur visited r js c = none) :
    c + (js.map (prob a cur visited)).sum < r ∨
      ((∀ j ∈ js, eligible visited cur j = false) ∧ (js.map (prob a cur visited)).sum = 0) := by
  induction js generalizing c with
  | nil => right; simp
  | cons x xs ih =>
    unfold cumulativeScan at h
    split at h
    · rename_i he
      split at h
      · cases h
      · rename_i hlt
        left
        rcases ih _ h with h1 | h1
        · simp only [List.map_cons, List.sum_cons]; linarith
        · simp only [List.map_cons, List.sum_cons, h1.2]; linarith
    · rename_i he
      have hp : prob a cur visited x = 0 := by simp [prob, he]
      rcases ih _ h with h1 | h1
      · left; simp only [List.map_cons, List.sum_cons, hp]; linarith
      · right
        refine ⟨fun j hj => ?_, by simp [hp, h1.2]⟩
        rcases List.mem_cons.mp hj with rfl | hj'
        · simpa using he
        · exact h1.1 j hj'

theorem probSum_fold (a : ACO) (cur : Nat) (visited : List Bool) (js : List Nat) (acc : ℝ) :
    js.foldl (fun sum j => if eligible visited cur j = true then
      sum + desirability a cur j else sum) acc = acc + (js.map (prob a cur visited)).sum := by
  induction js generalizing acc with
  | nil => simp
  | cons x xs ih =>
    simp only [List.foldl_cons, List.map_cons, List.sum_cons]
    rw [ih]
    by_cases he : eligible visited cur x = true
    · simp [prob, he]; ring
    · simp [prob, he]

theorem probSum_eq (a : ACO) (cur : Nat) (visited : List Bool) :
    probSum a cur visited = ((List.range a.num_cities).map (prob a cur visited)).sum := by
  unfold probSum; rw [probSum_fold]; simp

theorem prob_nonneg (fuel : Nat) (pts : List Point) (a : ACO) (hwf : WF fuel pts a)
    (cur : Nat) (visited : List Bool) (j : Nat) : 0 ≤ prob a cur visited j := by
  unfold prob
  split
  · unfold desirability
    apply mul_nonneg
    · exact Real.rpow_nonneg (hwf.pher_nonneg cur j) _
    · apply Real.rpow_nonneg
      rw [hwf.graph_eq]
      exact div_nonneg zero_le_one (Graph.getDistance_new_nonneg pts cur j)
  · exact le_refl _

theorem probSum_nonneg (fuel : Nat) (pts : List Point) (a : ACO) (hwf : WF fuel pts a)
    (cur : Nat) (visited : List Bool) : 0 ≤ probSum a cur visited := by
  rw [probSum_eq]
  apply List.sum_nonneg
  intro x hx
  obtain ⟨j, _, rfl⟩ := List.mem_map.mp hx
  exact prob_nonneg fuel pts a hwf cur visited j

theorem select_next_city_ok (fuel : Nat) (pts : List Point) (a : ACO) (hwf : WF fuel pts a)
    (ant cur : Nat) (visited : List Bool)
    (hex : ∃ j, j < pts.length ∧ visited.getD j false = false) :
    ∃ j g', select_next_city fuel a ant cur visited = some (j, g') ∧ j < pts.length ∧
      visited.getD j false = false ∧ g'.RealsInUnit ∧
      g'.Fair fuel pts.length := by
  unfold select_next_city
  by_cases hs : probSum a cur visited = 0
  · rw [if_pos hs, hwf.cities]
    obtain ⟨t, ht, htv⟩ := hex
    obtain ⟨i, hi, hit⟩ := hwf.fair 0 t ht
    obtain ⟨j, g', h1, h2, h3, h4, h5⟩ := rejectLoop_some pts.length visited fuel hwf.pos fuel
      a.rng hwf.reals hwf.fair ⟨i, hi, by rw [Nat.zero_add] at hit; rw [hit]; exact htv⟩
    exact ⟨j, g', h1, h2, h3, h4, h5⟩
  · rw [if_neg hs]
    have hS := probSum_nonneg fuel pts a hwf cur visited
    have hu := hwf.reals 0
    have hu0 : (0 : ℝ) ≤ ((a.rng.nextReal.1 : ℚ) : ℝ) := by
      have : (0 : ℚ) ≤ a.rng.nextReal.1 := hu.1
      exact_mod_cast this
    have hu1 : ((a.rng.nextReal.1 : ℚ) : ℝ) ≤ 1 := by
      have : a.rng.nextReal.1 ≤ (1 : ℚ) := le_of_lt hu.2
      exact_mod_cast this
    have hr : ((a.rng.nextReal.1 : ℚ) : ℝ) * probSum a cur visited ≤ probSum a cur visited := by
      nlinarith
    cases hscan : cumulativeScan a cur visited
        (((a.rng.nextReal.1 : ℚ) : ℝ) * probSum a cur visited) (List.range a.num_cities) 0 with
    | none =>
      exfalso
      rcases cumulativeScan_none _ _ _ _ _ _ hscan with h | h
      · rw [← probSum_eq, zero_add] at h
        linarith
      · rw [← probSum_eq] at h
        exact hs h.2
    | some j =>
      obtain ⟨hj, hel⟩ := cumulativeScan_some _ _ _ _ _ _ _ hscan
      refine ⟨j, a.rng.nextReal.2, rfl, ?_, ?_, Rng.realsInUnit_nextReal _ hwf.reals,
        Rng.fair_nextReal _ _ _ hwf.fair⟩
      · rw [← hwf.cities]; exact List.mem_range.mp hj
      · simp only [eligible, Bool.and_eq_true, Bool.not_eq_true'] at hel
        exact hel.1

end ACO

namespace ACO

theorem exists_not_mem_of_length_lt (n : Nat) (path : List Nat) (h : path.length < n) :
    ∃ j, j < n ∧ j ∉ path := by
  by_contra hc
  push_neg at hc
  have hsub : List.range n ⊆ path := fun j hj => hc j (List.mem_range.mp hj)
  have := (List.subperm_of_subset (List.nodup_range n) hsub).length_le
  simp at this
  omega

theorem perm_range_of_nodup (n : Nat) (path : List Nat) (hnd : path.Nodup)
    (hlt : ∀ j ∈ path, j < n) (hlen : path.length = n) : path.Perm (List.range n) := by
  have hsub : path ⊆ List.range n := fun j hj => List.mem_range.mpr (hlt j hj)
  exact (List.subperm_of_subset hnd hsub).perm_of_length_le (by simp [hlen])

theorem tourInv_step (n : Nat) (visited : List Bool) (path : List Nat) (next : Nat)
    (hinv : TourInv n visited path) (hn : next < n) (hv : visited.getD next false = false) :
    TourInv n (visited.set next true) (path ++ [next]) := by
  have hnot : next ∉ path := by
    intro hmem
    have := (hinv.vis next hn).mpr hmem
    rw [hv] at this; cases this
  refine ⟨by simp [hinv.vlen], fun j hj => ?_, ?_, ?_⟩
  · by_cases hjn : j = next
    · subst hjn
      have : j < visited.length := by rw [hinv.vlen]; exact hj
      simp [List.getD_eq_getElem?_getD, this]
    · have h1 : (visited.set next true).getD j false = visited.getD j false := by
        simp [List.getD_eq_getElem?_getD, List.getElem?_set_ne (Ne.symm hjn)]
      rw [h1, hinv.vis j hj]
      simp [hjn]
  · exact List.Nodup.append hinv.nodup (List.nodup_singleton _) (by simpa using hnot)
  · intro j hj
    rcases List.mem_append.mp hj with h | h
    · exact hinv.lt j h
    · simp at h; subst h; exact hn

theorem wf_with_rng (fuel : Nat) (pts : List Point) (a : ACO) (g : Rng) (hwf : WF fuel pts a)
    (hr : g.RealsInUnit) (hf : g.Fair fuel pts.length) : WF fuel pts { a with rng := g } :=
  { graph_eq := hwf.graph_eq, cities := hwf.cities, pos := hwf.pos, inRange := hwf.inRange,
    pher_nonneg := hwf.pher_nonneg, rho_le := hwf.rho_le, Q_nonneg := hwf.Q_nonneg,
    reals := hr, fair := hf, tours_len := hwf.tours_len,
    tour_length_len := hwf.tour_length_len, tour_length_nonneg := hwf.tour_length_nonneg }

theorem tourLoop_ok (fuel : Nat) (pts : List Point) (ant steps : Nat) (a : ACO)
    (cur : Nat) (visited : List Bool) (path : List Nat) (hwf : WF fuel pts a)
    (hinv : TourInv pts.length visited path) (hlen : path.length + steps = pts.length) :
    ∃ g' path', tourLoop fuel ant steps a cur visited path = some ({ a with rng := g' }, path') ∧
      path'.Nodup ∧ (∀ j ∈ path', j < pts.length) ∧ path'.length = pts.length ∧
      g'.RealsInUnit ∧ g'.Fair fuel pts.length := by
  induction steps generalizing a cur visited path with
  | zero =>
    exact ⟨a.rng, path, rfl, hinv.nodup, hinv.lt, by omega, hwf.reals, hwf.fair⟩
  | succ k ih =>
    obtain ⟨t, ht, htp⟩ := exists_not_mem_of_length_lt pts.length path (by omega)
    have htv : visited.getD t false = false := by
      have := (hinv.vis t ht).not.mpr htp
      simpa using this
    obtain ⟨j, g1, hsel, hj, hjv, hr1, hf1⟩ :=
      select_next_city_ok fuel pts a hwf ant cur visited ⟨t, ht, htv⟩
    unfold tourLoop
    rw [hsel]
    simp only
    obtain ⟨g', path', h1, h2, h3, h4, h5, h6⟩ :=
      ih { a with rng := g1 } j (visited.set j true) (path ++ [j])
        (wf_with_rng fuel pts a g1 hwf hr1 hf1) (tourInv_step _ _ _ _ hinv hj hjv)
        (by simp; omega)
    exact ⟨g', path', h1, h2, h3, h4, h5, h6⟩

end ACO

namespace ACO

theorem DBL_MAX_gt : ((2 : ℝ) ^ 47) < ((DBL_MAX : ℚ) : ℝ) := by
  have h : ((2 : ℚ) ^ 47) < DBL_MAX := by
    unfold DBL_MAX
    have h1 : (2 : ℚ) ^ 971 > 0 := by positivity
    have h2 : (2 : ℚ) ^ 1024 = 2 ^ 53 * 2 ^ 971 := by rw [← pow_add]
    have h3 : (2 : ℚ) ^ 47 ≤ 2 ^ 971 := pow_le_pow_right₀ (by norm_num) (by norm_num)
    rw [h2]
    nlinarith
  exact_mod_cast h

theorem closedLength_fold_bounds (pts : List Point) (hr : Graph.inIntRange pts)
    (path : List Nat) (k : Nat) (acc : ℝ) :
    acc ≤ (List.range k).foldl
        (fun total_len i => total_len + (Graph.new pts).getDistance (path.getD i 0)
          (path.getD (i + 1) 0)) acc ∧
      (List.range k).foldl
        (fun total_len i => total_len + (Graph.new pts).getDistance (path.getD i 0)
          (path.getD (i + 1) 0)) acc ≤ acc + k * 65536 := by
  induction k with
  | zero => simp
  | succ m ih =>
    rw [List.range_succ, List.foldl_append]
    simp only [List.foldl_cons, List.foldl_nil]
    have h1 := Graph.getDistance_new_nonneg pts (path.getD m 0) (path.getD (m + 1) 0)
    have h2 := Graph.getDistance_new_lt pts hr (path.getD m 0) (path.getD (m + 1) 0)
    push_cast
    constructor
    · linarith [ih.1]
    · linarith [ih.2]

theorem closedLength_nonneg (pts : List Point) (hr : Graph.inIntRange pts) (path : List Nat) :
    0 ≤ closedLength (Graph.new pts) path := by
  unfold closedLength
  have h1 := (closedLength_fold_bounds pts hr path (path.length - 1) 0).1
  have h2 := Graph.getDistance_new_nonneg pts (path.getD (path.length - 1) 0) (path.getD 0 0)
  linarith

theorem closedLength_lt (pts : List Point) (hr : Graph.inIntRange pts) (path : List Nat)
    (hlen : path.length = pts.length) :
    closedLength (Graph.new pts) path < ((DBL_MAX : ℚ) : ℝ) := by
  unfold closedLength
  have h1 := (closedLength_fold_bounds pts hr path (path.length - 1) 0).2
  have h2 := Graph.getDistance_new_lt pts hr (path.getD (path.length - 1) 0) (path.getD 0 0)
  have h3 : ((path.length - 1 : Nat) : ℝ) ≤ 2 ^ 31 - 1 := by
    have : path.length - 1 + 1 ≤ 2 ^ 31 := by have := hr.1; omega
    have h' : ((path.length - 1 + 1 : Nat) : ℝ) ≤ ((2 ^ 31 : Nat) : ℝ) := by exact_mod_cast this
    push_cast at h'
    linarith
  have h4 := DBL_MAX_gt
  have h5 : (0 : ℝ) + ((path.length - 1 : Nat) : ℝ) * 65536 + 65536 ≤ 2 ^ 47 := by
    have : ((path.length - 1 : Nat) : ℝ) * 65536 ≤ (2 ^ 31 - 1) * 65536 := by nlinarith
    norm_num at this ⊢
    linarith
  linarith

theorem tourLoop_eq (fuel ant steps : Nat) (a : ACO) (cur : Nat) (visited : List Bool)
    (path : List Nat) (a1 : ACO) (path' : List Nat)
    (h : tourLoop fuel ant steps a cur visited path = some (a1, path')) :
    ∃ g', a1 = { a with rng := g' } := by
  induction steps generalizing a cur visited path with
  | zero =>
    simp only [tourLoop, Option.some.injEq, Prod.mk.injEq] at h
    exact ⟨a.rng, h.1.symm⟩
  | succ k ih =>
    unfold tourLoop at h
    split at h
    · cases h
    · rename_i next g hsel
      obtain ⟨g', hg'⟩ := ih _ _ _ _ h
      exact ⟨g', hg'⟩

/-- The effect of one call of `construct_tour`, whatever the state. -/
theorem construct_tour_eq (fuel : Nat) (a : ACO) (ant : Nat) (a' : ACO)
    (h : construct_tour fuel a ant = some a') :
    ∃ g' path,
      a' = { a with
        rng := g'
        tours := a.tours.set ant (path.map Int.ofNat)
        tour_length := a.tour_length.set ant (closedLength a.graph path)
        lengths_log := a.lengths_log ++ [closedLength a.graph path]
        best_length :=
          if closedLength a.graph path < a.best_length then closedLength a.graph path
          else a.best_length
        best_tour :=
          if closedLength a.graph path < a.best_length then path.map Int.ofNat
          else a.best_tour } := by
  unfold construct_tour at h
  split at h
  · cases h
  · split at h
    · cases h
    · rename_i a1 path hloop
      obtain ⟨g', rfl⟩ := tourLoop_eq _ _ _ _ _ _ _ _ _ hloop
      simp only [Option.some.injEq] at h
      exact ⟨g', path, h.symm⟩

theorem tourInv_init (n start : Nat) (hs : start < n) :
    TourInv n ((List.replicate n false).set start true) [start] := by
  refine ⟨by simp, fun j hj => ?_, List.nodup_singleton _, by simpa using hs⟩
  by_cases hjs : j = start
  · subst hjs; simp [List.getD_eq_getElem?_getD, hj]
  · simp [List.getD_eq_getElem?_getD, List.getElem?_set_ne (Ne.symm hjs), hj, hjs]

theorem getD_set_nonneg (l : List ℝ) (i : Nat) (v : ℝ) (hv : 0 ≤ v)
    (hl : ∀ k, 0 ≤ l.getD k 0) (k : Nat) : 0 ≤ (l.set i v).getD k 0 := by
  by_cases hki : i = k
  · subst hki
    by_cases hlt : i < l.length
    · simp [List.getD_eq_getElem?_getD, hlt, hv]
    · simp [List.getD_eq_getElem?_getD, List.getElem?_set, hlt]
  · have := hl k
    simpa [List.getD_eq_getElem?_getD, List.getElem?_set_ne hki] using this

theorem construct_tour_ok (fuel : Nat) (pts : List Point) (a : ACO) (ant : Nat)
    (hwf : WF fuel pts a) :
    ∃ g' path,
      construct_tour fuel a ant = some
        { a with
          rng := g'
          tours := a.tours.set ant (path.map Int.ofNat)
          tour_length := a.tour_length.set ant (closedLength a.graph path)
          lengths_log := a.lengths_log ++ [closedLength a.graph path]
          best_length :=
            if closedLength a.graph path < a.best_length then closedLength a.graph path
            else a.best_length
          best_tour :=
            if closedLength a.graph path < a.best_length then path.map Int.ofNat
            else a.best_tour } ∧
      path.Perm (List.range pts.length) ∧
      0 ≤ closedLength a.graph path ∧ closedLength a.graph path < ((DBL_MAX : ℚ) : ℝ) ∧
      g'.RealsInUnit ∧ g'.Fair fuel pts.length := by
  have hstart : (a.rng.nextInt pts.length).1 < pts.length := by
    simp only [Rng.nextInt]
    exact Nat.mod_lt _ hwf.pos
  obtain ⟨g', path, hloop, hnd, hlt, hlen, hr, hf⟩ :=
    tourLoop_ok fuel pts ant (a.num_cities - 1)
      { a with rng := (a.rng.nextInt a.num_cities).2 } (a.rng.nextInt a.num_cities).1
      ((List.replicate a.num_cities false).set (a.rng.nextInt a.num_cities).1 true)
      [(a.rng.nextInt a.num_cities).1]
      (wf_with_rng fuel pts a _ hwf (Rng.realsInUnit_nextInt _ _ hwf.reals)
        (Rng.fair_nextInt _ _ _ _ hwf.fair))
      (by rw [hwf.cities]; exact tourInv_init _ _ hstart)
      (by have := hwf.pos; rw [hwf.cities]; simp; omega)
  refine ⟨g', path, ?_, perm_range_of_nodup _ _ hnd hlt hlen, ?_, ?_, hr, hf⟩
  · unfold construct_tour
    rw [if_neg (by rw [hwf.cities]; have := hwf.pos; omega), hloop]
  · rw [hwf.graph_eq]; exact closedLength_nonneg pts hwf.inRange path
  · rw [hwf.graph_eq]; exact closedLength_lt pts hwf.inRange path hlen

end ACO

namespace ACO

theorem matAdd_nonneg (m : List (List ℝ)) (x y : Nat) (v : ℝ) (hv : 0 ≤ v)
    (hm : ∀ i j, 0 ≤ (m.getD i []).getD j 0) (i j : Nat) :
    0 ≤ ((matAdd m x y v).getD i []).getD j 0 := by
  unfold matAdd
  by_cases hix : x = i
  · subst hix
    by_cases hlt : x < m.length
    · have h1 : (m.set x ((m.getD x []).set y ((m.getD x []).getD y 0 + v))).getD x []
          = (m.getD x []).set y ((m.getD x []).getD y 0 + v) := by
        simp [List.getD_eq_getElem?_getD, hlt]
      rw [h1]
      exact getD_set_nonneg _ _ _ (add_nonneg (hm x y) hv) (hm x) j
    · have h1 : (m.set x ((m.getD x []).set y ((m.getD x []).getD y 0 + v))).getD x []
          = m.getD x [] := by
        rw [List.set_eq_of_length_le (by omega)]
      rw [h1]; exact hm x j
  · have h1 : (m.set x ((m.getD x []).set y ((m.getD x []).getD y 0 + v))).getD i []
        = m.getD i [] := by
      simp [List.getD_eq_getElem?_getD, List.getElem?_set_ne hix]
    rw [h1]; exact hm i j

theorem depositEdge_some (n : Nat) (v : ℝ) (m : List (List ℝ)) (x y : Int)
    (hx : 0 ≤ x ∧ x < n) (hy : 0 ≤ y ∧ y < n) :
    depositEdge n v m x y = some (matAdd (matAdd m x.toNat y.toNat v) y.toNat x.toNat v) := by
  unfold depositEdge
  rw [if_pos ⟨hx.1, hx.2, hy.1, hy.2⟩]

theorem isTour_getD (n : Nat) (tour : List Int) (h : IsTour n tour) (i : Nat) (hi : i < n) :
    0 ≤ tour.getD i (-1) ∧ tour.getD i (-1) < n := by
  have hlen : tour.length = n := by simpa using h.length_eq
  have hmem : tour.getD i (-1) ∈ tour := by
    rw [List.getD_eq_getElem _ _ (by omega)]
    exact List.getElem_mem _
  rw [h.mem_iff] at hmem
  obtain ⟨k, hk, hk'⟩ := List.mem_map.mp hmem
  rw [← hk']
  have := List.mem_range.mp hk
  exact ⟨Int.ofNat_nonneg k, Int.ofNat_lt.mpr this⟩

theorem deposit_fold_some (n : Nat) (v : ℝ) (hv : 0 ≤ v) (path : List Int)
    (hp : ∀ i, i < n → (0 ≤ path.getD i (-1) ∧ path.getD i (-1) < n)) (k : Nat) (hk : k < n)
    (m : List (List ℝ)) (hm : ∀ i j, 0 ≤ (m.getD i []).getD j 0) :
    ∃ m', (List.range k).foldlM
        (fun m i => depositEdge n v m (path.getD i (-1)) (path.getD (i + 1) (-1))) m = some m' ∧
      ∀ i j, 0 ≤ (m'.getD i []).getD j 0 := by
  induction k with
  | zero => exact ⟨m, rfl, hm⟩
  | succ k ih =>
    obtain ⟨m1, h1, hm1⟩ := ih (by omega)
    rw [List.range_succ, List.foldlM_append, h1]
    simp only [List.foldlM_cons, List.foldlM_nil, Option.bind_eq_bind, Option.some_bind,
      Option.pure_def, Option.bind_some]
    rw [depositEdge_some n v m1 _ _ (hp k (by omega)) (hp (k + 1) (by omega))]
    exact ⟨_, rfl, matAdd_nonneg _ _ _ _ hv (matAdd_nonneg _ _ _ _ hv hm1)⟩

theorem deposit_pher_ok (fuel : Nat) (pts : List Point) (a : ACO) (hwf : WF fuel pts a)
    (path : List Int) (hp : IsTour pts.length path) (length : ℝ) (hl : 0 ≤ length) :
    ∃ m', deposit_pher a path length = some { a with pher_mat := m' } ∧
      ∀ i j, 0 ≤ (m'.getD i []).getD j 0 := by
  have hlen : path.length = pts.length := by simpa using hp.length_eq
  have hv : 0 ≤ a.Q / length := div_nonneg hwf.Q_nonneg hl
  have hpos := hwf.pos
  obtain ⟨m1, h1, hm1⟩ := deposit_fold_some pts.length (a.Q / length) hv path
    (fun i hi => isTour_getD _ _ hp i hi) (path.length - 1) (by omega) a.pher_mat
    hwf.pher_nonneg
  unfold deposit_pher
  rw [hwf.cities, h1]
  simp only
  rw [depositEdge_some _ _ _ _ _ (isTour_getD _ _ hp _ (by omega))
    (isTour_getD _ _ hp _ (by omega))]
  exact ⟨_, rfl, matAdd_nonneg _ _ _ _ hv (matAdd_nonneg _ _ _ _ hv hm1)⟩

theorem wf_with_pher (fuel : Nat) (pts : List Point) (a : ACO) (m : List (List ℝ))
    (hwf : WF fuel pts a) (hm : ∀ i j, 0 ≤ (m.getD i []).getD j 0) :
    WF fuel pts { a with pher_mat := m } :=
  { graph_eq := hwf.graph_eq, cities := hwf.cities, pos := hwf.pos, inRange := hwf.inRange,
    pher_nonneg := hm, rho_le := hwf.rho_le, Q_nonneg := hwf.Q_nonneg,
    reals := hwf.reals, fair := hwf.fair, tours_len := hwf.tours_len,
    tour_length_len := hwf.tour_length_len, tour_length_nonneg := hwf.tour_length_nonneg }

theorem evaporate_nonneg (fuel : Nat) (pts : List Point) (a : ACO) (hwf : WF fuel pts a)
    (i j : Nat) : 0 ≤ ((evaporate_pher a).pher_mat.getD i []).getD j 0 := by
  unfold evaporate_pher
  simp only [List.getD_eq_getElem?_getD, List.getElem?_map]
  have h1 : 0 ≤ 1 - a.rho := by linarith [hwf.rho_le]
  cases hrow : a.pher_mat[i]? with
  | none => simp
  | some row =>
    simp only [Option.map_some', Option.getD_some, List.getElem?_map]
    cases hx : row[j]? with
    | none => simp
    | some x =>
      simp only [Option.map_some', Option.getD_some]
      have := hwf.pher_nonneg i j
      simp only [List.getD_eq_getElem?_getD, hrow, Option.getD_some, hx] at this
      exact mul_nonneg this h1

theorem update_fold_ok (fuel : Nat) (pts : List Point) (js : List Nat) (a : ACO)
    (hwf : WF fuel pts a)
    (ht : ∀ i ∈ js, IsTour pts.length (a.tours.getD i [])) :
    ∃ m', js.foldlM (fun a i => deposit_pher a (a.tours.getD i []) (a.tour_length.getD i 0)) a
        = some { a with pher_mat := m' } ∧ ∀ i j, 0 ≤ (m'.getD i []).getD j 0 := by
  induction js generalizing a with
  | nil => exact ⟨a.pher_mat, rfl, hwf.pher_nonneg⟩
  | cons x xs ih =>
    obtain ⟨m1, h1, hm1⟩ := deposit_pher_ok fuel pts a hwf (a.tours.getD x [])
      (ht x (List.mem_cons_self _ _)) (a.tour_length.getD x 0) (hwf.tour_length_nonneg x)
    simp only [List.foldlM_cons, Option.bind_eq_bind, h1, Option.some_bind]
    obtain ⟨m2, h2, hm2⟩ := ih { a with pher_mat := m1 } (wf_with_pher fuel pts a m1 hwf hm1)
      (fun i hi => ht i (List.mem_cons_of_mem _ hi))
    exact ⟨m2, h2, hm2⟩

theorem update_pher_ok (fuel : Nat) (pts : List Point) (a : ACO) (hwf : WF fuel pts a)
    (ht : ∀ i, i < a.num_ants → IsTour pts.length (a.tours.getD i [])) :
    ∃ m', update_pher a = some { a with pher_mat := m' } ∧
      ∀ i j, 0 ≤ (m'.getD i []).getD j 0 := by
  unfold update_pher
  obtain ⟨m', h, hm'⟩ := update_fold_ok fuel pts (List.range a.num_ants) (evaporate_pher a)
    (wf_with_pher fuel pts a _ hwf (evaporate_nonneg fuel pts a hwf))
    (fun i hi => ht i (List.mem_range.mp hi))
  exact ⟨m', h, hm'⟩

end ACO

namespace ACO

theorem isTour_map (n : Nat) (path : List Nat) (h : path.Perm (List.range n)) :
    IsTour n (path.map Int.ofNat) := h.map _

theorem getD_set_eq {α : Type} (l : List α) (i : Nat) (v d : α) (h : i < l.length) :
    (l.set i v).getD i d = v := by
  simp [List.getD_eq_getElem?_getD, h]

theorem getD_set_ne {α : Type} (l : List α) (i k : Nat) (v d : α) (h : i ≠ k) :
    (l.set i v).getD k d = l.getD k d := by
  simp [List.getD_eq_getElem?_getD, List.getElem?_set_ne h]

theorem constructFold_ok (fuel : Nat) (pts : List Point) (js : List Nat) (a : ACO)
    (hwf : WF fuel pts a)
    (hbest : (IsTour pts.length a.best_tour ∧ a.best_length < ((DBL_MAX : ℚ) : ℝ)) ∨
      ((DBL_MAX : ℚ) : ℝ) ≤ a.best_length)
    (done : List Nat) (hdone : ∀ i ∈ done, IsTour pts.length (a.tours.getD i []))
    (hjs : ∀ j ∈ js, j < a.num_ants) :
    ∃ a', js.foldlM (fun a j => construct_tour fuel a j) a = some a' ∧ WF fuel pts a' ∧
      a'.num_ants = a.num_ants ∧
      (∀ i ∈ done ++ js, IsTour pts.length (a'.tours.getD i [])) ∧
      ((js ≠ [] ∨ (IsTour pts.length a.best_tour ∧ a.best_length < ((DBL_MAX : ℚ) : ℝ))) →
        (IsTour pts.length a'.best_tour ∧ a'.best_length < ((DBL_MAX : ℚ) : ℝ))) := by
  induction js generalizing a done with
  | nil =>
    refine ⟨a, rfl, hwf, rfl, by simpa using hdone, fun h => ?_⟩
    rcases h with h | h
    · exact absurd rfl h
    · exact h
  | cons x xs ih =>
    obtain ⟨g', path, hc, hperm, hL0, hLmax, hr, hf⟩ := construct_tour_ok fuel pts a x hwf
    have hx : x < a.tours.length := by
      rw [hwf.tours_len]; exact hjs x (List.mem_cons_self _ _)
    simp only [List.foldlM_cons, Option.bind_eq_bind, hc, Option.some_bind]
    have hbt : IsTour pts.length
        (if closedLength a.graph path < a.best_length then path.map Int.ofNat
          else a.best_tour) ∧
        (if closedLength a.graph path < a.best_length then closedLength a.graph path
          else a.best_length) < ((DBL_MAX : ℚ) : ℝ) := by
      split
      · exact ⟨isTour_map _ _ hperm, hLmax⟩
      · rename_i hnlt
        rcases hbest with h | h
        · exact h
        · exact absurd (lt_of_lt_of_le hLmax h) hnlt
    obtain ⟨a', h1, h2, h3, h4, h5⟩ := ih _
      ({ graph_eq := hwf.graph_eq, cities := hwf.cities, pos := hwf.pos, inRange := hwf.inRange,
         pher_nonneg := hwf.pher_nonneg, rho_le := hwf.rho_le, Q_nonneg := hwf.Q_nonneg,
         reals := hr, fair := hf, tours_len := by simp [hwf.tours_len],
         tour_length_len := by simp [hwf.tour_length_len],
         tour_length_nonneg := getD_set_nonneg _ _ _ hL0 hwf.tour_length_nonneg } :
        WF fuel pts
          { a with
            rng := g'
            tours := a.tours.set x (path.map Int.ofNat)
            tour_length := a.tour_length.set x (closedLength a.graph path)
            lengths_log := a.lengths_log ++ [closedLength a.graph path]
            best_length :=
              if closedLength a.graph path < a.best_length then closedLength a.graph path
              else a.best_length
            best_tour :=
              if closedLength a.graph path < a.best_length then path.map Int.ofNat
              else a.best_tour })
      (Or.inl hbt) (done ++ [x])
      (by
        intro i hi
        by_cases hix : x = i
        · subst hix
          simp only
          rw [getD_set_eq _ _ _ _ hx]
          exact isTour_map _ _ hperm
        · simp only
          rw [getD_set_ne _ _ _ _ _ hix]
          rcases List.mem_append.mp hi with h | h
          · exact hdone i h
          · simp at h; exact absurd h.symm hix)
      (fun j hj => hjs j (List.mem_cons_of_mem _ hj))
    refine ⟨a', h1, h2, h3, ?_, fun _ => h5 (Or.inr hbt)⟩
    intro i hi
    apply h4
    simpa using hi

theorem constructAll_ok (fuel : Nat) (pts : List Point) (a : ACO) (hwf : WF fuel pts a)
    (hbest : (IsTour pts.length a.best_tour ∧ a.best_length < ((DBL_MAX : ℚ) : ℝ)) ∨
      ((DBL_MAX : ℚ) : ℝ) ≤ a.best_length) :
    ∃ a', constructAll fuel a = some a' ∧ WF fuel pts a' ∧ a'.num_ants = a.num_ants ∧
      (∀ i, i < a'.num_ants → IsTour pts.length (a'.tours.getD i [])) ∧
      ((0 < a.num_ants ∨ (IsTour pts.length a.best_tour ∧
          a.best_length < ((DBL_MAX : ℚ) : ℝ))) →
        (IsTour pts.length a'.best_tour ∧ a'.best_length < ((DBL_MAX : ℚ) : ℝ))) := by
  obtain ⟨a', h1, h2, h3, h4, h5⟩ := constructFold_ok fuel pts (List.range a.num_ants) a hwf
    hbest [] (by simp) (fun j hj => List.mem_range.mp hj)
  refine ⟨a', h1, h2, h3, fun i hi => h4 i (by simpa [h3] using hi), fun h => h5 ?_⟩
  rcases h with h | h
  · left
    intro hnil
    have : (List.range a.num_ants).length = 0 := by rw [hnil]; rfl
    simp at this; omega
  · exact Or.inr h

theorem runLoop_ok (fuel : Nat) (pts : List Point) (iterations remaining : Nat) (i : Nat)
    (a : ACO) (prev curr : ℝ) (hwf : WF fuel pts a) (hants : 0 < a.num_ants)
    (hbest : (IsTour pts.length a.best_tour ∧ a.best_length < ((DBL_MAX : ℚ) : ℝ)) ∨
      (((DBL_MAX : ℚ) : ℝ) ≤ a.best_length ∧ 0 < remaining)) :
    ∃ a', runLoop fuel iterations remaining i a prev curr = some a' ∧ WF fuel pts a' ∧
      IsTour pts.length a'.best_tour ∧ a'.best_length < ((DBL_MAX : ℚ) : ℝ) := by
  induction remaining generalizing a i prev curr with
  | zero =>
    rcases hbest with h | h
    · exact ⟨a, rfl, hwf, h.1, h.2⟩
    · omega
  | succ k ih =>
    obtain ⟨a1, h1, hwf1, hn1, ht1, hb1⟩ := constructAll_ok fuel pts a hwf
      (hbest.imp id (fun h => h.1))
    obtain ⟨m', h2, hm'⟩ := update_pher_ok fuel pts a1 hwf1 ht1
    have hb2 : IsTour pts.length a1.best_tour ∧ a1.best_length < ((DBL_MAX : ℚ) : ℝ) :=
      hb1 (Or.inl hants)
    have hwf2 := wf_with_pher fuel pts a1 m' hwf1 hm'
    unfold runLoop
    rw [h1]; simp only; rw [h2]; simp only
    split
    · split
      · exact ⟨_, rfl, hwf2, hb2.1, hb2.2⟩
      · exact ih _ _ _ _ hwf2 (by simpa [hn1] using hants) (Or.inl hb2)
    · exact ih _ _ _ _ hwf2 (by simpa [hn1] using hants) (Or.inl hb2)

theorem run_ok (fuel : Nat) (pts : List Point) (a : ACO) (iterations : Nat)
    (hwf : WF fuel pts a) (hants : 0 < a.num_ants) (hit : 0 < iterations)
    (hbest : (IsTour pts.length a.best_tour ∧ a.best_length < ((DBL_MAX : ℚ) : ℝ)) ∨
      ((DBL_MAX : ℚ) : ℝ) ≤ a.best_length) :
    ∃ a', run fuel a iterations = some a' ∧ WF fuel pts a' ∧
      IsTour pts.length a'.best_tour ∧ a'.best_length < ((DBL_MAX : ℚ) : ℝ) :=
  runLoop_ok fuel pts iterations iterations 0 a _ _ hwf hants (hbest.imp id (fun h => ⟨h, hit⟩))

theorem new_ok (fuel : Nat) (pts : List Point) (ants : Nat) (alpha beta rho Q : ℚ) (rng : Rng)
    (hr : Graph.inIntRange pts) (hpos : 0 < pts.length) (hrho : rho ≤ 1) (hQ : 0 ≤ Q)
    (hreals : rng.RealsInUnit) (hfair : rng.Fair fuel pts.length) :
    ∃ a, ACO.new pts ants alpha beta rho Q rng = some a ∧ WF fuel pts a ∧
      a.num_ants = ants ∧ a.best_length = ((DBL_MAX : ℚ) : ℝ) ∧ a.lengths_log = [] := by
  obtain ⟨L, hL, hL0⟩ := Graph.nearest_neighbor_some pts hr hpos
  unfold ACO.new
  rw [hL]
  refine ⟨_, rfl, ?_, rfl, rfl, rfl⟩
  have htau : 0 ≤ 1 / ((pts.length : ℝ) * L) :=
    div_nonneg zero_le_one (mul_nonneg (Nat.cast_nonneg _) hL0)
  have hD : (0 : ℝ) ≤ ((DBL_MAX : ℚ) : ℝ) := le_trans (by positivity) (le_of_lt DBL_MAX_gt)
  exact
    { graph_eq := rfl, cities := rfl, pos := hpos, inRange := hr,
      pher_nonneg := by
        intro i j
        simp only [List.getD_eq_getElem?_getD, List.getElem?_replicate]
        split
        · simp only [Option.getD_some, List.getElem?_replicate]
          split
          · simpa using htau
          · simp
        · simp
      rho_le := by
        show ((rho : ℚ) : ℝ) ≤ 1
        exact_mod_cast hrho
      Q_nonneg := by
        show (0 : ℝ) ≤ ((Q : ℚ) : ℝ)
        exact_mod_cast hQ
      reals := hreals, fair := hfair
      tours_len := by simp
      tour_length_len := by simp
      tour_length_nonneg := by
        intro i
        simp only [List.getD_eq_getElem?_getD, List.getElem?_replicate]
        split
        · simpa using hD
        · simp }

end ACO

namespace Hybrid

theorem distArg_map (pts : List Point) (c : List Nat) (i j : Nat) (hi : i < c.length)
    (hj : j < c.length) :
    Graph.distArg (c.map fun k => pts.getD k (0, 0)) i j
      = Graph.distArg pts (c.getD i 0) (c.getD j 0) := by
  simp [Graph.distArg, List.getD_eq_getElem?_getD, hi, hj]

theorem length_le_of_nodup_lt (n : Nat) (c : List Nat) (hnd : c.Nodup) (hlt : ∀ k ∈ c, k < n) :
    c.length ≤ n := by
  have hsub : c ⊆ List.range n := fun j hj => List.mem_range.mpr (hlt j hj)
  simpa using (List.subperm_of_subset hnd hsub).length_le

theorem inIntRange_map (pts : List Point) (hr : Graph.inIntRange pts) (c : List Nat)
    (hnd : c.Nodup) (hlt : ∀ k ∈ c, k < pts.length) :
    Graph.inIntRange (c.map fun k => pts.getD k (0, 0)) := by
  constructor
  · have := length_le_of_nodup_lt _ c hnd hlt
    have := hr.1
    simp only [List.length_map]; omega
  · intro i hi j hj
    simp only [List.length_map] at hi hj
    rw [distArg_map pts c i j hi hj]
    apply hr.2
    · apply hlt; rw [List.getD_eq_getElem _ _ hi]; exact List.getElem_mem _
    · apply hlt; rw [List.getD_eq_getElem _ _ hj]; exact List.getElem_mem _

theorem acoOfCluster_ok (pts : List Point) (K si P : Nat) (ll gl : Int) (pr : ℚ)
    (ants iters : Nat) (al be rho Q : ℚ) (fuel : Nat) (rng : Rng) (c : List Nat)
    (hr : Graph.inIntRange pts) (hants : 1 ≤ ants) (hiters : 1 ≤ iters) (hrho : rho ≤ 1)
    (hQ : 0 ≤ Q) (hreals : rng.RealsInUnit) (hfair : rng.Fair fuel c.length)
    (hc : c ≠ []) (hnd : c.Nodup) (hlt : ∀ k ∈ c, k < pts.length) :
    ∃ aco, acoOfCluster (Hybrid.new pts K si P ll gl pr ants iters al be rho Q) fuel rng c
        = some aco ∧ aco.num_cities = c.length ∧ ACO.IsTour c.length aco.best_tour := by
  have hpos : 0 < c.length := List.length_pos.mpr hc
  obtain ⟨a0, h0, hwf0, hn0, hb0, _⟩ := ACO.new_ok fuel (c.map fun k => pts.getD k (0, 0)) ants
    al be rho Q rng (inIntRange_map pts hr c hnd hlt) (by simpa using hpos) hrho hQ hreals
    (by simpa using hfair)
  obtain ⟨a1, h1, hwf1, hb1, _⟩ := ACO.run_ok fuel _ a0 iters hwf0 (by omega) (by omega)
    (Or.inr (le_of_eq hb0.symm))
  refine ⟨a1, ?_, by simpa using hwf1.cities, by simpa using hb1⟩
  unfold acoOfCluster
  simp only [Hybrid.new, Graph.getPoints, Graph.new]
  rw [h0]
  exact h1

theorem translate_some (c : List Nat) (route : List Int)
    (h : ∀ z ∈ route, 0 ≤ z ∧ z < (c.length : Int)) :
    translate c route = some (route.map fun z => c.getD z.toNat 0) := by
  unfold translate
  induction route with
  | nil => rfl
  | cons z zs ih =>
    have hz := h z (List.mem_cons_self _ _)
    rw [List.mapM_cons, if_pos hz]
    simp only [Option.pure_def, Option.bind_eq_bind, Option.some_bind]
    rw [ih (fun w hw => h w (List.mem_cons_of_mem _ hw))]
    rfl

theorem map_getD_range (c : List Nat) :
    ((List.range c.length).map Int.ofNat).map (fun z => c.getD z.toNat 0) = c := by
  apply List.ext_getElem
  · simp
  · intro i h1 h2
    simp [List.getD_eq_getElem?_getD, h2]

theorem rotate_indexOf_head (l : List Int) (h : (0 : Int) ∈ l) :
    (l.rotate (l.indexOf 0)).head? = some 0 := by
  have hidx : l.indexOf 0 < l.length := List.indexOf_lt_length.mpr h
  rw [List.head?_eq_getElem?, List.getElem?_eq_getElem (by simp; omega), List.getElem_rotate]
  simp only [Nat.zero_add, Nat.mod_eq_of_lt hidx]
  exact congrArg some (List.getElem_indexOf hidx)

theorem route_ok (c : List Nat) (aco : ACO) (hc : c ≠ []) (hn : aco.num_cities = c.length)
    (ht : ACO.IsTour c.length aco.best_tour) :
    ∃ route, translate c aco.final_route = some route ∧ RouteOK c route := by
  have hpos : 0 < c.length := List.length_pos.mpr hc
  have hlen : aco.best_tour.length = c.length := by simpa using ht.length_eq
  have hfr := ACO.final_route_eq aco (by rw [hlen, hn])
  have hmem : (0 : Int) ∈ aco.best_tour := by
    rw [ht.mem_iff]
    exact List.mem_map.mpr ⟨0, List.mem_range.mpr hpos, rfl⟩
  have hrot : (aco.best_tour.rotate (aco.best_tour.indexOf 0)).Perm
      ((List.range c.length).map Int.ofNat) := (List.rotate_perm _ _).trans ht
  have hrl : (aco.best_tour.rotate (aco.best_tour.indexOf 0)).length = c.length := by
    simp [hlen]
  have hin : ∀ z ∈ aco.final_route, 0 ≤ z ∧ z < (c.length : Int) := by
    intro z hz
    rw [hfr] at hz
    rcases List.mem_append.mp hz with h | h
    · rw [hrot.mem_iff] at h
      obtain ⟨k, hk, rfl⟩ := List.mem_map.mp h
      exact ⟨Int.ofNat_nonneg k, Int.ofNat_lt.mpr (List.mem_range.mp hk)⟩
    · simp at h; subst h; exact ⟨le_refl _, by exact_mod_cast hpos⟩
  refine ⟨_, translate_some c _ hin, ?_⟩
  unfold RouteOK
  rw [if_neg hc, hfr]
  refine ⟨by simp [hlen], ?_, ?_⟩
  · rw [← List.map_take, List.take_append_of_le_length (by omega),
      List.take_of_length_le (by omega)]
    exact (hrot.map _).trans (by rw [map_getD_range])
  · rw [List.getLast?_map, List.head?_map, List.head?_append,
      rotate_indexOf_head _ hmem]
    simp

theorem routeLoop_ok (pts : List Point) (K si P : Nat) (ll gl : Int) (pr : ℚ)
    (ants iters : Nat) (al be rho Q : ℚ) (fuel : Nat) (acoRng : Nat → Rng)
    (hr : Graph.inIntRange pts) (hants : 1 ≤ ants) (hiters : 1 ≤ iters) (hrho : rho ≤ 1)
    (hQ : 0 ≤ Q) (hreals : ∀ i, (acoRng i).RealsInUnit)
    (hfair : ∀ i n, 0 < n → n ≤ pts.length → (acoRng i).Fair fuel n)
    (cs : List (List Nat)) (hcs : ∀ c ∈ cs, c.Nodup ∧ ∀ k ∈ c, k < pts.length)
    (i : Nat) (acc : List (List Nat) × ℝ) :
    ∃ routes total,
      routeLoop (Hybrid.new pts K si P ll gl pr ants iters al be rho Q) fuel acoRng cs i acc
        = some (acc.1 ++ routes, total) ∧ List.Forall₂ RouteOK cs routes := by
  induction cs generalizing i acc with
  | nil => exact ⟨[], acc.2, by simp [routeLoop], List.Forall₂.nil⟩
  | cons c rest ih =>
    have hrest : ∀ c' ∈ rest, c'.Nodup ∧ ∀ k ∈ c', k < pts.length :=
      fun c' hc' => hcs c' (List.mem_cons_of_mem _ hc')
    unfold routeLoop
    by_cases hc : c = []
    · rw [if_pos hc]
      obtain ⟨routes, total, h1, h2⟩ := ih hrest (i + 1) (acc.1 ++ [[]], acc.2)
      refine ⟨[] :: routes, total, by simpa using h1, List.Forall₂.cons ?_ h2⟩
      simp [RouteOK, hc]
    · rw [if_neg hc]
      obtain ⟨hnd, hlt⟩ := hcs c (List.mem_cons_self _ _)
      have hpos : 0 < c.length := List.length_pos.mpr hc
      obtain ⟨aco, ha, hn, ht⟩ := acoOfCluster_ok pts K si P ll gl pr ants iters al be rho Q fuel
        (acoRng i) c hr hants hiters hrho hQ (hreals i)
        (hfair i c.length hpos (length_le_of_nodup_lt _ c hnd hlt)) hc hnd hlt
      obtain ⟨route, htr, hok⟩ := route_ok c aco hc hn ht
      rw [ha]; simp only; rw [htr]; simp only
      obtain ⟨routes, total, h1, h2⟩ := ih hrest (i + 1)
        (acc.1 ++ [route], acc.2 + aco.best_distance)
      exact ⟨route :: routes, total, by simpa using h1, List.Forall₂.cons hok h2⟩

end Hybrid

namespace SMO

theorem SameConfig.refl (s : SMO) : SameConfig s s := ⟨rfl, rfl, rfl, rfl, rfl, rfl, rfl⟩

theorem SameConfig.trans {s t u : SMO} (h1 : SameConfig s t) (h2 : SameConfig t u) :
    SameConfig s u :=
  ⟨h2.1.trans h1.1, h2.2.1.trans h1.2.1, h2.2.2.1.trans h1.2.2.1,
    h2.2.2.2.1.trans h1.2.2.2.1, h2.2.2.2.2.1.trans h1.2.2.2.2.1,
    h2.2.2.2.2.2.1.trans h1.2.2.2.2.2.1, h2.2.2.2.2.2.2.trans h1.2.2.2.2.2.2⟩

theorem sameConfig_foldl {ι : Type} (f : SMO → ι → SMO) (hf : ∀ t i, SameConfig t (f t i))
    (l : List ι) (s : SMO) : SameConfig s (l.foldl f s) :=
  foldl_inv (fun t => SameConfig s t) f (fun t i ht => ht.trans (hf t i)) l s
    (SameConfig.refl s)

theorem sameConfig_foldlM {ι : Type} (f : SMO → ι → Option SMO)
    (hf : ∀ t i t', f t i = some t' → SameConfig t t') (l : List ι) (s s' : SMO)
    (h : l.foldlM f s = some s') : SameConfig s s' :=
  foldlM_inv (fun t => SameConfig s t) f (fun t i t' ht h' => ht.trans (hf t i t' h')) l s s'
    (SameConfig.refl s) h

theorem initMonkey_config (s : SMO) (i : Nat) : SameConfig s (initMonkey s i) := by
  unfold initMonkey
  simp only
  split <;> exact ⟨rfl, rfl, rfl, rfl, rfl, rfl, rfl⟩

theorem init_config (s : SMO) : SameConfig s (init s) := by
  unfold init
  simp only
  have h := sameConfig_foldl initMonkey initMonkey_config (List.range s.m_population_size)
    { s with
      m_x_bounds := (boundsOf s.m_graph.getPoints).1
      m_y_bounds := (boundsOf s.m_graph.getPoints).2
      m_population := List.replicate s.m_population_size (List.replicate s.m_num_clusters (0, 0))
      m_fitness := List.replicate s.m_population_size DBL_MAX
      m_group_id := List.replicate s.m_population_size 0
      m_local_leaders := [List.replicate s.m_num_clusters (0, 0)]
      m_local_leader_fitness := [DBL_MAX]
      m_local_leader_limit_count := [0]
      m_global_leader := resize s.m_global_leader s.m_num_clusters (0, 0) }
  exact h

theorem accept_config (s : SMO) (i : Nat) (np : List Point) (g : Rng) :
    SameConfig s (accept s i np g) := by
  unfold accept; split <;> exact ⟨rfl, rfl, rfl, rfl, rfl, rfl, rfl⟩

theorem localLeaderPhase_config (fuel : Nat) (s s' : SMO)
    (h : localLeaderPhase fuel s = some s') : SameConfig s s' := by
  refine sameConfig_foldlM (llpMonkey fuel) (fun t i t' ht => ?_) _ s s' h
  unfold llpMonkey at ht
  split at ht
  · cases ht
  · cases ht; exact accept_config _ _ _ _

theorem globalLeaderPhase_config (s : SMO) : SameConfig s (globalLeaderPhase s) :=
  sameConfig_foldl (glpMonkey s.m_fitness) (fun _ _ => accept_config _ _ _ _) _ s

theorem gllpMonkey_config (s : SMO) (i : Nat) : SameConfig s (gllpMonkey s i) := by
  unfold gllpMonkey; split <;> exact ⟨rfl, rfl, rfl, rfl, rfl, rfl, rfl⟩

theorem globalLeaderLearningPhase_config (s : SMO) :
    SameConfig s (globalLeaderLearningPhase s) := by
  have h := sameConfig_foldl gllpMonkey gllpMonkey_config (List.range s.m_population_size)
    { s with m_local_leader_fitness := s.m_local_leader_fitness.map fun _ => DBL_MAX }
  unfold globalLeaderLearningPhase
  simp only
  split <;> exact h

theorem localLeaderLearningPhase_config (s : SMO) :
    SameConfig s (localLeaderLearningPhase s) := by
  unfold localLeaderLearningPhase
  refine sameConfig_foldl _ (fun t g => ?_) _ s
  split <;> exact ⟨rfl, rfl, rfl, rfl, rfl, rfl, rfl⟩

theorem regroup_config (s : SMO) : SameConfig s (regroup s) := by
  unfold regroup
  split
  · split <;> exact ⟨rfl, rfl, rfl, rfl, rfl, rfl, rfl⟩
  · exact SameConfig.refl s

theorem reseedMonkey_config (g : Nat) (s : SMO) (i : Nat) :
    SameConfig s (reseedMonkey g s i) := by
  unfold reseedMonkey
  split
  · exact sameConfig_foldl (reseedCentroid g i) (fun t j => ⟨rfl, rfl, rfl, rfl, rfl, rfl, rfl⟩)
      _ s
  · exact SameConfig.refl s

theorem reseedGroup_config (s : SMO) (g : Nat) : SameConfig s (reseedGroup s g) := by
  unfold reseedGroup
  split
  · exact sameConfig_foldl (reseedMonkey g) (reseedMonkey_config g) _
      { s with m_local_leader_limit_count := s.m_local_leader_limit_count.set g 0 }
  · exact SameConfig.refl s

theorem localLeaderDecisionPhase_config (s : SMO) :
    SameConfig s (localLeaderDecisionPhase s) := by
  unfold localLeaderDecisionPhase
  exact (regroup_config s).trans (sameConfig_foldl reseedGroup reseedGroup_config _ _)

theorem iteration_config (fuel : Nat) (s s' : SMO) (h : iteration fuel s = some s') :
    SameConfig s s' := by
  unfold iteration at h
  split at h
  · cases h
  · rename_i s1 h1
    cases h
    exact (localLeaderPhase_config fuel s s1 h1).trans
      ((globalLeaderPhase_config _).trans
        ((globalLeaderLearningPhase_config _).trans
          ((localLeaderLearningPhase_config _).trans (localLeaderDecisionPhase_config _))))

theorem runLoop_config (fuel n : Nat) (s s' : SMO) (h : runLoop fuel n s = some s') :
    SameConfig s s' := by
  induction n generalizing s with
  | zero => simp [runLoop] at h; rw [h]; exact SameConfig.refl _
  | succ k ih =>
    unfold runLoop at h
    split at h
    · cases h
    · rename_i s1 h1
      exact (iteration_config fuel s s1 h1).trans (ih s1 h)

theorem run_config (fuel : Nat) (s s' : SMO) (h : run fuel s = some s') : SameConfig s s' :=
  (init_config s).trans (runLoop_config fuel _ _ s' h)

end SMO

theorem foldl_inv_mem {σ ι : Type} (P : σ → Prop) (f : σ → ι → σ) (l : List ι)
    (hf : ∀ s i, i ∈ l → P s → P (f s i)) (s : σ) (hs : P s) : P (l.foldl f s) := by
  induction l generalizing s with
  | nil => exact hs
  | cons x xs ih =>
    exact ih (fun s i hi => hf s i (List.mem_cons_of_mem _ hi)) _
      (hf s x (List.mem_cons_self _ _) hs)

theorem flatten_set_append (l : List (List Nat)) (idx x : Nat) (h : idx < l.length) :
    (l.set idx (l.getD idx [] ++ [x])).flatten.Perm (l.flatten ++ [x]) := by
  induction l generalizing idx with
  | nil => simp at h
  | cons c cs ih =>
    cases idx with
    | zero =>
      simp only [List.set_cons_zero, List.flatten_cons, List.getD_cons_zero, List.append_assoc]
      exact List.Perm.append_left c List.perm_append_comm
    | succ k =>
      simp only [List.set_cons_succ, List.flatten_cons, List.getD_cons_succ, List.append_assoc]
      exact List.Perm.append_left c (ih k (by simpa using h))

namespace SMO

theorem nearestCentroid_lt (K : Nat) (pt : Point) (position : List Point) (hK : 1 ≤ K) :
    (nearestCentroid K pt position).2 < K := by
  unfold nearestCentroid
  refine foldl_inv_mem (fun acc : ℚ × Nat => acc.2 < K) _ _ (fun acc j hj h => ?_) _ (by omega)
  simp only
  split
  · exact List.mem_range.mp hj
  · exact h

theorem assign_fold_partition (s : SMO) (position : List Point) (hK : 1 ≤ s.m_num_clusters)
    (m : Nat) :
    let res := (List.range m).foldl
      (fun (acc : ℚ × List (List Nat)) i =>
        (acc.1 + (nearestCentroid s.m_num_clusters (s.m_graph.getPoints.getD i (0, 0))
            position).1,
          acc.2.set
            (nearestCentroid s.m_num_clusters (s.m_graph.getPoints.getD i (0, 0)) position).2
            (acc.2.getD
              (nearestCentroid s.m_num_clusters (s.m_graph.getPoints.getD i (0, 0)) position).2
              [] ++ [i])))
      (0, List.replicate s.m_num_clusters [])
    res.2.length = s.m_num_clusters ∧ res.2.flatten.Perm (List.range m) := by
  induction m with
  | zero =>
    simp only [List.range_zero, List.foldl_nil, List.length_replicate, true_and]
    have : (List.replicate s.m_num_clusters ([] : List Nat)).flatten = [] := by
      induction s.m_num_clusters with
      | zero => rfl
      | succ k ih => simp [List.replicate_succ, ih]
    rw [this]
  | succ k ih =>
    simp only at ih ⊢
    rw [List.range_succ, List.foldl_append]
    simp only [List.foldl_cons, List.foldl_nil, List.length_set]
    refine ⟨ih.1, ?_⟩
    refine (flatten_set_append _ _ k ?_).trans ?_
    · rw [ih.1]; exact nearestCentroid_lt _ _ _ hK
    · exact List.Perm.append_right [k] ih.2

theorem getClusters_partition (s : SMO) (hK : 1 ≤ s.m_num_clusters) :
    s.getClusters.length = s.m_num_clusters ∧
      s.getClusters.flatten.Perm (List.range s.m_graph.getPoints.length) :=
  assign_fold_partition s s.m_global_leader hK s.m_graph.getPoints.length

theorem getClusters_mem (s : SMO) (hK : 1 ≤ s.m_num_clusters) (c : List Nat)
    (hc : c ∈ s.getClusters) : c.Nodup ∧ ∀ k ∈ c, k < s.m_graph.getPoints.length := by
  have hp := (getClusters_partition s hK).2
  have hnd : s.getClusters.flatten.Nodup := hp.nodup_iff.mpr (List.nodup_range _)
  constructor
  · exact (List.nodup_flatten.mp hnd).1 c hc
  · intro k hk
    have : k ∈ s.getClusters.flatten := List.mem_flatten.mpr ⟨c, hc, hk⟩
    exact List.mem_range.mp (hp.mem_iff.mp this)

end SMO

namespace Hybrid

theorem pipeline_ok (pts : List Point) (K si P : Nat) (ll gl : Int) (pr : ℚ)
    (ants iters : Nat) (al be rho Q : ℚ) (fuel : Nat) (smoRng : Rng) (acoRng : Nat → Rng)
    (smo : SMO) (hr : Graph.inIntRange pts) (hK : 1 ≤ K) (hants : 1 ≤ ants)
    (hiters : 1 ≤ iters) (hrho : rho ≤ 1) (hQ : 0 ≤ Q)
    (hreals : ∀ i, (acoRng i).RealsInUnit)
    (hfair : ∀ i n, 0 < n → n ≤ pts.length → (acoRng i).Fair fuel n)
    (hsmo : (SMO.new K si (Graph.new pts) P ll gl pr smoRng).run fuel = some smo) :
    ∃ h', (Hybrid.new pts K si P ll gl pr ants iters al be rho Q).run fuel smoRng acoRng
        = some h' ∧
      h'.m_clusters = smo.getClusters ∧
      List.Forall₂ RouteOK h'.m_clusters h'.m_final_routes ∧
      h'.m_clusters.length = K ∧
      h'.m_clusters.flatten.Perm (List.range pts.length) := by
  have hcfg := SMO.run_config fuel _ smo hsmo
  have hKs : smo.m_num_clusters = K := hcfg.1
  have hG : smo.m_graph = Graph.new pts := hcfg.2.2.1
  have hN : smo.m_graph.getPoints.length = pts.length := by rw [hG]; rfl
  have hpart := SMO.getClusters_partition smo (by omega)
  obtain ⟨routes, total, hloop, hall⟩ := routeLoop_ok pts K si P ll gl pr ants iters al be rho
    Q fuel acoRng hr hants hiters hrho hQ hreals hfair smo.getClusters
    (fun c hc => by
      have := SMO.getClusters_mem smo (by omega) c hc
      rw [hN] at this
      exact this) 0 ([], 0)
  refine ⟨{ Hybrid.new pts K si P ll gl pr ants iters al be rho Q with
      m_clusters := smo.getClusters, m_final_routes := [] ++ routes, m_total_length := total },
    ?_, rfl, ?_, ?_, ?_⟩
  · unfold Hybrid.run
    have hs : (SMO.new (Hybrid.new pts K si P ll gl pr ants iters al be rho Q).m_num_salesmen
        (Hybrid.new pts K si P ll gl pr ants iters al be rho Q).m_smo_iterations
        (Hybrid.new pts K si P ll gl pr ants iters al be rho Q).m_main_graph
        (Hybrid.new pts K si P ll gl pr ants iters al be rho Q).m_smo_population_size
        (Hybrid.new pts K si P ll gl pr ants iters al be rho Q).m_smo_local_limit
        (Hybrid.new pts K si P ll gl pr ants iters al be rho Q).m_smo_global_limit
        (Hybrid.new pts K si P ll gl pr ants iters al be rho Q).m_smo_pr smoRng).run fuel
        = some smo := hsmo
    rw [hs]
    simp only
    rw [hloop]
  · simpa using hall
  · exact hpart.1.trans hKs
  · have := hpart.2
    rw [hN] at this
    exact this

end Hybrid

namespace Rng

theorem counting_realsInUnit : counting.RealsInUnit := by
  intro k
  have h : k % 5 < 5 := Nat.mod_lt _ (by decide)
  have h' : ((k % 5 : Nat) : ℚ) < 5 := by exact_mod_cast h
  constructor
  · exact div_nonneg (Nat.cast_nonneg _) (by norm_num)
  · show ((k % 5 : Nat) : ℚ) / 5 < 1
    rw [div_lt_one (by norm_num)]
    exact h'

theorem counting_fair (fuel n : Nat) (hn : 0 < n) (hf : n ≤ fuel) : counting.Fair fuel n := by
  intro k t ht
  have hr : k % n < n := Nat.mod_lt _ hn
  have hk := Nat.mod_add_div k n
  by_cases hc : k % n ≤ t
  · refine ⟨t - k % n, by omega, ?_⟩
    show (k + (t - k % n)) % n = t
    have : k + (t - k % n) = t + n * (k / n) := by omega
    rw [this, Nat.add_mul_mod_self_left, Nat.mod_eq_of_lt ht]
  · refine ⟨t + n - k % n, by omega, ?_⟩
    show (k + (t + n - k % n)) % n = t
    have : k + (t + n - k % n) = t + n * (k / n + 1) := by
      rw [Nat.mul_add, Nat.mul_one]; omega
    rw [this, Nat.add_mul_mod_self_left, Nat.mod_eq_of_lt ht]

end Rng

theorem sample_inIntRange : Graph.inIntRange [(0, 0), (3, 0), (0, 4)] := by
  unfold Graph.inIntRange
  decide!

namespace Hybrid

end Hybrid

namespace Hybrid

theorem routeLoop_spec (h : Hybrid) (fuel : Nat) (acoRng : Nat → Rng) (cs : List (List Nat))
    (i : Nat) (acc res : List (List Nat) × ℝ)
    (hres : routeLoop h fuel acoRng cs i acc = some res) :
    ∃ routes, res.1 = acc.1 ++ routes ∧ routes.length = cs.length ∧
      res.2 = acc.2 + (clusterLengths h fuel acoRng cs i).sum ∧
      ∀ k, k < cs.length →
        (cs.getD k [] = [] → routes.getD k [] = []) ∧
        (cs.getD k [] ≠ [] → ∃ aco,
          acoOfCluster h fuel (acoRng (i + k)) (cs.getD k []) = some aco ∧
          translate (cs.getD k []) aco.final_route = some (routes.getD k [])) := by
  induction cs generalizing i acc with
  | nil =>
    simp only [routeLoop, Option.some.injEq] at hres
    subst hres
    exact ⟨[], by simp, rfl, by simp [clusterLengths], fun k hk => by simp at hk⟩
  | cons c rest ih =>
    unfold routeLoop at hres
    by_cases hc : c = []
    · rw [if_pos hc] at hres
      obtain ⟨routes, h1, h2, h3, h4⟩ := ih (i + 1) _ hres
      refine ⟨[] :: routes, by simpa using h1, by simp [h2], ?_, ?_⟩
      · rw [h3]; simp [clusterLengths, hc]
      · intro k hk
        cases k with
        | zero => simp [hc]
        | succ k' =>
          have := h4 k' (by simpa using hk)
          simpa [Nat.add_assoc, Nat.add_comm 1 k'] using this
    · rw [if_neg hc] at hres
      split at hres
      · cases hres
      · rename_i aco haco
        split at hres
        · cases hres
        · rename_i route htr
          obtain ⟨routes, h1, h2, h3, h4⟩ := ih (i + 1) _ hres
          refine ⟨route :: routes, by simpa using h1, by simp [h2], ?_, ?_⟩
          · rw [h3]; simp [clusterLengths, hc, haco]; ring
          · intro k hk
            cases k with
            | zero =>
              refine ⟨fun h0 => absurd (by simpa using h0) hc, fun _ => ⟨aco, ?_, ?_⟩⟩
              · simpa using haco
              · simpa using htr
            | succ k' =>
              have := h4 k' (by simpa using hk)
              simpa [Nat.add_assoc, Nat.add_comm 1 k'] using this

end Hybrid

/-- C3: after `Hybrid::run`, there is one route per cluster, `getTotalLength` is
the sum over the clusters of `aco.best_distance()` for the non-empty ones and of
nothing for the empty ones, every empty cluster has the empty route, and every
non-empty cluster, also one that follows an empty cluster, has been routed by
its own `ACO` object. -/
theorem C3_total_length_is_sum_of_cluster_bests (h : Hybrid) (fuel : Nat) (smoRng : Rng)
    (acoRng : Nat → Rng) (h' : Hybrid) (hrun : h.run fuel smoRng acoRng = some h') :
    h'.getRoutes.length = h'.m_clusters.length ∧
      h'.getTotalLength = (Hybrid.clusterLengths h fuel acoRng h'.m_clusters 0).sum ∧
      ∀ k, k < h'.m_clusters.length →
        (h'.m_clusters.getD k [] = [] → h'.getRoutes.getD k [] = []) ∧
        (h'.m_clusters.getD k [] ≠ [] → ∃ aco,
          Hybrid.acoOfCluster h fuel (acoRng k) (h'.m_clusters.getD k []) = some aco ∧
          Hybrid.translate (h'.m_clusters.getD k []) aco.final_route
            = some (h'.getRoutes.getD k [])) := by
  unfold Hybrid.run at hrun
  split at hrun
  · cases hrun
  · rename_i smo hsmo
    split at hrun
    · cases hrun
    · rename_i res hres
      cases hrun
      obtain ⟨routes, h1, h2, h3, h4⟩ := Hybrid.routeLoop_spec h fuel acoRng _ 0 _ res hres
      simp only [List.nil_append, zero_add] at h1 h3 h4
      simp only [Hybrid.getRoutes, Hybrid.getTotalLength, h1, h3]
      exact ⟨h2, trivial, h4⟩

namespace ACO

theorem deposit_pher_eq (a : ACO) (path : List Int) (length : ℝ) (a' : ACO)
    (h : deposit_pher a path length = some a') : ∃ m, a' = { a with pher_mat := m } := by
  unfold deposit_pher at h
  split at h
  · cases h
  · split at h
    · cases h
    · rename_i m1 _
      cases h
      exact ⟨m1, rfl⟩

theorem update_pher_eq (a a' : ACO) (h : update_pher a = some a') :
    ∃ m, a' = { a with pher_mat := m } := by
  unfold update_pher at h
  have key : ∀ (js : List Nat) (b b' : ACO),
      js.foldlM (fun a i => deposit_pher a (a.tours.getD i []) (a.tour_length.getD i 0)) b
        = some b' → ∃ m, b' = { b with pher_mat := m } := by
    intro js
    induction js with
    | nil =>
      intro b b' hb
      simp only [List.foldlM_nil, Option.pure_def, Option.some.injEq] at hb
      exact ⟨b.pher_mat, hb.symm⟩
    | cons x xs ih =>
      intro b b' hb
      simp only [List.foldlM_cons, Option.bind_eq_bind, Option.bind_eq_some] at hb
      obtain ⟨b1, hb1, hb2⟩ := hb
      obtain ⟨m1, rfl⟩ := deposit_pher_eq _ _ _ _ hb1
      obtain ⟨m2, rfl⟩ := ih _ _ hb2
      exact ⟨m2, rfl⟩
  obtain ⟨m, hm⟩ := key _ _ _ h
  exact ⟨m, by rw [hm]; rfl⟩

/-- The log of tour lengths grows by `new`, and the best length is the running
minimum over `new` started from the previous best length. -/
theorem construct_tour_log (fuel : Nat) (a : ACO) (ant : Nat) (a' : ACO)
    (h : construct_tour fuel a ant = some a') :
    ∃ L, a'.lengths_log = a.lengths_log ++ [L] ∧ a'.best_length = min a.best_length L := by
  obtain ⟨g', path, rfl⟩ := construct_tour_eq fuel a ant a' h
  refine ⟨closedLength a.graph path, rfl, ?_⟩
  simp only
  split
  · rename_i hlt; exact (min_eq_right (le_of_lt hlt)).symm
  · rename_i hnlt; exact (min_eq_left (not_lt.mp hnlt)).symm

theorem constructFold_log (fuel : Nat) (js : List Nat) (a a' : ACO)
    (h : js.foldlM (fun a j => construct_tour fuel a j) a = some a') :
    ∃ new, a'.lengths_log = a.lengths_log ++ new ∧
      a'.best_length = new.foldl min a.best_length := by
  induction js generalizing a with
  | nil =>
    simp only [List.foldlM_nil, Option.pure_def, Option.some.injEq] at h
    subst h
    exact ⟨[], by simp, rfl⟩
  | cons x xs ih =>
    simp only [List.foldlM_cons, Option.bind_eq_bind, Option.bind_eq_some] at h
    obtain ⟨a1, h1, h2⟩ := h
    obtain ⟨L, hL1, hL2⟩ := construct_tour_log fuel a x a1 h1
    obtain ⟨new, hn1, hn2⟩ := ih a1 h2
    exact ⟨L :: new, by rw [hn1, hL1]; simp, by rw [hn2, hL2]; rfl⟩

theorem runLoop_log (fuel iterations remaining i : Nat) (a : ACO) (prev curr : ℝ) (a' : ACO)
    (h : runLoop fuel iterations remaining i a prev curr = some a') :
    ∃ new, a'.lengths_log = a.lengths_log ++ new ∧
      a'.best_length = new.foldl min a.best_length := by
  induction remaining generalizing a i prev curr with
  | zero =>
    simp only [runLoop, Option.some.injEq] at h
    subst h
    exact ⟨[], by simp, rfl⟩
  | succ k ih =>
    unfold runLoop at h
    split at h
    · cases h
    · rename_i a1 h1
      split at h
      · cases h
      · rename_i a2 h2
        obtain ⟨new1, hn1, hn2⟩ := constructFold_log fuel _ a a1 h1
        obtain ⟨m, rfl⟩ := update_pher_eq a1 a2 h2
        have hstep : ∀ a3 : ACO, (∃ new, a3.lengths_log = a1.lengths_log ++ new ∧
            a3.best_length = new.foldl min a1.best_length) →
            ∃ new, a3.lengths_log = a.lengths_log ++ new ∧
              a3.best_length = new.foldl min a.best_length := by
          rintro a3 ⟨new2, hm1, hm2⟩
          exact ⟨new1 ++ new2, by rw [hm1, hn1]; simp,
            by rw [hm2, hn2, List.foldl_append]⟩
        split at h
        · split at h
          · cases h
            exact hstep _ ⟨[], by simp, rfl⟩
          · have h3 := ih _ _ _ _ h
            exact hstep _ h3
        · have h3 := ih _ _ _ _ h
          exact hstep _ h3

theorem foldl_min_le_init (l : List ℝ) (x : ℝ) : l.foldl min x ≤ x := by
  induction l generalizing x with
  | nil => exact le_refl _
  | cons y ys ih => exact le_trans (ih _) (min_le_left _ _)

theorem foldl_min_le_mem (l : List ℝ) (x : ℝ) (y : ℝ) (hy : y ∈ l) : l.foldl min x ≤ y := by
  induction l generalizing x with
  | nil => simp at hy
  | cons z zs ih =>
    rcases List.mem_cons.mp hy with rfl | h
    · simp only [List.foldl_cons]
      exact le_trans (foldl_min_le_init _ _) (min_le_right _ _)
    · exact ih _ h

theorem foldl_min_mem (l : List ℝ) (x : ℝ) : l.foldl min x = x ∨ l.foldl min x ∈ l := by
  induction l generalizing x with
  | nil => left; rfl
  | cons z zs ih =>
    simp only [List.foldl_cons]
    rcases ih (min x z) with h | h
    · rcases min_choice x z with h' | h'
      · left; rw [h, h']
      · right; rw [h, h']; exact List.mem_cons_self _ _
    · right; exact List.mem_cons_of_mem _ h

end ACO

/-- C8: after every call of `construct_tour` the best-known length is the minimum
of its previous value and the length of the tour just built, so it never
increases, and the best-known tour changes only when the new length is strictly
lower (it is then the tour just built).  After `ACO::run` the best-known length
is the running minimum, started from its value before the run, of the lengths of
all the tours built during the run; for an object that has just been constructed
the starting value is `numeric_limits<double>::max()`, and when the run has made
the best length smaller than that, the best length is the smallest length in the
log of all tours built. -/
theorem C8_best_length_is_running_minimum (fuel : Nat) (a : ACO) :
    (∀ ant a', ACO.construct_tour fuel a ant = some a' →
      ∃ L, a'.lengths_log = a.lengths_log ++ [L] ∧
        (ant < a.tour_length.length → a'.tour_length.getD ant 0 = L) ∧
        a'.best_length = min a.best_length L ∧
        a'.best_length ≤ a.best_length ∧
        (¬ L < a.best_length → a'.best_tour = a.best_tour) ∧
        (L < a.best_length → ant < a.tours.length → a'.best_tour = a'.tours.getD ant [])) ∧
    (∀ iterations a', ACO.run fuel a iterations = some a' →
      a'.best_length ≤ a.best_length ∧
      ∃ new, a'.lengths_log = a.lengths_log ++ new ∧
        a'.best_length = new.foldl min a.best_length ∧
        (∀ L ∈ new, a'.best_length ≤ L) ∧
        (a'.best_length < a.best_length → a'.best_length ∈ new)) ∧
    (∀ pts ants alpha beta rho Q rng, ACO.new pts ants alpha beta rho Q rng = some a →
      a.best_length = ((DBL_MAX : ℚ) : ℝ) ∧ a.lengths_log = []) := by
  refine ⟨?_, ?_, ?_⟩
  · intro ant a' h
    obtain ⟨g', path, rfl⟩ := ACO.construct_tour_eq fuel a ant a' h
    refine ⟨ACO.closedLength a.graph path, rfl, ?_, ?_, ?_, ?_, ?_⟩
    · intro hlt
      exact ACO.getD_set_eq _ _ _ _ hlt
    · simp only
      split
      · rename_i hlt; exact (min_eq_right (le_of_lt hlt)).symm
      · rename_i hnlt; exact (min_eq_left (not_lt.mp hnlt)).symm
    · simp only
      split
      · rename_i hlt; exact le_of_lt hlt
      · exact le_refl _
    · intro hnlt
      simp only [if_neg hnlt]
    · intro hlt hant
      simp only [if_pos hlt]
      exact (ACO.getD_set_eq _ _ _ _ hant).symm
  · intro iterations a' h
    obtain ⟨new, h1, h2⟩ := ACO.runLoop_log fuel iterations iterations 0 a _ _ a' h
    refine ⟨by rw [h2]; exact ACO.foldl_min_le_init _ _, new, h1, h2, ?_, ?_⟩
    · intro L hL
      rw [h2]; exact ACO.foldl_min_le_mem _ _ L hL
    · intro hlt
      rcases ACO.foldl_min_mem new a.best_length with h' | h'
      · rw [h2, h'] at hlt; exact absurd hlt (lt_irrefl _)
      · rw [h2]; exact h'
  · intro pts ants alpha beta rho Q rng h
    unfold ACO.new at h
    split at h
    · cases h
    · cases h; exact ⟨rfl, rfl⟩

theorem pair_inIntRange : Graph.inIntRange [(1, 2), (2, 2)] := by
  unfold Graph.inIntRange
  decide!

theorem pair_smo_run :
    ((SMO.new 3 2 (Graph.new [(1, 2), (2, 2)]) 4 1 1 (1 / 10) Rng.counting).run 4).map
        SMO.getClusters = some [[0], [], [1]] := by
  decide!

/-- A run of `Hybrid::run` on two points and three salesmen whose clusters are
`[0]`, `[]` and `[1]`, to which C3 applies: the empty cluster in the middle gets
the empty route and the cluster after it is still routed. -/
theorem C3_witness :
    ∃ h', (Hybrid.new [(1, 2), (2, 2)] 3 2 4 1 1 (1 / 10) 1 1 1 5 (1 / 2) 100).run 4
        Rng.counting (fun _ => Rng.counting) = some h' ∧
      h'.m_clusters = [[0], [], [1]] ∧
      h'.getRoutes.length = h'.m_clusters.length ∧
      h'.getTotalLength = (Hybrid.clusterLengths
        (Hybrid.new [(1, 2), (2, 2)] 3 2 4 1 1 (1 / 10) 1 1 1 5 (1 / 2) 100) 4
        (fun _ => Rng.counting) h'.m_clusters 0).sum ∧
      ∀ k, k < h'.m_clusters.length →
        (h'.m_clusters.getD k [] = [] → h'.getRoutes.getD k [] = []) ∧
        (h'.m_clusters.getD k [] ≠ [] → ∃ aco,
          Hybrid.acoOfCluster
            (Hybrid.new [(1, 2), (2, 2)] 3 2 4 1 1 (1 / 10) 1 1 1 5 (1 / 2) 100) 4
            Rng.counting (h'.m_clusters.getD k []) = some aco ∧
          Hybrid.translate (h'.m_clusters.getD k []) aco.final_route
            = some (h'.getRoutes.getD k [])) := by
  have hmap := pair_smo_run
  cases hsmo : (SMO.new 3 2 (Graph.new [(1, 2), (2, 2)]) 4 1 1 (1 / 10) Rng.counting).run 4 with
  | none => rw [hsmo] at hmap; cases hmap
  | some smo =>
    rw [hsmo] at hmap
    have hcl0 : smo.getClusters = [[0], [], [1]] := by simpa using hmap
    obtain ⟨h', hrun, hcl, _⟩ := Hybrid.pipeline_ok [(1, 2), (2, 2)] 3 2 4 1 1 (1 / 10) 1 1 1 5
      (1 / 2) 100 4 Rng.counting (fun _ => Rng.counting) smo pair_inIntRange (by decide)
      (by decide) (by decide) (by norm_num) (by norm_num) (fun _ => Rng.counting_realsInUnit)
      (fun _ n hn hle => Rng.counting_fair 4 n hn (le_trans hle (by decide))) hsmo
    exact ⟨h', hrun, hcl.trans hcl0, C3_total_length_is_sum_of_cluster_bests _ 4 Rng.counting
      (fun _ => Rng.counting) h' hrun⟩

/-- A run of four iterations with two ants on three points: the best length at
the end is the smallest of the logged tour lengths. -/
theorem C8_witness :
    ∃ a a', ACO.new [(0, 0), (3, 0), (0, 4)] 2 1 5 (1 / 2) 100 Rng.counting = some a ∧
      ACO.run 3 a 4 = some a' ∧ a'.best_length ∈ a'.lengths_log ∧
      ∀ L ∈ a'.lengths_log, a'.best_distance ≤ L := by
  obtain ⟨a, ha, hwf, hants, hbl, hlog⟩ := ACO.new_ok 3 [(0, 0), (3, 0), (0, 4)] 2 1 5 (1 / 2)
    100 Rng.counting sample_inIntRange (by decide) (by norm_num) (by norm_num)
    Rng.counting_realsInUnit (Rng.counting_fair 3 3 (by decide) (by decide))
  obtain ⟨a', hrun, _, _, hlt⟩ := ACO.run_ok 3 _ a 4 hwf (by omega) (by decide)
    (Or.inr (le_of_eq hbl.symm))
  obtain ⟨_, hrunC, _⟩ := C8_best_length_is_running_minimum 3 a
  obtain ⟨_, new, hnew, _, hle, hmem⟩ := hrunC 4 a' hrun
  rw [hlog, List.nil_append] at hnew
  refine ⟨a, a', ha, hrun, ?_, ?_⟩
  · rw [hnew]; exact hmem (by rw [hbl]; exact hlt)
  · rw [hnew]; exact hle

/-- A run of `SMO::run` with three iterations and four monkeys returns, and its
final global-leader fitness is at most the initial `numeric_limits<double>::max()`. -/
theorem C9_witness :
    ∃ s', (SMO.new 2 3 (Graph.new [(0, 0), (3, 0), (0, 4)]) 4 1 1 0 Rng.counting).run 4
        = some s' ∧
      s'.m_global_leader_fitness ≤ DBL_MAX := by
  have hs : ((SMO.new 2 3 (Graph.new [(0, 0), (3, 0), (0, 4)]) 4 1 1 0 Rng.counting).run 4).isSome
      = true := by decide!
  obtain ⟨s', hs'⟩ := Option.isSome_iff_exists.mp hs
  exact ⟨s', hs', (C9_global_leader_fitness_never_increases 4 _).2.2.2.2.2.2.2.2.2 s' hs'⟩

/-- For the best-known tour `[2, 0, 1]` the route starts `[0, 1, 2]`. -/
theorem C10_witness :
    (ACO.final_route
      { graph := Graph.new [], num_ants := 0, num_cities := 3, alpha := 1, beta := 5,
        rho := 1 / 2, Q := 100, pher_mat := [], tours := [], tour_length := [],
        best_tour := [2, 0, 1], best_length := 0, rng := Rng.zeros, lengths_log := [] }).take 3
      = [0, 1, 2] := by
  have h := (C10_final_route_rotation
    { graph := Graph.new [], num_ants := 0, num_cities := 3, alpha := 1, beta := 5,
      rho := 1 / 2, Q := 100, pher_mat := [], tours := [], tour_length := [],
      best_tour := [2, 0, 1], best_length := 0, rng := Rng.zeros, lengths_log := [] } 3
    (by decide) rfl (by decide)).2.2.2.2.2.2
  rw [h]
  decide

namespace SMO

/-- The pair kept by the inner loop of `assignPointsToClusters` after the
centroids `0 .. k-1`: a lower bound of their squared distances that is either the
untouched start value or the first smallest squared distance. -/
theorem nearestCentroid_fold (pt : Point) (position : List Point) (k : Nat) :
    let acc := (List.range k).foldl
      (fun (acc : ℚ × Nat) j =>
        if (pt.1 - (position.getD j (0, 0)).1) * (pt.1 - (position.getD j (0, 0)).1)
            + (pt.2 - (position.getD j (0, 0)).2) * (pt.2 - (position.getD j (0, 0)).2) < acc.1
        then ((pt.1 - (position.getD j (0, 0)).1) * (pt.1 - (position.getD j (0, 0)).1)
            + (pt.2 - (position.getD j (0, 0)).2) * (pt.2 - (position.getD j (0, 0)).2), j)
        else acc)
      (DBL_MAX, 0)
    (∀ j, j < k → acc.1 ≤ distSq pt (position.getD j (0, 0))) ∧
      ((acc.1 = DBL_MAX ∧ acc.2 = 0) ∨
        (acc.2 < k ∧ acc.1 = distSq pt (position.getD acc.2 (0, 0)) ∧ acc.1 < DBL_MAX ∧
          ∀ j, j < acc.2 → acc.1 < distSq pt (position.getD j (0, 0)))) := by
  induction k with
  | zero => simp
  | succ k ih =>
    simp only at ih ⊢
    rw [List.range_succ, List.foldl_append]
    simp only [List.foldl_cons, List.foldl_nil]
    obtain ⟨hlb, hcase⟩ := ih
    have hle : ((List.range k).foldl
      (fun (acc : ℚ × Nat) j =>
        if (pt.1 - (position.getD j (0, 0)).1) * (pt.1 - (position.getD j (0, 0)).1)
            + (pt.2 - (position.getD j (0, 0)).2) * (pt.2 - (position.getD j (0, 0)).2) < acc.1
        then ((pt.1 - (position.getD j (0, 0)).1) * (pt.1 - (position.getD j (0, 0)).1)
            + (pt.2 - (position.getD j (0, 0)).2) * (pt.2 - (position.getD j (0, 0)).2), j)
        else acc)
      (DBL_MAX, 0)).1 ≤ DBL_MAX := by
      rcases hcase with h | h
      · exact le_of_eq h.1
      · exact le_of_lt h.2.2.1
    split
    · rename_i hlt
      refine ⟨fun j hj => ?_, Or.inr ⟨Nat.lt_succ_self k, rfl, lt_of_lt_of_le hlt hle, ?_⟩⟩
      · rcases Nat.lt_succ_iff_lt_or_eq.mp hj with h | h
        · exact le_trans (le_of_lt hlt) (hlb j h)
        · subst h; exact le_refl _
      · intro j hj
        exact lt_of_lt_of_le hlt (hlb j hj)
    · rename_i hnlt
      refine ⟨fun j hj => ?_, ?_⟩
      · rcases Nat.lt_succ_iff_lt_or_eq.mp hj with h | h
        · exact hlb j h
        · subst h; exact not_lt.mp hnlt
      · rcases hcase with h | h
        · exact Or.inl h
        · exact Or.inr ⟨Nat.lt_succ_of_lt h.1, h.2.1, h.2.2.1, h.2.2.2⟩

theorem nearestCentroid_spec (K : Nat) (pt : Point) (position : List Point)
    (hb : ∃ j, j < K ∧ distSq pt (position.getD j (0, 0)) < DBL_MAX) :
    (nearestCentroid K pt position).2 < K ∧
      (nearestCentroid K pt position).1
        = distSq pt (position.getD (nearestCentroid K pt position).2 (0, 0)) ∧
      (∀ j, j < K → (nearestCentroid K pt position).1 ≤ distSq pt (position.getD j (0, 0))) ∧
      ∀ j, j < (nearestCentroid K pt position).2 →
        (nearestCentroid K pt position).1 < distSq pt (position.getD j (0, 0)) := by
  obtain ⟨hlb, hcase⟩ := nearestCentroid_fold pt position K
  rcases hcase with h | h
  · obtain ⟨j, hj, hlt⟩ := hb
    have := hlb j hj
    rw [h.1] at this
    exact absurd hlt (not_lt.mpr this)
  · exact ⟨h.1, h.2.1, hlb, h.2.2.2⟩

theorem mem_getD_set_append (l : List (List Nat)) (idx x c i : Nat)
    (h : i ∈ l.getD c []) : i ∈ (l.set idx (l.getD idx [] ++ [x])).getD c [] := by
  by_cases hc : idx = c
  · subst hc
    by_cases hlt : idx < l.length
    · rw [ACO.getD_set_eq _ _ _ _ hlt]
      exact List.mem_append_left _ h
    · rw [List.set_eq_of_length_le (by omega)]; exact h
  · rw [ACO.getD_set_ne _ _ _ _ _ hc]; exact h

theorem assign_fold_spec (s : SMO) (position : List Point) (hK : 1 ≤ s.m_num_clusters)
    (m : Nat) :
    let res := (List.range m).foldl
      (fun (acc : ℚ × List (List Nat)) i =>
        (acc.1 + (nearestCentroid s.m_num_clusters (s.m_graph.getPoints.getD i (0, 0))
            position).1,
          acc.2.set
            (nearestCentroid s.m_num_clusters (s.m_graph.getPoints.getD i (0, 0)) position).2
            (acc.2.getD
              (nearestCentroid s.m_num_clusters (s.m_graph.getPoints.getD i (0, 0)) position).2
              [] ++ [i])))
      (0, List.replicate s.m_num_clusters [])
    res.1 = ((List.range m).map fun i =>
        (nearestCentroid s.m_num_clusters (s.m_graph.getPoints.getD i (0, 0)) position).1).sum ∧
      ∀ i, i < m → i ∈ res.2.getD
        (nearestCentroid s.m_num_clusters (s.m_graph.getPoints.getD i (0, 0)) position).2 [] := by
  induction m with
  | zero => simp
  | succ k ih =>
    have hlen := (assign_fold_partition s position hK k).1
    simp only at ih hlen ⊢
    rw [List.range_succ, List.foldl_append]
    simp only [List.foldl_cons, List.foldl_nil, List.map_append, List.map_cons, List.map_nil,
      List.sum_append, List.sum_cons, List.sum_nil, add_zero]
    refine ⟨by rw [ih.1], fun i hi => ?_⟩
    rcases Nat.lt_succ_iff_lt_or_eq.mp hi with h | h
    · exact mem_getD_set_append _ _ _ _ _ (ih.2 i h)
    · subst h
      rw [ACO.getD_set_eq _ _ _ _ (by rw [hlen]; exact nearestCentroid_lt _ _ _ hK)]
      simp

end SMO

/-- C14 (amended): for every point set and every list of `K >= 1` centroid
positions in which every point has a centroid at squared distance below
`numeric_limits<double>::max()`, `assignPointsToClusters` builds `K` clusters
that hold every point index once, puts point `i` into the cluster `best i` of a
centroid at minimum squared distance, the lowest such index, and returns (as
`calculateFitness` does) the sum over the points of that minimum squared
distance. -/
theorem C14_assign_nearest_centroid (s : SMO) (position : List Point)
    (hK : 1 ≤ s.m_num_clusters) (_hlen : position.length = s.m_num_clusters)
    (hb : ∀ i, i < s.m_graph.getPoints.length → ∃ j, j < s.m_num_clusters ∧
      SMO.distSq (s.m_graph.getPoints.getD i (0, 0)) (position.getD j (0, 0)) < DBL_MAX) :
    ∃ best : Nat → Nat,
      (s.assignPointsToClusters position).2.length = s.m_num_clusters ∧
      (s.assignPointsToClusters position).2.flatten.Perm
        (List.range s.m_graph.getPoints.length) ∧
      (∀ i, i < s.m_graph.getPoints.length →
        best i < s.m_num_clusters ∧
        i ∈ (s.assignPointsToClusters position).2.getD (best i) [] ∧
        (∀ j, j < s.m_num_clusters →
          SMO.distSq (s.m_graph.getPoints.getD i (0, 0)) (position.getD (best i) (0, 0))
            ≤ SMO.distSq (s.m_graph.getPoints.getD i (0, 0)) (position.getD j (0, 0))) ∧
        (∀ j, j < best i →
          SMO.distSq (s.m_graph.getPoints.getD i (0, 0)) (position.getD (best i) (0, 0))
            < SMO.distSq (s.m_graph.getPoints.getD i (0, 0)) (position.getD j (0, 0)))) ∧
      (s.assignPointsToClusters position).1 = s.calculateFitness position ∧
      (s.assignPointsToClusters position).1
        = ((List.range s.m_graph.getPoints.length).map fun i =>
            SMO.distSq (s.m_graph.getPoints.getD i (0, 0))
              (position.getD (best i) (0, 0))).sum := by
  have hpart := SMO.assign_fold_partition s position hK s.m_graph.getPoints.length
  have hspec := SMO.assign_fold_spec s position hK s.m_graph.getPoints.length
  simp only at hpart hspec
  refine ⟨fun i =>
    (SMO.nearestCentroid s.m_num_clusters (s.m_graph.getPoints.getD i (0, 0)) position).2,
    hpart.1, hpart.2, fun i hi => ?_, rfl, ?_⟩
  · obtain ⟨h1, h2, h3, h4⟩ := SMO.nearestCentroid_spec s.m_num_clusters
      (s.m_graph.getPoints.getD i (0, 0)) position (hb i hi)
    refine ⟨h1, hspec.2 i hi, fun j hj => ?_, fun j hj => ?_⟩
    · rw [← h2]; exact h3 j hj
    · rw [← h2]; exact h4 j hj
  · unfold SMO.assignPointsToClusters
    rw [hspec.1]
    congr 1
    apply List.map_congr_left
    intro i hi
    exact (SMO.nearestCentroid_spec s.m_num_clusters
      (s.m_graph.getPoints.getD i (0, 0)) position (hb i (List.mem_range.mp hi))).2.1

/-- C14 fails when a squared distance is not below the start value of
`min_dist_sq`: for the single point `(2^600, 0)` and the single centroid `(0, 0)`
the squared distance is `2^1200`, the comparison `dist_sq < min_dist_sq` fails,
and the value returned is `numeric_limits<double>::max()`, not the squared
distance. -/
theorem C14_counterexample :
    (SMO.assignPointsToClusters
        (SMO.new 1 1 (Graph.new [((2 : ℚ) ^ 600, 0)]) 1 1 1 0 Rng.zeros) [(0, 0)]).1 = DBL_MAX ∧
      (SMO.assignPointsToClusters
        (SMO.new 1 1 (Graph.new [((2 : ℚ) ^ 600, 0)]) 1 1 1 0 Rng.zeros) [(0, 0)]).2 = [[0]] ∧
      SMO.distSq ((2 : ℚ) ^ 600, 0) (0, 0) = 2 ^ 1200 ∧
      DBL_MAX < SMO.distSq ((2 : ℚ) ^ 600, 0) (0, 0) := by
  decide!

/-- The conditions of C14 hold for the points (0,0), (3,0), (0,4) and the
centroids (0,0), (3,0): the clusters are `[0, 2]` and `[1]` and the value returned
is 16. -/
theorem C14_witness :
    (SMO.assignPointsToClusters
        (SMO.new 2 1 (Graph.new [(0, 0), (3, 0), (0, 4)]) 4 1 1 0 Rng.counting)
        [(0, 0), (3, 0)]) = (16, [[0, 2], [1]]) ∧
      ∃ best : Nat → Nat, ∀ i, i < 3 →
        best i < 2 ∧
        i ∈ (SMO.assignPointsToClusters
          (SMO.new 2 1 (Graph.new [(0, 0), (3, 0), (0, 4)]) 4 1 1 0 Rng.counting)
          [(0, 0), (3, 0)]).2.getD (best i) [] := by
  refine ⟨by decide!, ?_⟩
  obtain ⟨best, _, _, h, _⟩ := C14_assign_nearest_centroid
    (SMO.new 2 1 (Graph.new [(0, 0), (3, 0), (0, 4)]) 4 1 1 0 Rng.counting) [(0, 0), (3, 0)]
    (by decide) (by decide) (by decide!)
  exact ⟨best, fun i hi => ⟨(h i hi).1, (h i hi).2.1⟩⟩

namespace SMO

end SMO

/-- Writing `f i` at every index `i` of a list, in increasing order, leaves the
list of the values of `f`. -/
theorem foldl_set_range {α : Type} (f : Nat → α) (l : List α) (k : Nat) (hk : k ≤ l.length) :
    (List.range k).foldl (fun gid i => gid.set i (f i)) l
      = (List.range k).map f ++ l.drop k := by
  induction k with
  | zero => simp
  | succ n ih =>
    rw [List.range_succ, List.foldl_append, ih (by omega)]
    simp only [List.foldl_cons, List.foldl_nil, List.map_append, List.map_cons, List.map_nil,
      List.append_assoc, List.singleton_append]
    have hlen : ((List.range n).map f).length = n := by simp
    rw [List.set_append_right _ _ (by omega), hlen, Nat.sub_self]
    congr 1
    rw [List.drop_eq_getElem_cons (by omega : n < l.length)]
    rfl

/-- The number of indices below `n` in the interval from `a` to `b`. -/
theorem countP_range_interval (p : Nat → Bool) (a b n : Nat) (hab : a ≤ b)
    (hp : ∀ i, i < n → (p i = true ↔ a ≤ i ∧ i < b)) :
    (List.range n).countP p = min b n - min a n := by
  induction n with
  | zero => simp
  | succ m ih =>
    rw [List.range_succ, List.countP_append, ih (fun i hi => hp i (by omega))]
    simp only [List.countP_cons, List.countP_nil, Nat.zero_add]
    by_cases hm : p m = true
    · have := (hp m (by omega)).mp hm
      rw [if_pos hm]
      omega
    · have h1 : ¬ (a ≤ m ∧ m < b) := fun h => hm ((hp m (by omega)).mpr h)
      rw [if_neg hm]
      omega

namespace SMO

theorem reseedCentroid_groups (g i : Nat) (s : SMO) (j : Nat) :
    (reseedCentroid g i s j).m_group_id = s.m_group_id ∧
      (reseedCentroid g i s j).m_num_groups = s.m_num_groups := ⟨rfl, rfl⟩

theorem reseedMonkey_groups (g : Nat) (s : SMO) (i : Nat) :
    (reseedMonkey g s i).m_group_id = s.m_group_id ∧
      (reseedMonkey g s i).m_num_groups = s.m_num_groups := by
  unfold reseedMonkey
  split
  · simp only
    exact foldl_inv (fun t : SMO => t.m_group_id = s.m_group_id ∧ t.m_num_groups = s.m_num_groups)
      (reseedCentroid g i) (fun t j ht => ⟨ht.1, ht.2⟩) _ _ ⟨rfl, rfl⟩
  · exact ⟨rfl, rfl⟩

theorem reseedGroup_groups (s : SMO) (g : Nat) :
    (reseedGroup s g).m_group_id = s.m_group_id ∧
      (reseedGroup s g).m_num_groups = s.m_num_groups := by
  unfold reseedGroup
  split
  · exact foldl_inv (fun t : SMO => t.m_group_id = s.m_group_id ∧ t.m_num_groups = s.m_num_groups)
      (reseedMonkey g) (fun t i ht => ⟨((reseedMonkey_groups g t i).1).trans ht.1,
        ((reseedMonkey_groups g t i).2).trans ht.2⟩) _ _ ⟨rfl, rfl⟩
  · exact ⟨rfl, rfl⟩

theorem localLeaderDecisionPhase_groups (s : SMO) :
    (localLeaderDecisionPhase s).m_group_id = (regroup s).m_group_id ∧
      (localLeaderDecisionPhase s).m_num_groups = (regroup s).m_num_groups := by
  unfold localLeaderDecisionPhase
  exact foldl_inv (fun t : SMO => t.m_group_id = (regroup s).m_group_id ∧
      t.m_num_groups = (regroup s).m_num_groups)
    reseedGroup (fun t g ht => ⟨((reseedGroup_groups t g).1).trans ht.1,
      ((reseedGroup_groups t g).2).trans ht.2⟩) _ _ ⟨rfl, rfl⟩

theorem regroup_split (s : SMO)
    (hcount : s.m_global_leader_limit_count > s.m_global_leader_limit)
    (hsplit : s.m_num_groups < max 1 (s.m_population_size / 5))
    (hlen : s.m_group_id.length = s.m_population_size) :
    (regroup s).m_num_groups = s.m_num_groups + 1 ∧
      (regroup s).m_group_id = (List.range s.m_population_size).map fun i =>
        min (i / (s.m_population_size / (s.m_num_groups + 1))) s.m_num_groups := by
  unfold regroup
  rw [if_pos hcount, if_pos hsplit]
  refine ⟨rfl, ?_⟩
  simp only
  rw [foldl_set_range _ _ _ (by omega), ← hlen, List.drop_length, List.append_nil]
  rfl

theorem count_split (P G : Nat) (hG : 1 ≤ G) (hP : G + 1 ≤ P / 5) (g : Nat) (hg : g ≤ G) :
    ((List.range P).map fun i => min (i / (P / (G + 1))) G).count g
      = if g < G then P / (G + 1) else P - G * (P / (G + 1)) := by
  have hq : 0 < P / (G + 1) := by
    apply Nat.div_pos _ (by omega)
    have := Nat.div_mul_le_self P 5
    omega
  have hqP : (G + 1) * (P / (G + 1)) ≤ P := Nat.mul_div_le P (G + 1)
  rw [List.count_eq_countP, List.countP_map]
  by_cases hlt : g < G
  · rw [if_pos hlt, countP_range_interval _ (g * (P / (G + 1))) ((g + 1) * (P / (G + 1))) P
      (Nat.mul_le_mul_right _ (by omega))]
    · have h1 : (g + 1) * (P / (G + 1)) ≤ P :=
        le_trans (Nat.mul_le_mul_right _ (by omega)) hqP
      have h2 : g * (P / (G + 1)) ≤ (g + 1) * (P / (G + 1)) := Nat.mul_le_mul_right _ (by omega)
      rw [Nat.min_eq_left h1, Nat.min_eq_left (le_trans h2 h1), Nat.add_mul, Nat.one_mul]
      omega
    · intro i _
      simp only [Function.comp, beq_iff_eq]
      rw [← Nat.le_div_iff_mul_le hq, ← Nat.div_lt_iff_lt_mul hq]
      omega
  · have hgG : g = G := by omega
    subst hgG
    rw [if_neg hlt, countP_range_interval _ (g * (P / (g + 1))) P P
      (le_trans (Nat.mul_le_mul_right _ (by omega)) hqP)]
    · have h1 : g * (P / (g + 1)) ≤ P := le_trans (Nat.mul_le_mul_right _ (by omega)) hqP
      rw [Nat.min_self, Nat.min_eq_left h1]
    · intro i hi
      simp only [Function.comp, beq_iff_eq]
      rw [← Nat.le_div_iff_mul_le hq]
      omega

end SMO

/-- C19 (amended): when `localLeaderDecisionPhase` splits a population of `P`
monkeys, the number of groups grows by one to `G`, the divisor `P / G` is not
zero, monkey `i` goes to group `min (i / (P / G)) (G - 1)`, every group but the
last has exactly `P / G` monkeys and the last group has `P / G + P mod G`. -/
theorem C19_split_group_sizes (s : SMO)
    (hcount : s.m_global_leader_limit_count > s.m_global_leader_limit)
    (hsplit : s.m_num_groups < max 1 (s.m_population_size / 5))
    (hG : 1 ≤ s.m_num_groups)
    (hlen : s.m_group_id.length = s.m_population_size) :
    (SMO.localLeaderDecisionPhase s).m_num_groups = s.m_num_groups + 1 ∧
      0 < s.m_population_size / (s.m_num_groups + 1) ∧
      (SMO.localLeaderDecisionPhase s).m_group_id
        = (List.range s.m_population_size).map (fun i =>
            min (i / (s.m_population_size / (s.m_num_groups + 1))) s.m_num_groups) ∧
      (∀ g, g < s.m_num_groups →
        (SMO.localLeaderDecisionPhase s).m_group_id.count g
          = s.m_population_size / (s.m_num_groups + 1)) ∧
      (SMO.localLeaderDecisionPhase s).m_group_id.count s.m_num_groups
        = s.m_population_size / (s.m_num_groups + 1)
          + s.m_population_size % (s.m_num_groups + 1) := by
  have hP : s.m_num_groups + 1 ≤ s.m_population_size / 5 := by
    rcases Nat.le_total 1 (s.m_population_size / 5) with h | h
    · rw [Nat.max_eq_right h] at hsplit; omega
    · rw [Nat.max_eq_left h] at hsplit; omega
  obtain ⟨h1, h2⟩ := SMO.regroup_split s hcount hsplit hlen
  obtain ⟨h3, h4⟩ := SMO.localLeaderDecisionPhase_groups s
  have hq : 0 < s.m_population_size / (s.m_num_groups + 1) := by
    apply Nat.div_pos _ (by omega)
    have := Nat.div_mul_le_self s.m_population_size 5
    omega
  refine ⟨h4.trans h1, hq, h3.trans h2, fun g hg => ?_, ?_⟩
  · rw [h3, h2, SMO.count_split _ _ hG hP g (by omega), if_pos hg]
  · rw [h3, h2, SMO.count_split _ _ hG hP _ (le_refl _), if_neg (lt_irrefl _)]
    have := Nat.div_add_mod s.m_population_size (s.m_num_groups + 1)
    have e : (s.m_num_groups + 1) * (s.m_population_size / (s.m_num_groups + 1))
        = s.m_num_groups * (s.m_population_size / (s.m_num_groups + 1))
          + s.m_population_size / (s.m_num_groups + 1) := by ring
    omega

/-- C19 fails for 17 monkeys: the second split, into three groups, gives the
groups 5, 5 and 7 monkeys (all draws 0, global limit 0, two iterations). -/
theorem C19_counterexample :
    ((SMO.new 1 2 (Graph.new [(1, 2), (2, 2)]) 17 20 0 (1 / 10) Rng.zeros).run 1).map
        (fun s => (s.m_num_groups, s.m_group_id.count 0, s.m_group_id.count 1,
          s.m_group_id.count 2))
      = some (3, 5, 5, 7) := by
  decide!

/-- The conditions of C19 hold for ten monkeys in one group whose global counter
has passed the limit 0: the split makes two groups of five. -/
theorem C19_witness :
    (SMO.localLeaderDecisionPhase
        { (SMO.new 1 1 (Graph.new [(1, 2), (2, 2)]) 10 20 0 (1 / 10) Rng.zeros).init with
          m_global_leader_limit_count := 1 }).m_num_groups
        = ({ (SMO.new 1 1 (Graph.new [(1, 2), (2, 2)]) 10 20 0 (1 / 10) Rng.zeros).init with
          m_global_leader_limit_count := 1 } : SMO).m_num_groups + 1 ∧
      (SMO.localLeaderDecisionPhase
        { (SMO.new 1 1 (Graph.new [(1, 2), (2, 2)]) 10 20 0 (1 / 10) Rng.zeros).init with
          m_global_leader_limit_count := 1 }).m_group_id.count 0 = 5 ∧
      (SMO.localLeaderDecisionPhase
        { (SMO.new 1 1 (Graph.new [(1, 2), (2, 2)]) 10 20 0 (1 / 10) Rng.zeros).init with
          m_global_leader_limit_count := 1 }).m_group_id.count 1 = 5 := by
  have h := C19_split_group_sizes
    { (SMO.new 1 1 (Graph.new [(1, 2), (2, 2)]) 10 20 0 (1 / 10) Rng.zeros).init with
      m_global_leader_limit_count := 1 }
    (by decide!) (by decide!) (by decide!) (by decide!)
  refine ⟨h.1, ?_, ?_⟩ <;> decide!

/-- C18 fails on the code: in the run below (ten monkeys, global limit 0, monkey 9
drawn at the best position) the second iteration merges two groups.  After the
merge the local leader of group 0 is still the best monkey of the old group 0,
at `(1, 2)` with fitness 4, while the global leader is at `(2, 2)` with fitness
2: `resize(1, m_global_leader)` only cuts the vector and writes nothing. -/
theorem C18_merge_keeps_old_local_leader :
    ((SMO.new 1 1 (Graph.new [(1, 2), (3, 2)]) 10 20 0 (1 / 10)
        (Rng.ofList (List.replicate 18 0 ++ [1 / 2]))).run 1).map
        (fun s => s.m_num_groups) = some 2 ∧
      ((SMO.new 1 2 (Graph.new [(1, 2), (3, 2)]) 10 20 0 (1 / 10)
        (Rng.ofList (List.replicate 18 0 ++ [1 / 2]))).run 1).map
        (fun s => s.m_num_groups) = some 1 ∧
      ((SMO.new 1 2 (Graph.new [(1, 2), (3, 2)]) 10 20 0 (1 / 10)
        (Rng.ofList (List.replicate 18 0 ++ [1 / 2]))).run 1).map
        (fun s => s.m_local_leaders) = some [[((1 : ℚ), (2 : ℚ))]] ∧
      ((SMO.new 1 2 (Graph.new [(1, 2), (3, 2)]) 10 20 0 (1 / 10)
        (Rng.ofList (List.replicate 18 0 ++ [1 / 2]))).run 1).map
        (fun s => s.m_local_leader_fitness) = some [4] ∧
      ((SMO.new 1 2 (Graph.new [(1, 2), (3, 2)]) 10 20 0 (1 / 10)
        (Rng.ofList (List.replicate 18 0 ++ [1 / 2]))).run 1).map
        (fun s => s.m_global_leader) = some [((2 : ℚ), (2 : ℚ))] ∧
      ((SMO.new 1 2 (Graph.new [(1, 2), (3, 2)]) 10 20 0 (1 / 10)
        (Rng.ofList (List.replicate 18 0 ++ [1 / 2]))).run 1).map
        (fun s => s.m_global_leader_fitness) = some 2 := by
  refine ⟨?_, ?_, ?_, ?_, ?_, ?_⟩ <;> decide!

namespace ACO

theorem getD_row_length (n : Nat) (m : List (List ℝ)) (hlen : m.length = n)
    (hrows : ∀ row ∈ m, row.length = n) (i : Nat) (hi : i < n) : (m.getD i []).length = n := by
  apply hrows
  rw [List.getD_eq_getElem _ _ (by rw [hlen]; exact hi)]
  exact List.getElem_mem _

theorem matAdd_getD (n : Nat) (m : List (List ℝ)) (hlen : m.length = n)
    (hrows : ∀ row ∈ m, row.length = n) (i j : Nat) (v : ℝ)
    (hi : i < n) (hj : j < n) (a b : Nat) :
    ((matAdd m i j v).getD a []).getD b 0
      = (m.getD a []).getD b 0 + (if a = i ∧ b = j then v else 0) := by
  unfold matAdd
  by_cases hai : i = a
  · subst hai
    rw [getD_set_eq _ _ _ _ (by rw [hlen]; exact hi)]
    by_cases hbj : j = b
    · subst hbj
      rw [getD_set_eq _ _ _ _ (by rw [getD_row_length n m hlen hrows i hi]; exact hj),
        if_pos ⟨rfl, rfl⟩]
    · rw [getD_set_ne _ _ _ _ _ hbj, if_neg (fun h => hbj h.2.symm), add_zero]
  · rw [getD_set_ne _ _ _ _ _ hai, if_neg (fun h => hai h.1.symm), add_zero]

theorem matAdd_shape (n : Nat) (m : List (List ℝ)) (i j : Nat) (v : ℝ)
    (hlen : m.length = n) (hrows : ∀ row ∈ m, row.length = n) :
    (matAdd m i j v).length = n ∧ ∀ row ∈ matAdd m i j v, row.length = n := by
  unfold matAdd
  refine ⟨by simpa using hlen, fun row hrow => ?_⟩
  by_cases hi : i < m.length
  · rcases List.mem_or_eq_of_mem_set hrow with h | h
    · exact hrows row h
    · rw [h, List.length_set]
      apply hrows
      rw [List.getD_eq_getElem _ _ hi]
      exact List.getElem_mem _
  · rw [List.set_eq_of_length_le (by omega)] at hrow
    exact hrows row hrow

/-- The pair of updates of `deposit_pher` for one edge keeps the matrix symmetric. -/
theorem symmetric_matAdd_pair (n : Nat) (m : List (List ℝ)) (hm : Symmetric n m) (x y : Nat)
    (v : ℝ) (hx : x < n) (hy : y < n) :
    Symmetric n (matAdd (matAdd m x y v) y x v) := by
  have hs1 := matAdd_shape n m x y v hm.1 hm.2.1
  have hs2 := matAdd_shape n (matAdd m x y v) y x v hs1.1 hs1.2
  have hentry : ∀ a b, ((matAdd (matAdd m x y v) y x v).getD a []).getD b 0
      = (m.getD a []).getD b 0 + (if a = x ∧ b = y then v else 0)
        + (if a = y ∧ b = x then v else 0) := by
    intro a b
    rw [matAdd_getD n _ hs1.1 hs1.2 y x v hy hx a b, matAdd_getD n m hm.1 hm.2.1 x y v hx hy a b]
  refine ⟨hs2.1, hs2.2, fun i j => ?_⟩
  rw [hentry i j, hentry j i, hm.2.2 i j,
    show (if j = x ∧ i = y then v else 0) = (if i = y ∧ j = x then v else 0) from
      if_congr and_comm rfl rfl,
    show (if j = y ∧ i = x then v else 0) = (if i = x ∧ j = y then v else 0) from
      if_congr and_comm rfl rfl]
  ring

theorem symmetric_depositEdge (n : Nat) (v : ℝ) (m m' : List (List ℝ)) (x y : Int)
    (hm : Symmetric n m) (h : depositEdge n v m x y = some m') : Symmetric n m' := by
  unfold depositEdge at h
  split at h
  · rename_i hc
    cases h
    exact symmetric_matAdd_pair n m hm _ _ v (by omega) (by omega)
  · cases h

theorem symmetric_replicate (n : Nat) (v : ℝ) :
    Symmetric n (List.replicate n (List.replicate n v)) := by
  refine ⟨by simp, fun row hrow => ?_, fun i j => ?_⟩
  · rw [(List.mem_replicate.mp hrow).2]; simp
  · by_cases hi : i < n <;> by_cases hj : j < n <;>
      simp [List.getD_eq_getElem?_getD, List.getElem?_replicate, hi, hj]

theorem symmetric_evaporate (a : ACO) (hm : Symmetric a.num_cities a.pher_mat) :
    Symmetric a.num_cities (evaporate_pher a).pher_mat := by
  unfold evaporate_pher
  refine ⟨by simpa using hm.1, fun row hrow => ?_, fun i j => ?_⟩
  · simp only [List.mem_map] at hrow
    obtain ⟨r, hr, rfl⟩ := hrow
    simpa using hm.2.1 r hr
  · have key : ∀ p q, ((a.pher_mat.map fun row => row.map fun x => x * (1 - a.rho)).getD p
        []).getD q 0 = (a.pher_mat.getD p []).getD q 0 * (1 - a.rho) := by
      intro p q
      simp only [List.getD_eq_getElem?_getD, List.getElem?_map]
      cases a.pher_mat[p]? with
      | none => simp
      | some row =>
        simp only [Option.map_some', Option.getD_some, List.getElem?_map]
        cases row[q]? with
        | none => simp
        | some x => simp
    simp only
    rw [key i j, key j i, hm.2.2 i j]

/-- Method `deposit_pher` returns and keeps the matrix symmetric when the path is
not empty and holds city indices. -/
theorem symmetric_deposit_pher (a : ACO) (path : List Int) (length : ℝ)
    (hm : Symmetric a.num_cities a.pher_mat) (hne : path ≠ [])
    (hp : ∀ x ∈ path, 0 ≤ x ∧ x < (a.num_cities : Int)) :
    ∃ m', deposit_pher a path length = some { a with pher_mat := m' } ∧
      Symmetric a.num_cities m' := by
  have hlen : 0 < path.length := List.length_pos.mpr hne
  have hget : ∀ i, i < path.length → 0 ≤ path.getD i (-1) ∧ path.getD i (-1) < a.num_cities := by
    intro i hi
    apply hp
    rw [List.getD_eq_getElem _ _ hi]
    exact List.getElem_mem _
  have hfold : ∀ k, k < path.length → ∃ m1, (List.range k).foldlM
      (fun m i => depositEdge a.num_cities (a.Q / length) m (path.getD i (-1))
        (path.getD (i + 1) (-1))) a.pher_mat = some m1 ∧ Symmetric a.num_cities m1 := by
    intro k
    induction k with
    | zero => intro _; exact ⟨a.pher_mat, rfl, hm⟩
    | succ k ih =>
      intro hk
      obtain ⟨m1, h1, hs1⟩ := ih (by omega)
      rw [List.range_succ, List.foldlM_append, h1]
      simp only [List.foldlM_cons, List.foldlM_nil, Option.pure_def, Option.bind_eq_bind,
        Option.some_bind]
      rw [depositEdge_some _ _ _ _ _ (hget k (by omega)) (hget (k + 1) (by omega))]
      exact ⟨_, rfl, symmetric_matAdd_pair _ m1 hs1 _ _ _
        (by have := hget k (by omega); omega) (by have := hget (k + 1) (by omega); omega)⟩
  obtain ⟨m1, h1, hs1⟩ := hfold (path.length - 1) (by omega)
  unfold deposit_pher
  rw [h1]
  simp only
  rw [depositEdge_some _ _ _ _ _ (hget _ (by omega)) (hget 0 hlen)]
  exact ⟨_, rfl, symmetric_matAdd_pair _ m1 hs1 _ _ _
    (by have := hget (path.length - 1) (by omega); omega) (by have := hget 0 hlen; omega)⟩

/-- Method `update_pher` returns and keeps the matrix symmetric when every ant's
tour is not empty and holds city indices. -/
theorem symmetric_update_pher (a : ACO) (hm : Symmetric a.num_cities a.pher_mat)
    (ht : ∀ i, i < a.num_ants → a.tours.getD i [] ≠ [] ∧
      ∀ x ∈ a.tours.getD i [], 0 ≤ x ∧ x < (a.num_cities : Int)) :
    ∃ m', update_pher a = some { a with pher_mat := m' } ∧ Symmetric a.num_cities m' := by
  have key : ∀ (js : List Nat) (b : ACO), b.num_cities = a.num_cities → b.tours = a.tours →
      (∀ j ∈ js, j < a.num_ants) → Symmetric b.num_cities b.pher_mat →
      ∃ m', js.foldlM (fun a i => deposit_pher a (a.tours.getD i []) (a.tour_length.getD i 0)) b
        = some { b with pher_mat := m' } ∧ Symmetric b.num_cities m' := by
    intro js
    induction js with
    | nil => intro b _ _ _ hb; exact ⟨b.pher_mat, rfl, hb⟩
    | cons x xs ih =>
      intro b hn htr hjs hb
      obtain ⟨m1, h1, hs1⟩ := symmetric_deposit_pher b (b.tours.getD x [])
        (b.tour_length.getD x 0) hb
        (by rw [htr]; exact (ht x (hjs x (List.mem_cons_self _ _))).1)
        (by rw [htr, hn]; exact (ht x (hjs x (List.mem_cons_self _ _))).2)
      simp only [List.foldlM_cons, Option.bind_eq_bind, h1, Option.some_bind]
      obtain ⟨m2, h2, hs2⟩ := ih { b with pher_mat := m1 } hn htr
        (fun j hj => hjs j (List.mem_cons_of_mem _ hj)) hs1
      exact ⟨m2, h2, hs2⟩
  unfold update_pher
  obtain ⟨m', h, hs⟩ := key (List.range a.num_ants) (evaporate_pher a) rfl rfl
    (fun j hj => List.mem_range.mp hj) (symmetric_evaporate a hm)
  exact ⟨m', h, hs⟩

/-- A property kept by every `construct_tour` and every `update_pher` holds after
the loop of `ACO::run`. -/
theorem runLoop_inv (P : ACO → Prop) (fuel : Nat)
    (hc : ∀ a ant a', P a → construct_tour fuel a ant = some a' → P a')
    (hu : ∀ a a', P a → update_pher a = some a' → P a')
    (iterations remaining i : Nat) (a : ACO) (prev curr : ℝ) (a' : ACO) (ha : P a)
    (h : runLoop fuel iterations remaining i a prev curr = some a') : P a' := by
  induction remaining generalizing a i prev curr with
  | zero =>
    simp only [runLoop, Option.some.injEq] at h
    exact h ▸ ha
  | succ k ih =>
    unfold runLoop at h
    split at h
    · cases h
    · rename_i a1 h1
      split at h
      · cases h
      · rename_i a2 h2
        have ha1 : P a1 := foldlM_inv P _ (fun s j s' hs hj => hc s j s' hs hj) _ a a1 ha h1
        have ha2 : P a2 := hu a1 a2 ha1 h2
        split at h
        · split at h
          · cases h; exact ha2
          · exact ih _ _ _ _ ha2 h
        · exact ih _ _ _ _ ha2 h

theorem round_inv (P : ACO → Prop) (fuel : Nat)
    (hc : ∀ a ant a', P a → construct_tour fuel a ant = some a' → P a')
    (hu : ∀ a a', P a → update_pher a = some a' → P a')
    (a a' : ACO) (ha : P a) (h : round fuel a = some a') : P a' := by
  unfold round at h
  split at h
  · cases h
  · rename_i a1 h1
    exact hu a1 a' (foldlM_inv P _ (fun s j s' hs hj => hc s j s' hs hj) _ a a1 ha h1) h

theorem rounds_inv (P : ACO → Prop) (fuel : Nat)
    (hc : ∀ a ant a', P a → construct_tour fuel a ant = some a' → P a')
    (hu : ∀ a a', P a → update_pher a = some a' → P a')
    (k : Nat) (a a' : ACO) (ha : P a) (h : rounds fuel k a = some a') : P a' := by
  induction k generalizing a' with
  | zero =>
    simp only [rounds, Option.some.injEq] at h
    exact h ▸ ha
  | succ n ih =>
    unfold rounds at h
    split at h
    · cases h
    · rename_i a1 h1
      exact round_inv P fuel hc hu a1 a' (ih a1 h1) h

theorem symmetric_of_update (a a' : ACO) (hm : Symmetric a.num_cities a.pher_mat)
    (h : update_pher a = some a') : Symmetric a'.num_cities a'.pher_mat := by
  have hdep : ∀ (b b' : ACO) (path : List Int) (length : ℝ),
      Symmetric b.num_cities b.pher_mat → deposit_pher b path length = some b' →
      Symmetric b'.num_cities b'.pher_mat := by
    intro b b' path length hb hd
    unfold deposit_pher at hd
    split at hd
    · cases hd
    · rename_i m1 h1
      split at hd
      · cases hd
      · rename_i m2 h2
        cases hd
        have hs1 : Symmetric b.num_cities m1 :=
          foldlM_inv (Symmetric b.num_cities) _
            (fun m i m' hs hi => symmetric_depositEdge _ _ _ _ _ _ hs hi) _ _ _ hb h1
        exact symmetric_depositEdge _ _ _ _ _ _ hs1 h2
  unfold update_pher at h
  exact foldlM_inv (fun b : ACO => Symmetric b.num_cities b.pher_mat) _
    (fun b i b' hs hi => hdep b b' _ _ hs hi) _ _ _ (symmetric_evaporate a hm) h

theorem symmetric_of_construct (fuel : Nat) (a : ACO) (ant : Nat) (a' : ACO)
    (hm : Symmetric a.num_cities a.pher_mat) (h : construct_tour fuel a ant = some a') :
    Symmetric a'.num_cities a'.pher_mat := by
  obtain ⟨g', path, rfl⟩ := construct_tour_eq fuel a ant a' h
  exact hm

end ACO

/-- C15: the pheromone matrix of a constructed `ACO` object is a symmetric square
matrix; `update_pher` (evaporation, then every ant's deposit) returns and maps a
symmetric matrix to a symmetric matrix whenever every ant's tour is a non-empty
list of city indices, whatever the tours and their recorded lengths are; and the
matrix is symmetric after `ACO::run`. -/
theorem C15_pheromone_symmetric :
    (∀ pts ants alpha beta rho Q rng a, ACO.new pts ants alpha beta rho Q rng = some a →
      ACO.Symmetric a.num_cities a.pher_mat) ∧
    (∀ a : ACO, ACO.Symmetric a.num_cities a.pher_mat →
      (∀ i, i < a.num_ants → a.tours.getD i [] ≠ [] ∧
        ∀ x ∈ a.tours.getD i [], 0 ≤ x ∧ x < (a.num_cities : Int)) →
      ∃ m', ACO.update_pher a = some { a with pher_mat := m' } ∧
        ACO.Symmetric a.num_cities m') ∧
    (∀ a a' : ACO, ACO.Symmetric a.num_cities a.pher_mat → ACO.update_pher a = some a' →
      ACO.Symmetric a'.num_cities a'.pher_mat) ∧
    (∀ fuel iterations (a a' : ACO), ACO.Symmetric a.num_cities a.pher_mat →
      ACO.run fuel a iterations = some a' → ACO.Symmetric a'.num_cities a'.pher_mat) := by
  refine ⟨?_, fun a hm ht => ACO.symmetric_update_pher a hm ht,
    fun a a' hm h => ACO.symmetric_of_update a a' hm h, ?_⟩
  · intro pts ants alpha beta rho Q rng a h
    unfold ACO.new at h
    split at h
    · cases h
    · cases h
      exact ACO.symmetric_replicate _ _
  · intro fuel iterations a a' hm h
    exact ACO.runLoop_inv (fun b => ACO.Symmetric b.num_cities b.pher_mat) fuel
      (fun b ant b' hb hc => ACO.symmetric_of_construct fuel b ant b' hb hc)
      (fun b b' hb hu => ACO.symmetric_of_update b b' hb hu) _ _ _ a _ _ a' hm h

namespace ACO

/-- The desirability `pow(tau, alpha) * pow(eta, beta)` is not negative when the
pheromone entry is not negative and the distances are those of a `Graph`. -/
theorem desirability_nonneg (a : ACO) (pts : List Point) (hg : a.graph = Graph.new pts)
    (cur j : Nat) (hp : 0 ≤ (a.pher_mat.getD cur []).getD j 0) : 0 ≤ desirability a cur j := by
  unfold desirability
  apply mul_nonneg
  · exact Real.rpow_nonneg hp _
  · apply Real.rpow_nonneg
    rw [hg]
    exact div_nonneg zero_le_one (Graph.getDistance_new_nonneg pts cur j)

end ACO

namespace ACO

/-- Constructor `ACO::ACO` returns an object holding its arguments whenever the
nearest-neighbour seeding returns. -/
theorem new_fields (pts : List Point) (ants : Nat) (alpha beta rho Q : ℚ) (rng : Rng)
    (hr : Graph.inIntRange pts) (hpos : 0 < pts.length) :
    ∃ a, ACO.new pts ants alpha beta rho Q rng = some a ∧ a.graph = Graph.new pts ∧
      a.num_cities = pts.length ∧ a.num_ants = ants ∧ a.alpha = alpha ∧ a.beta = beta ∧
      a.rho = rho ∧ a.Q = Q ∧ a.rng = rng ∧ a.best_length = ((DBL_MAX : ℚ) : ℝ) ∧
      a.tours.length = ants := by
  obtain ⟨L, hL, _⟩ := Graph.nearest_neighbor_some pts hr hpos
  unfold ACO.new
  rw [hL]
  exact ⟨_, rfl, rfl, rfl, rfl, rfl, rfl, rfl, rfl, rfl, rfl, by simp⟩

end ACO

/-- C12 (amended): the constructors perform no validation.  `Hybrid::Hybrid` and
`SMO::SMO` store whatever they are given, for every point list (also the empty
one), every count (also zero) and every hyperparameter (also negative), and
`ACO::ACO` does the same for every ant count and every hyperparameter on every
non-empty point list whose distance computation stays in `int` range. -/
theorem C12_constructors_store_configuration (K si P : Nat) (ll gl : Int) (pr : ℚ)
    (ants iters : Nat) (al be rho Q : ℚ) (rng : Rng) :
    (∀ pts : List Point,
      (Hybrid.new pts K si P ll gl pr ants iters al be rho Q).m_main_graph.getPoints = pts ∧
      (Hybrid.new pts K si P ll gl pr ants iters al be rho Q).m_num_salesmen = K ∧
      (Hybrid.new pts K si P ll gl pr ants iters al be rho Q).m_smo_iterations = si ∧
      (Hybrid.new pts K si P ll gl pr ants iters al be rho Q).m_smo_population_size = P ∧
      (Hybrid.new pts K si P ll gl pr ants iters al be rho Q).m_smo_local_limit = ll ∧
      (Hybrid.new pts K si P ll gl pr ants iters al be rho Q).m_smo_global_limit = gl ∧
      (Hybrid.new pts K si P ll gl pr ants iters al be rho Q).m_smo_pr = pr ∧
      (Hybrid.new pts K si P ll gl pr ants iters al be rho Q).m_aco_ants = ants ∧
      (Hybrid.new pts K si P ll gl pr ants iters al be rho Q).m_aco_iterations = iters ∧
      (Hybrid.new pts K si P ll gl pr ants iters al be rho Q).m_aco_alpha = al ∧
      (Hybrid.new pts K si P ll gl pr ants iters al be rho Q).m_aco_beta = be ∧
      (Hybrid.new pts K si P ll gl pr ants iters al be rho Q).m_aco_rho = rho ∧
      (Hybrid.new pts K si P ll gl pr ants iters al be rho Q).m_aco_Q = Q) ∧
    (∀ pts : List Point,
      (SMO.new K si (Graph.new pts) P ll gl pr rng).m_graph.getPoints = pts ∧
      (SMO.new K si (Graph.new pts) P ll gl pr rng).m_num_clusters = K ∧
      (SMO.new K si (Graph.new pts) P ll gl pr rng).m_iterations = si ∧
      (SMO.new K si (Graph.new pts) P ll gl pr rng).m_population_size = P ∧
      (SMO.new K si (Graph.new pts) P ll gl pr rng).m_local_leader_limit = ll ∧
      (SMO.new K si (Graph.new pts) P ll gl pr rng).m_global_leader_limit = gl ∧
      (SMO.new K si (Graph.new pts) P ll gl pr rng).m_pr = pr) ∧
    (∀ pts : List Point, Graph.inIntRange pts → 0 < pts.length →
      ∃ a, ACO.new pts ants al be rho Q rng = some a ∧ a.graph.getPoints = pts ∧
        a.num_cities = pts.length ∧ a.num_ants = ants ∧ a.alpha = al ∧ a.beta = be ∧
        a.rho = rho ∧ a.Q = Q) := by
  refine ⟨fun pts => ⟨rfl, rfl, rfl, rfl, rfl, rfl, rfl, rfl, rfl, rfl, rfl, rfl, rfl⟩,
    fun pts => ⟨rfl, rfl, rfl, rfl, rfl, rfl, rfl⟩, fun pts hr hpos => ?_⟩
  obtain ⟨a, h, hg, hn, hants, hal, hbe, hrho, hQ, _⟩ :=
    ACO.new_fields pts ants al be rho Q rng hr hpos
  exact ⟨a, h, by rw [hg]; rfl, hn, hants, hal, hbe, hrho, hQ⟩

/-- C12 fails on the code: no constructor rejects anything.  `Hybrid::Hybrid` and
`SMO::SMO` return an object for zero points, zero salesmen, zero ants, an empty
population and negative hyperparameters, and `ACO::ACO` returns an object with
zero ants and negative `alpha`, `beta`, `rho` and `Q`. -/
theorem C12_counterexample :
    (Hybrid.new [] 0 1 0 (-1) (-1) (-1) 0 1 (-1) (-1) (-1) (-1)).m_main_graph.getPoints = [] ∧
      (Hybrid.new [] 0 1 0 (-1) (-1) (-1) 0 1 (-1) (-1) (-1) (-1)).m_num_salesmen = 0 ∧
      (Hybrid.new [] 0 1 0 (-1) (-1) (-1) 0 1 (-1) (-1) (-1) (-1)).m_smo_population_size = 0 ∧
      (Hybrid.new [] 0 1 0 (-1) (-1) (-1) 0 1 (-1) (-1) (-1) (-1)).m_aco_ants = 0 ∧
      (Hybrid.new [] 0 1 0 (-1) (-1) (-1) 0 1 (-1) (-1) (-1) (-1)).m_aco_rho = -1 ∧
      (SMO.new 0 1 (Graph.new []) 0 (-1) (-1) (-1) Rng.zeros).m_num_clusters = 0 ∧
      (SMO.new 0 1 (Graph.new []) 0 (-1) (-1) (-1) Rng.zeros).m_population_size = 0 ∧
      (SMO.new 0 1 (Graph.new []) 0 (-1) (-1) (-1) Rng.zeros).m_pr = -1 ∧
      ∃ a, ACO.new [(1, 2), (2, 2)] 0 (-1) (-1) (-1) (-1) Rng.zeros = some a ∧
        a.num_ants = 0 ∧ a.alpha = -1 ∧ a.beta = -1 ∧ a.rho = -1 ∧ a.Q = -1 := by
  refine ⟨rfl, rfl, rfl, rfl, rfl, rfl, rfl, rfl, ?_⟩
  obtain ⟨a, h, _, _, hants, hal, hbe, hrho, hQ, _⟩ :=
    ACO.new_fields [(1, 2), (2, 2)] 0 (-1) (-1) (-1) (-1) Rng.zeros pair_inIntRange (by decide)
  refine ⟨a, h, hants, ?_, ?_, ?_, ?_⟩
  · rw [hal]; norm_num
  · rw [hbe]; norm_num
  · rw [hrho]; norm_num
  · rw [hQ]; norm_num

namespace ACO

theorem tourLoop_length (fuel ant steps : Nat) (a : ACO) (cur : Nat) (visited : List Bool)
    (path : List Nat) (a1 : ACO) (path' : List Nat)
    (h : tourLoop fuel ant steps a cur visited path = some (a1, path')) :
    path'.length = path.length + steps := by
  induction steps generalizing a cur visited path with
  | zero =>
    simp only [tourLoop, Option.some.injEq, Prod.mk.injEq] at h
    rw [← h.2]; rfl
  | succ k ih =>
    unfold tourLoop at h
    split at h
    · cases h
    · rw [ih _ _ _ _ h]
      simp only [List.length_append, List.length_cons, List.length_nil]
      omega

/-- The effect of one call of `construct_tour`: the tour built has `num_cities`
entries. -/
theorem construct_tour_eq_len (fuel : Nat) (a : ACO) (ant : Nat) (a' : ACO)
    (h : construct_tour fuel a ant = some a') :
    ∃ g' path, path.length = a.num_cities ∧
      a' = { a with
        rng := g'
        tours := a.tours.set ant (path.map Int.ofNat)
        tour_length := a.tour_length.set ant (closedLength a.graph path)
        lengths_log := a.lengths_log ++ [closedLength a.graph path]
        best_length :=
          if closedLength a.graph path < a.best_length then closedLength a.graph path
          else a.best_length
        best_tour :=
          if closedLength a.graph path < a.best_length then path.map Int.ofNat
          else a.best_tour } := by
  unfold construct_tour at h
  split at h
  · cases h
  · rename_i hn
    split at h
    · cases h
    · rename_i a1 path hloop
      have hlen := tourLoop_length _ _ _ _ _ _ _ _ _ hloop
      obtain ⟨g', rfl⟩ := tourLoop_eq _ _ _ _ _ _ _ _ _ hloop
      simp only [Option.some.injEq] at h
      refine ⟨g', path, ?_, h.symm⟩
      rw [hlen]
      simp only [List.length_cons, List.length_nil]
      omega

/-- The members of `ACO` that no operation of a run changes. -/
theorem construct_tour_frame (fuel : Nat) (a : ACO) (ant : Nat) (a' : ACO)
    (h : construct_tour fuel a ant = some a') :
    a'.graph = a.graph ∧ a'.num_cities = a.num_cities ∧ a'.num_ants = a.num_ants := by
  obtain ⟨g', path, rfl⟩ := construct_tour_eq fuel a ant a' h
  exact ⟨rfl, rfl, rfl⟩

theorem update_pher_frame (a a' : ACO) (h : update_pher a = some a') :
    a'.graph = a.graph ∧ a'.num_cities = a.num_cities ∧ a'.num_ants = a.num_ants ∧
      a'.best_length = a.best_length ∧ a'.best_tour = a.best_tour := by
  obtain ⟨m, rfl⟩ := update_pher_eq a a' h
  exact ⟨rfl, rfl, rfl, rfl, rfl⟩

theorem construct_tour_best_lt (fuel : Nat) (pts : List Point) (hr : Graph.inIntRange pts)
    (a : ACO) (ant : Nat) (a' : ACO) (hg : a.graph = Graph.new pts)
    (hn : a.num_cities = pts.length) (h : construct_tour fuel a ant = some a') :
    a'.best_length < ((DBL_MAX : ℚ) : ℝ) := by
  obtain ⟨g', path, hlen, rfl⟩ := construct_tour_eq_len fuel a ant a' h
  have hL : closedLength a.graph path < ((DBL_MAX : ℚ) : ℝ) := by
    rw [hg]; exact closedLength_lt pts hr path (by rw [hlen, hn])
  simp only
  split
  · exact hL
  · rename_i hnlt
    exact lt_of_le_of_lt (not_lt.mp hnlt) hL

theorem construct_tour_best_le (fuel : Nat) (a : ACO) (ant : Nat) (a' : ACO)
    (h : construct_tour fuel a ant = some a') : a'.best_length ≤ a.best_length := by
  obtain ⟨L, _, hL⟩ := construct_tour_log fuel a ant a' h
  rw [hL]; exact min_le_left _ _

/-- After one round with at least one ant the best-known length is below
`numeric_limits<double>::max()`. -/
theorem round_best_lt (fuel : Nat) (pts : List Point) (hr : Graph.inIntRange pts)
    (a a' : ACO) (hg : a.graph = Graph.new pts) (hn : a.num_cities = pts.length)
    (hants : 1 ≤ a.num_ants) (h : round fuel a = some a') :
    a'.best_length < ((DBL_MAX : ℚ) : ℝ) := by
  unfold round at h
  split at h
  · cases h
  · rename_i a1 h1
    rw [(update_pher_frame a1 a' h).2.2.2.1]
    unfold constructAll at h1
    obtain ⟨n, hn'⟩ : ∃ n, a.num_ants = n + 1 := ⟨a.num_ants - 1, by omega⟩
    rw [hn', List.range_succ, List.foldlM_append] at h1
    simp only [List.foldlM_cons, List.foldlM_nil, Option.bind_eq_bind, Option.bind_eq_some,
      Option.pure_def] at h1
    obtain ⟨b, hb, b', hb', hbb⟩ := h1
    simp only [Option.some.injEq] at hbb
    subst hbb
    have hPb : b.graph = Graph.new pts ∧ b.num_cities = pts.length :=
      foldlM_inv (fun c : ACO => c.graph = Graph.new pts ∧ c.num_cities = pts.length) _
        (fun s j s' hs hj => by
          obtain ⟨e1, e2, _⟩ := construct_tour_frame fuel s j s' hj
          exact ⟨e1.trans hs.1, e2.trans hs.2⟩) _ a b ⟨hg, hn⟩ hb
    exact construct_tour_best_lt fuel pts hr b n b' hPb.1 hPb.2 hb'

theorem rounds_succ_of_some (fuel i : Nat) (a0 a : ACO) (h : rounds fuel i a0 = some a) :
    rounds fuel (i + 1) a0 = round fuel a := by
  show (match rounds fuel i a0 with
    | none => none
    | some a1 => round fuel a1) = round fuel a
  rw [h]

theorem rounds_none_of_le (fuel i j : Nat) (a0 : ACO) (h : rounds fuel i a0 = none)
    (hij : i ≤ j) : rounds fuel j a0 = none := by
  induction j with
  | zero =>
    have : i = 0 := by omega
    subst this; exact h
  | succ n ih =>
    by_cases hi : i = n + 1
    · subst hi; exact h
    · show (match rounds fuel n a0 with
        | none => none
        | some a1 => round fuel a1) = none
      rw [ih (by omega)]

/-- The members that a run does not change, after `k` rounds. -/
theorem rounds_frame (fuel k : Nat) (a a' : ACO) (h : rounds fuel k a = some a') :
    a'.graph = a.graph ∧ a'.num_cities = a.num_cities ∧ a'.num_ants = a.num_ants :=
  rounds_inv (fun c => c.graph = a.graph ∧ c.num_cities = a.num_cities ∧
      c.num_ants = a.num_ants) fuel
    (fun s j s' hs hj => by
      obtain ⟨e1, e2, e3⟩ := construct_tour_frame fuel s j s' hj
      exact ⟨e1.trans hs.1, e2.trans hs.2.1, e3.trans hs.2.2⟩)
    (fun s s' hs hj => by
      obtain ⟨e1, e2, e3, _⟩ := update_pher_frame s s' hj
      exact ⟨e1.trans hs.1, e2.trans hs.2.1, e3.trans hs.2.2⟩)
    k a a' ⟨rfl, rfl, rfl⟩ h

theorem rounds_best_lt (fuel : Nat) (pts : List Point) (hr : Graph.inIntRange pts)
    (a0 : ACO) (hg : a0.graph = Graph.new pts) (hn : a0.num_cities = pts.length)
    (hants : 1 ≤ a0.num_ants) (k : Nat) (s : ACO) (h : rounds fuel (k + 1) a0 = some s) :
    s.best_length < ((DBL_MAX : ℚ) : ℝ) := by
  cases hk : rounds fuel k a0 with
  | none => rw [rounds_none_of_le fuel k (k + 1) a0 hk (by omega)] at h; cases h
  | some a1 =>
    rw [rounds_succ_of_some fuel k a0 a1 hk] at h
    obtain ⟨e1, e2, e3⟩ := rounds_frame fuel k a0 a1 hk
    exact round_best_lt fuel pts hr a1 s (e1.trans hg) (e2.trans hn) (by omega) h

/-- The loop of `ACO::run`, entered at round `i` in the state reached after `i`
rounds with `curr_best` holding the value recorded at the last checkpoint, runs
all `I` rounds when no checkpoint meets the early-exit condition. -/
theorem runLoop_all (fuel I : Nat) (a0 : ACO)
    (hkey : ∀ s, rounds fuel 1 a0 = some s → s.best_length ≠ ((DBL_MAX : ℚ) : ℝ))
    (hno : ∀ k, ¬ StopsAt fuel a0 I k)
    (remaining i : Nat) (a : ACO) (prev curr : ℝ) (hI : i + remaining = I)
    (ha : rounds fuel i a0 = some a) (h0 : i = 0 → curr = ((DBL_MAX : ℚ) : ℝ))
    (h1 : 1 ≤ i → ∃ s, rounds fuel (100 * ((i - 1) / 100) + 1) a0 = some s ∧
      curr = s.best_length) :
    runLoop fuel I remaining i a prev curr = rounds fuel I a0 := by
  induction remaining generalizing i a prev curr with
  | zero =>
    have : i = I := by omega
    subst this
    rw [ha]; rfl
  | succ r ih =>
    have hsucc := rounds_succ_of_some fuel i a0 a ha
    unfold runLoop
    cases hc : constructAll fuel a with
    | none =>
      have hnone : rounds fuel (i + 1) a0 = none := by rw [hsucc]; simp [round, hc]
      simp only
      exact (rounds_none_of_le fuel (i + 1) I a0 hnone (by omega)).symm
    | some a1 =>
      simp only
      cases hu : update_pher a1 with
      | none =>
        have hnone : rounds fuel (i + 1) a0 = none := by rw [hsucc]; simp [round, hc, hu]
        simp only
        exact (rounds_none_of_le fuel (i + 1) I a0 hnone (by omega)).symm
      | some a2 =>
        have h2 : rounds fuel (i + 1) a0 = some a2 := by rw [hsucc]; simp [round, hc, hu]
        simp only
        by_cases hr : r = 0
        · subst hr
          have hI' : I = i + 1 := by omega
          have hz : ∀ p c, runLoop fuel I 0 (i + 1) a2 p c = some a2 := fun _ _ => rfl
          rw [hI'] at hz ⊢
          rw [h2]
          split
          · split
            · rfl
            · exact hz _ _
          · exact hz _ _
        · by_cases hm : i % 100 = 0
          · rw [if_pos (Or.inl hm)]
            by_cases heq : curr = a2.best_length
            · exfalso
              by_cases hi0 : i = 0
              · subst hi0
                exact hkey a2 h2 (by rw [← heq]; exact h0 rfl)
              · obtain ⟨s, hs, hcs⟩ := h1 (by omega)
                apply hno i
                refine ⟨by omega, hm, by omega, a2, s, h2, ?_, ?_⟩
                · have e : 100 * ((i - 1) / 100) + 1 = i - 99 := by omega
                  rw [← e]; exact hs
                · rw [← heq, hcs]
            · rw [if_neg heq]
              apply ih (i + 1) a2 _ _ (by omega) h2 (fun h => absurd h (Nat.succ_ne_zero i))
              intro _
              refine ⟨a2, ?_, rfl⟩
              have e : 100 * ((i + 1 - 1) / 100) + 1 = i + 1 := by omega
              rw [e]; exact h2
          · rw [if_neg (by omega : ¬ (i % 100 = 0 ∨ i = I - 1))]
            apply ih (i + 1) a2 _ _ (by omega) h2 (fun h => absurd h (Nat.succ_ne_zero i))
            intro _
            obtain ⟨s, hs, hcs⟩ := h1 (by omega)
            refine ⟨s, ?_, hcs⟩
            have e : 100 * ((i + 1 - 1) / 100) + 1 = 100 * ((i - 1) / 100) + 1 := by omega
            rw [e]; exact hs

/-- The loop of `ACO::run` stops right after round `k0` when `k0` is the first
checkpoint that meets the early-exit condition. -/
theorem runLoop_stop (fuel I : Nat) (a0 : ACO)
    (hkey : ∀ s, rounds fuel 1 a0 = some s → s.best_length ≠ ((DBL_MAX : ℚ) : ℝ))
    (k0 : Nat) (hstop : StopsAt fuel a0 I k0) (hno : ∀ k, k < k0 → ¬ StopsAt fuel a0 I k)
    (remaining i : Nat) (a : ACO) (prev curr : ℝ) (hI : i + remaining = I) (hik : i ≤ k0)
    (ha : rounds fuel i a0 = some a) (h0 : i = 0 → curr = ((DBL_MAX : ℚ) : ℝ))
    (h1 : 1 ≤ i → ∃ s, rounds fuel (100 * ((i - 1) / 100) + 1) a0 = some s ∧
      curr = s.best_length) :
    runLoop fuel I remaining i a prev curr = rounds fuel (k0 + 1) a0 := by
  obtain ⟨hk100, hkm, hkI, s0, s0', hs0, hs0', hbest⟩ := hstop
  induction remaining generalizing i a prev curr with
  | zero => omega
  | succ r ih =>
    have hsucc := rounds_succ_of_some fuel i a0 a ha
    unfold runLoop
    cases hc : constructAll fuel a with
    | none =>
      have hnone : rounds fuel (i + 1) a0 = none := by rw [hsucc]; simp [round, hc]
      simp only
      exact (rounds_none_of_le fuel (i + 1) (k0 + 1) a0 hnone (by omega)).symm
    | some a1 =>
      simp only
      cases hu : update_pher a1 with
      | none =>
        have hnone : rounds fuel (i + 1) a0 = none := by rw [hsucc]; simp [round, hc, hu]
        simp only
        exact (rounds_none_of_le fuel (i + 1) (k0 + 1) a0 hnone (by omega)).symm
      | some a2 =>
        have h2 : rounds fuel (i + 1) a0 = some a2 := by rw [hsucc]; simp [round, hc, hu]
        simp only
        by_cases hm : i % 100 = 0
        · rw [if_pos (Or.inl hm)]
          by_cases heq : curr = a2.best_length
          · rw [if_pos heq]
            by_cases hik0 : i = k0
            · subst hik0; exact h2.symm
            · exfalso
              by_cases hi0 : i = 0
              · subst hi0
                exact hkey a2 h2 (by rw [← heq]; exact h0 rfl)
              · obtain ⟨s, hs, hcs⟩ := h1 (by omega)
                apply hno i (by omega)
                refine ⟨by omega, hm, by omega, a2, s, h2, ?_, ?_⟩
                · have e : 100 * ((i - 1) / 100) + 1 = i - 99 := by omega
                  rw [← e]; exact hs
                · rw [← heq, hcs]
          · rw [if_neg heq]
            have hik0 : i ≠ k0 := by
              intro hik0
              subst hik0
              apply heq
              obtain ⟨s, hs, hcs⟩ := h1 (by omega)
              have e : 100 * ((i - 1) / 100) + 1 = i - 99 := by omega
              rw [e, hs0'] at hs
              rw [h2] at hs0
              cases hs
              cases hs0
              rw [hcs, hbest]
            apply ih (i + 1) a2 _ _ (by omega) (by omega) h2
              (fun h => absurd h (Nat.succ_ne_zero i))
            intro _
            refine ⟨a2, ?_, rfl⟩
            have e : 100 * ((i + 1 - 1) / 100) + 1 = i + 1 := by omega
            rw [e]; exact h2
        · rw [if_neg (by omega : ¬ (i % 100 = 0 ∨ i = I - 1))]
          apply ih (i + 1) a2 _ _ (by omega) (by omega) h2
            (fun h => absurd h (Nat.succ_ne_zero i))
          intro _
          obtain ⟨s, hs, hcs⟩ := h1 (by omega)
          refine ⟨s, ?_, hcs⟩
          have e : 100 * ((i + 1 - 1) / 100) + 1 = 100 * ((i - 1) / 100) + 1 := by omega
          rw [e]; exact hs

/-- Under the conditions of the routing stage every number of rounds returns. -/
theorem rounds_ok (fuel : Nat) (pts : List Point) (a : ACO) (hwf : WF fuel pts a)
    (hants : 0 < a.num_ants)
    (hbest : (IsTour pts.length a.best_tour ∧ a.best_length < ((DBL_MAX : ℚ) : ℝ)) ∨
      ((DBL_MAX : ℚ) : ℝ) ≤ a.best_length) (k : Nat) :
    ∃ s, rounds fuel k a = some s ∧ WF fuel pts s ∧ s.num_ants = a.num_ants ∧
      ((IsTour pts.length s.best_tour ∧ s.best_length < ((DBL_MAX : ℚ) : ℝ)) ∨
        ((DBL_MAX : ℚ) : ℝ) ≤ s.best_length) := by
  induction k with
  | zero => exact ⟨a, rfl, hwf, rfl, hbest⟩
  | succ n ih =>
    obtain ⟨s, hs, hwfs, hn, hb⟩ := ih
    obtain ⟨a1, h1, hwf1, hn1, ht1, hb1⟩ := constructAll_ok fuel pts s hwfs hb
    obtain ⟨m', h2, hm'⟩ := update_pher_ok fuel pts a1 hwf1 ht1
    refine ⟨{ a1 with pher_mat := m' }, ?_, wf_with_pher fuel pts a1 m' hwf1 hm', ?_, ?_⟩
    · rw [rounds_succ_of_some fuel n a s hs]
      unfold round
      rw [h1]
      exact h2
    · exact hn1.trans hn
    · exact Or.inl (hb1 (Or.inl (by rw [hn]; exact hants)))

end ACO

/-- C17: for an object constructed with at least one ant on points whose distance
computation stays in `int` range, `run(I)` is the result of all `I` rounds of
tour construction and pheromone update when no checkpoint `k` (a multiple of 100
with `100 <= k < I - 1`) finds the best-known length equal to the one recorded at
checkpoint `k - 100`; it is the result of the rounds `0 .. k0` when `k0` is the
first checkpoint that does; for `I < 100` it is always the result of all `I`
rounds; and under the conditions of the routing stage every such number of rounds
returns. -/
theorem C17_run_rounds_and_early_exit (fuel : Nat) (pts : List Point) (ants : Nat)
    (alpha beta rho Q : ℚ) (rng : Rng) (a0 : ACO) (I : Nat)
    (hr : Graph.inIntRange pts) (hants : 1 ≤ ants)
    (hnew : ACO.new pts ants alpha beta rho Q rng = some a0) :
    ((∀ k, ¬ ACO.StopsAt fuel a0 I k) → ACO.run fuel a0 I = ACO.rounds fuel I a0) ∧
    (∀ k0, ACO.StopsAt fuel a0 I k0 → (∀ k, k < k0 → ¬ ACO.StopsAt fuel a0 I k) →
      ACO.run fuel a0 I = ACO.rounds fuel (k0 + 1) a0) ∧
    (I < 100 → ACO.run fuel a0 I = ACO.rounds fuel I a0) ∧
    (rho ≤ 1 → 0 ≤ Q → rng.RealsInUnit → rng.Fair fuel pts.length →
      ∀ k, ∃ s, ACO.rounds fuel k a0 = some s) := by
  have hpos : 0 < pts.length := by
    rcases Nat.eq_zero_or_pos pts.length with h | h
    · have hnil : pts = [] := List.length_eq_zero.mp h
      subst hnil
      simp [ACO.new, Graph.nearest_neighbor_tour_length, Graph.size, Graph.new] at hnew
    · exact h
  obtain ⟨a, ha, hg, hn, hna, _, _, _, _, _, hbl, _⟩ :=
    ACO.new_fields pts ants alpha beta rho Q rng hr hpos
  rw [hnew] at ha
  cases ha
  have hkey : ∀ s, ACO.rounds fuel 1 a0 = some s → s.best_length ≠ ((DBL_MAX : ℚ) : ℝ) :=
    fun s hs => ne_of_lt (ACO.rounds_best_lt fuel pts hr a0 hg hn (by omega) 0 s hs)
  have hA : (∀ k, ¬ ACO.StopsAt fuel a0 I k) → ACO.run fuel a0 I = ACO.rounds fuel I a0 :=
    fun hno => ACO.runLoop_all fuel I a0 hkey hno I 0 a0 _ _ (by omega) rfl (fun _ => rfl)
      (fun h => absurd h (by omega))
  refine ⟨hA, fun k0 hstop hno => ?_, fun hI => hA (fun k hk => ?_), ?_⟩
  · exact ACO.runLoop_stop fuel I a0 hkey k0 hstop hno I 0 a0 _ _ (by omega) (by omega) rfl
      (fun _ => rfl) (fun h => absurd h (by omega))
  · obtain ⟨h1, _, h3, _⟩ := hk
    omega
  · intro hrho hQ hreals hfair k
    obtain ⟨a, ha, hwf, hna', hb, _⟩ := ACO.new_ok fuel pts ants alpha beta rho Q rng hr hpos
      hrho hQ hreals hfair
    rw [hnew] at ha
    cases ha
    obtain ⟨s, hs, _⟩ := ACO.rounds_ok fuel pts a0 hwf (by omega) (Or.inr (le_of_eq hb.symm)) k
    exact ⟨s, hs⟩

namespace Graph

theorem getDistance_symm (pts : List Point) (i j : Nat) :
    (Graph.new pts).getDistance i j = (Graph.new pts).getDistance j i := by
  by_cases h : i < pts.length ∧ j < pts.length
  · rw [getDistance_new _ _ _ h.1 h.2, getDistance_new _ _ _ h.2 h.1, distArg_comm]
  · have h1 : pts.length ≤ i ∨ pts.length ≤ j := by omega
    rw [getDistance_new_of_le _ _ _ h1, getDistance_new_of_le _ _ _ h1.symm]

end Graph

namespace ACO

theorem bestClosed_construct (fuel : Nat) (a : ACO) (ant : Nat) (a' : ACO)
    (hJ : BestClosed a ∨ a.best_length = ((DBL_MAX : ℚ) : ℝ))
    (h : construct_tour fuel a ant = some a') :
    BestClosed a' ∨ a'.best_length = ((DBL_MAX : ℚ) : ℝ) := by
  obtain ⟨g', path, rfl⟩ := construct_tour_eq fuel a ant a' h
  by_cases hlt : closedLength a.graph path < a.best_length
  · left
    refine ⟨path, ?_, ?_⟩
    · simp only [if_pos hlt]
    · simp only [if_pos hlt]
  · rcases hJ with ⟨p, hp1, hp2⟩ | hJ
    · left
      refine ⟨p, ?_, ?_⟩
      · simp only [if_neg hlt]; exact hp1
      · simp only [if_neg hlt]; exact hp2
    · right
      simp only [if_neg hlt]; exact hJ

theorem bestClosed_update (a a' : ACO)
    (hJ : BestClosed a ∨ a.best_length = ((DBL_MAX : ℚ) : ℝ))
    (h : update_pher a = some a') :
    BestClosed a' ∨ a'.best_length = ((DBL_MAX : ℚ) : ℝ) := by
  obtain ⟨m, rfl⟩ := update_pher_eq a a' h
  exact hJ

theorem closedLength_pair (g : Graph) (x y : Nat) :
    closedLength g [x, y] = g.getDistance x y + g.getDistance y x := by
  simp [closedLength, List.range_succ]

theorem final_route_of_tour (a : ACO) (path : List Nat) (h : a.best_tour = path.map Int.ofNat)
    (hn : a.num_cities = path.length) :
    a.final_route = a.best_tour.rotate (a.best_tour.indexOf 0) ++ [0] :=
  final_route_eq a (by rw [h, hn]; simp)

theorem perm_range_two (path : List Nat) (h : path.Perm (List.range 2)) :
    path = [0, 1] ∨ path = [1, 0] := by
  have hmem := List.mem_permutations.mpr h
  have e : (List.range 2).permutations = [[0, 1], [1, 0]] := by decide!
  rw [e] at hmem
  simpa using hmem

end ACO




namespace Hybrid

end Hybrid

namespace ACO

/-- After at least one round under the conditions of the routing stage the
best-known length is the closed length of a tour through every city. -/
theorem rounds_best_closed (fuel : Nat) (pts : List Point) (a : ACO) (hwf : WF fuel pts a)
    (hants : 0 < a.num_ants) (hbest : a.best_length = ((DBL_MAX : ℚ) : ℝ)) (k : Nat) :
    ∃ s path, rounds fuel (k + 1) a = some s ∧ path.Perm (List.range pts.length) ∧
      s.best_length = closedLength (Graph.new pts) path := by
  obtain ⟨s, hs, hwfs, _, hb⟩ := rounds_ok fuel pts a hwf hants
    (Or.inr (le_of_eq hbest.symm)) (k + 1)
  have hlt := rounds_best_lt fuel pts hwf.inRange a hwf.graph_eq hwf.cities hants k s hs
  have hJ : BestClosed s ∨ s.best_length = ((DBL_MAX : ℚ) : ℝ) :=
    rounds_inv (fun b => BestClosed b ∨ b.best_length = ((DBL_MAX : ℚ) : ℝ)) fuel
      (fun b ant b' hb hc => bestClosed_construct fuel b ant b' hb hc)
      (fun b b' hb hu => bestClosed_update b b' hb hu) _ a s (Or.inr hbest) hs
  have htour : IsTour pts.length s.best_tour := by
    rcases hb with h | h
    · exact h.1
    · exact absurd hlt (not_lt.mpr h)
  rcases hJ with ⟨path, hp1, hp2⟩ | hJ
  · refine ⟨s, path, hs, ?_, by rw [hp2, hwfs.graph_eq]⟩
    unfold IsTour at htour
    rw [hp1] at htour
    have h2 := htour.map Int.toNat
    have e : ∀ l : List Nat, (l.map Int.ofNat).map Int.toNat = l := by
      intro l
      induction l with
      | nil => rfl
      | cons x xs ih => simp only [List.map_cons, ih]; rfl
    rw [e, e] at h2
    exact h2
  · rw [hJ] at hlt
    exact absurd hlt (lt_irrefl _)

/-- On two points the best-known length is the same after every round, so a run
of more than 101 rounds meets the early-exit condition at checkpoint 100. -/
theorem two_point_stops (fuel : Nat) (p0 p1 : Point) (a0 : ACO)
    (hwf : WF fuel [p0, p1] a0) (hants : 0 < a0.num_ants)
    (hbest : a0.best_length = ((DBL_MAX : ℚ) : ℝ)) (I : Nat) (hI : 101 < I) :
    StopsAt fuel a0 I 100 := by
  obtain ⟨s, path, hs, hperm, hbl⟩ := rounds_best_closed fuel [p0, p1] a0 hwf hants hbest 100
  obtain ⟨s', path', hs', hperm', hbl'⟩ := rounds_best_closed fuel [p0, p1] a0 hwf hants hbest 0
  refine ⟨by decide, by decide, by omega, s, s', hs, hs', ?_⟩
  have key : ∀ q : List Nat, q.Perm (List.range 2) →
      closedLength (Graph.new [p0, p1]) q = 2 * (Graph.new [p0, p1]).getDistance 0 1 := by
    intro q hq
    rcases perm_range_two q hq with rfl | rfl
    · rw [closedLength_pair, Graph.getDistance_symm _ 1 0]; ring
    · rw [closedLength_pair, Graph.getDistance_symm _ 1 0]; ring
  rw [hbl, hbl', key path hperm, key path' hperm']

end ACO

/-- The conditions of C17 hold for one ant on the points (1,2), (2,2): a run of
three rounds is the result of three rounds, and a run of 300 rounds, whose best
length at checkpoint 100 is the one recorded at checkpoint 0, is the result of
101 rounds. -/
theorem C17_witness :
    ∃ a0, ACO.new [(1, 2), (2, 2)] 1 1 1 (1 / 2) 100 Rng.counting = some a0 ∧
      ACO.run 2 a0 3 = ACO.rounds 2 3 a0 ∧ (∃ s, ACO.rounds 2 3 a0 = some s) ∧
      ACO.StopsAt 2 a0 300 100 ∧ ACO.run 2 a0 300 = ACO.rounds 2 101 a0 := by
  obtain ⟨a0, h0, hwf, hna, hb, _⟩ := ACO.new_ok 2 [(1, 2), (2, 2)] 1 1 1 (1 / 2) 100
    Rng.counting pair_inIntRange (by decide) (by norm_num) (by norm_num)
    Rng.counting_realsInUnit (Rng.counting_fair 2 2 (by decide) (by decide))
  have h := C17_run_rounds_and_early_exit 2 [(1, 2), (2, 2)] 1 1 1 (1 / 2) 100 Rng.counting
    a0 3 pair_inIntRange (by decide) h0
  have h' := C17_run_rounds_and_early_exit 2 [(1, 2), (2, 2)] 1 1 1 (1 / 2) 100 Rng.counting
    a0 300 pair_inIntRange (by decide) h0
  have hstop := ACO.two_point_stops 2 (1, 2) (2, 2) a0 hwf (by omega) hb 300 (by decide)
  refine ⟨a0, h0, h.2.2.1 (by decide), h.2.2.2 (by norm_num) (by norm_num)
    Rng.counting_realsInUnit (Rng.counting_fair 2 2 (by decide) (by decide)) 3, hstop, ?_⟩
  exact h'.2.1 100 hstop (fun k hk hk' => by
    obtain ⟨h1, _⟩ := hk'
    omega)

namespace ACO

/-- A city returned by the rejection loop of `select_next_city` is an unvisited
city number. -/
theorem rejectLoop_spec (n : Nat) (visited : List Bool) (hn : 0 < n) (fuel : Nat) (g : Rng)
    (j : Nat) (g' : Rng) (h : rejectLoop n visited fuel g = some (j, g')) :
    j < n ∧ visited.getD j false = false := by
  induction fuel generalizing g with
  | zero => simp [rejectLoop] at h
  | succ k ih =>
    unfold rejectLoop at h
    split at h
    · exact ih _ h
    · rename_i hv
      simp only [Option.some.injEq] at h
      have hj : (g.nextInt n).1 = j := congrArg Prod.fst h
      rw [← hj]
      exact ⟨Nat.mod_lt _ hn, by simpa using hv⟩

/-- Whatever the pheromone values, `select_next_city` returns a city number, and
that city is city 0 or an unvisited city. -/
theorem select_next_city_spec (fuel : Nat) (a : ACO) (ant cur : Nat) (visited : List Bool)
    (hn : 0 < a.num_cities) (next : Nat) (g : Rng)
    (h : select_next_city fuel a ant cur visited = some (next, g)) :
    next < a.num_cities ∧ (next = 0 ∨ visited.getD next false = false) := by
  unfold select_next_city at h
  split at h
  · obtain ⟨h1, h2⟩ := rejectLoop_spec _ _ hn _ _ _ _ h
    exact ⟨h1, Or.inr h2⟩
  · split at h
    · rename_i j hscan
      simp only [Option.some.injEq, Prod.mk.injEq] at h
      obtain ⟨hj, hel⟩ := cumulativeScan_some _ _ _ _ _ _ _ hscan
      simp only [eligible, Bool.and_eq_true, Bool.not_eq_true'] at hel
      rw [← h.1]
      exact ⟨List.mem_range.mp hj, Or.inr hel.1⟩
    · simp only [Option.some.injEq, Prod.mk.injEq] at h
      rw [← h.1]
      exact ⟨hn, Or.inl rfl⟩

/-- The tour under construction holds city numbers only, and it contains city 0
or has no city twice. -/
theorem tourLoop_zero (fuel ant steps : Nat) (a : ACO) (cur : Nat) (visited : List Bool)
    (path : List Nat) (a1 : ACO) (path' : List Nat) (hn : 0 < a.num_cities)
    (hvl : visited.length = a.num_cities)
    (hpv : ∀ x ∈ path, x < a.num_cities ∧ visited.getD x false = true)
    (hz : 0 ∈ path ∨ path.Nodup)
    (h : tourLoop fuel ant steps a cur visited path = some (a1, path')) :
    (∀ x ∈ path', x < a.num_cities) ∧ (0 ∈ path' ∨ path'.Nodup) := by
  induction steps generalizing a cur visited path with
  | zero =>
    simp only [tourLoop, Option.some.injEq, Prod.mk.injEq] at h
    rw [← h.2]
    exact ⟨fun x hx => (hpv x hx).1, hz⟩
  | succ k ih =>
    unfold tourLoop at h
    split at h
    · cases h
    · rename_i next g hsel
      obtain ⟨hlt, hcase⟩ := select_next_city_spec fuel a ant cur visited hn next g hsel
      refine ih { a with rng := g } next (visited.set next true) (path ++ [next]) hn ?_ ?_ ?_ h
      · rw [List.length_set]; exact hvl
      · intro x hx
        rcases List.mem_append.mp hx with hx | hx
        · refine ⟨(hpv x hx).1, ?_⟩
          by_cases hxn : next = x
          · rw [hxn, getD_set_eq _ _ _ _ (by rw [hvl]; exact (hpv x hx).1)]
          · rw [getD_set_ne _ _ _ _ _ hxn]; exact (hpv x hx).2
        · have hxe : x = next := by simpa using hx
          rw [hxe]
          exact ⟨hlt, getD_set_eq _ _ _ _ (by rw [hvl]; exact hlt)⟩
      · rcases hz with hz | hz
        · exact Or.inl (List.mem_append_left _ hz)
        · rcases hcase with h0 | hv
          · left
            rw [h0]
            exact List.mem_append_right _ (List.mem_singleton_self 0)
          · right
            refine List.Nodup.append hz (List.nodup_singleton next) ?_
            intro x hx1 hx2
            have hxe : x = next := by simpa using hx2
            rw [hxe] at hx1
            have := (hpv next hx1).2
            rw [hv] at this
            cases this

/-- The effect of one call of `construct_tour`: the tour built has `num_cities`
entries and contains city 0, whatever the pheromone values. -/
theorem construct_tour_route (fuel : Nat) (a : ACO) (ant : Nat) (a' : ACO)
    (h : construct_tour fuel a ant = some a') :
    ∃ g' path, path.length = a.num_cities ∧ 0 ∈ path ∧
      a' = { a with
        rng := g'
        tours := a.tours.set ant (path.map Int.ofNat)
        tour_length := a.tour_length.set ant (closedLength a.graph path)
        lengths_log := a.lengths_log ++ [closedLength a.graph path]
        best_length :=
          if closedLength a.graph path < a.best_length then closedLength a.graph path
          else a.best_length
        best_tour :=
          if closedLength a.graph path < a.best_length then path.map Int.ofNat
          else a.best_tour } := by
  unfold construct_tour at h
  split at h
  · cases h
  · rename_i hn
    have hn' : 0 < a.num_cities := Nat.pos_of_ne_zero hn
    split at h
    · cases h
    · rename_i a1 path hloop
      have hlen := tourLoop_length _ _ _ _ _ _ _ _ _ hloop
      have hs : (a.rng.nextInt a.num_cities).1 < a.num_cities := Nat.mod_lt _ hn'
      obtain ⟨hall, hz⟩ := tourLoop_zero _ _ _ { a with rng := (a.rng.nextInt a.num_cities).2 }
        _ _ _ _ _ hn' (by rw [List.length_set, List.length_replicate])
        (fun x hx => by
          have hxe : x = (a.rng.nextInt a.num_cities).1 := by simpa using hx
          rw [hxe]
          exact ⟨hs, getD_set_eq _ _ _ _ (by rw [List.length_replicate]; exact hs)⟩)
        (Or.inr (List.nodup_singleton _)) hloop
      obtain ⟨g', rfl⟩ := tourLoop_eq _ _ _ _ _ _ _ _ _ hloop
      simp only [Option.some.injEq] at h
      have hlen' : path.length = a.num_cities := by
        rw [hlen]
        simp only [List.length_cons, List.length_nil]
        omega
      refine ⟨g', path, hlen', ?_, h.symm⟩
      rcases hz with hz | hz
      · exact hz
      · by_contra h0
        have hnd : (0 :: path).Nodup := List.nodup_cons.mpr ⟨h0, hz⟩
        have := Hybrid.length_le_of_nodup_lt a.num_cities (0 :: path) hnd (fun k hk => by
          rcases List.mem_cons.mp hk with hk | hk
          · rw [hk]; exact hn'
          · exact hall k hk)
        simp only [List.length_cons] at this
        omega

theorem bestRoute_construct (fuel : Nat) (a : ACO) (ant : Nat) (a' : ACO)
    (hJ : BestRoute a ∨ a.best_length = ((DBL_MAX : ℚ) : ℝ))
    (h : construct_tour fuel a ant = some a') :
    BestRoute a' ∨ a'.best_length = ((DBL_MAX : ℚ) : ℝ) := by
  obtain ⟨g', path, hlen, h0, rfl⟩ := construct_tour_route fuel a ant a' h
  by_cases hlt : closedLength a.graph path < a.best_length
  · left
    refine ⟨path, ?_, ?_, hlen, h0⟩
    · simp only [if_pos hlt]
    · simp only [if_pos hlt]
  · rcases hJ with ⟨p, hp1, hp2, hp3, hp4⟩ | hJ
    · left
      refine ⟨p, ?_, ?_, hp3, hp4⟩
      · simp only [if_neg hlt]; exact hp1
      · simp only [if_neg hlt]; exact hp2
    · right
      simp only [if_neg hlt]; exact hJ

theorem bestRoute_update (a a' : ACO)
    (hJ : BestRoute a ∨ a.best_length = ((DBL_MAX : ℚ) : ℝ))
    (h : update_pher a = some a') :
    BestRoute a' ∨ a'.best_length = ((DBL_MAX : ℚ) : ℝ) := by
  obtain ⟨m, rfl⟩ := update_pher_eq a a' h
  exact hJ

/-- After a run with at least one ant and one round the best-known length is below
`numeric_limits<double>::max()`, whatever the hyperparameters. -/
theorem run_best_lt (fuel : Nat) (pts : List Point) (hr : Graph.inIntRange pts)
    (a a' : ACO) (iterations : Nat) (hg : a.graph = Graph.new pts)
    (hn : a.num_cities = pts.length) (hants : 1 ≤ a.num_ants) (hit : 1 ≤ iterations)
    (h : run fuel a iterations = some a') : a'.best_length < ((DBL_MAX : ℚ) : ℝ) := by
  obtain ⟨k, hk⟩ : ∃ k, iterations = k + 1 := ⟨iterations - 1, by omega⟩
  unfold run at h
  rw [hk] at h
  unfold runLoop at h
  split at h
  · cases h
  · rename_i a1 h1
    split at h
    · cases h
    · rename_i a2 h2
      have hround : round fuel a = some a2 := by
        unfold round
        rw [h1]
        exact h2
      have hlt2 := round_best_lt fuel pts hr a a2 hg hn hants hround
      have hinv : ∀ i prev curr, runLoop fuel (k + 1) k i a2 prev curr = some a' →
          a'.best_length < ((DBL_MAX : ℚ) : ℝ) := fun i prev curr hloop =>
        runLoop_inv (fun b => b.best_length < ((DBL_MAX : ℚ) : ℝ)) fuel
          (fun b ant b' hb hc => lt_of_le_of_lt (construct_tour_best_le fuel b ant b' hc) hb)
          (fun b b' hb hu => by
            show b'.best_length < ((DBL_MAX : ℚ) : ℝ)
            rw [(update_pher_frame b b' hu).2.2.2.1]; exact hb)
          _ _ _ a2 _ _ a' hlt2 hloop
      split at h
      · split at h
        · cases h; exact hlt2
        · exact hinv _ _ _ h
      · exact hinv _ _ _ h

theorem foldl_pairs (g : Graph) (l : List Nat) (acc : ℝ) :
    (List.range (l.length - 1)).foldl
        (fun total i => total + g.getDistance (l.getD i 0) (l.getD (i + 1) 0)) acc
      = acc + pairSum g l := by
  induction l generalizing acc with
  | nil => simp [pairSum]
  | cons x t ih =>
    cases t with
    | nil => simp [pairSum]
    | cons y t' =>
      have e : (x :: y :: t').length - 1 = ((y :: t').length - 1) + 1 := by
        simp only [List.length_cons]; omega
      rw [e, List.range_succ_eq_map, List.foldl_cons, List.foldl_map]
      have hstep : ∀ (b : ℝ) (i : Nat),
          b + g.getDistance ((x :: y :: t').getD (i + 1) 0) ((x :: y :: t').getD (i + 1 + 1) 0)
            = b + g.getDistance ((y :: t').getD i 0) ((y :: t').getD (i + 1) 0) := by
        intro b i
        rfl
      simp only [Nat.succ_eq_add_one, hstep]
      rw [ih]
      simp only [pairSum, List.getD_cons_zero, List.getD_cons_succ, Nat.zero_add]
      ring

theorem pairSum_cons (g : Graph) (x : Nat) (m : List Nat) (hm : m ≠ []) :
    pairSum g (x :: m) = g.getDistance x (m.getD 0 0) + pairSum g m := by
  cases m with
  | nil => exact absurd rfl hm
  | cons y t => rfl

theorem pairSum_append_singleton (g : Graph) (l : List Nat) (hl : l ≠ []) (z : Nat) :
    pairSum g (l ++ [z]) = pairSum g l + g.getDistance (l.getD (l.length - 1) 0) z := by
  induction l with
  | nil => exact absurd rfl hl
  | cons x t ih =>
    cases t with
    | nil => simp [pairSum]
    | cons y t' =>
      have h1 : (x :: y :: t') ++ [z] = x :: ((y :: t') ++ [z]) := rfl
      rw [h1, pairSum_cons g x _ (by simp), ih (by simp)]
      simp only [pairSum, List.cons_append, List.getD_cons_zero, List.length_cons,
        Nat.add_sub_cancel, List.getD_cons_succ]
      ring

/-- The value `total_len` of `construct_tour` is the sum of the distances along
the tour closed by its first city. -/
theorem closedLength_eq_pairSum (g : Graph) (l : List Nat) (hl : l ≠ []) :
    closedLength g l = pairSum g (l ++ [l.getD 0 0]) := by
  unfold closedLength
  rw [foldl_pairs, pairSum_append_singleton g l hl, zero_add]

theorem closedLength_rotate_one (g : Graph) (l : List Nat) :
    closedLength g (l.rotate 1) = closedLength g l := by
  cases l with
  | nil => rfl
  | cons x xs =>
    have hr : (x :: xs).rotate 1 = xs ++ [x] := by
      rw [List.rotate_cons_succ, List.rotate_zero]
    rw [hr, closedLength_eq_pairSum g _ (by simp), closedLength_eq_pairSum g _ (by simp),
      pairSum_append_singleton g _ (by simp)]
    have h1 : (x :: xs) ++ [(x :: xs).getD 0 0] = x :: (xs ++ [x]) := rfl
    rw [h1, pairSum_cons g x _ (by simp)]
    have h2 : (xs ++ [x]).getD ((xs ++ [x]).length - 1) 0 = x := by
      simp [List.getD_eq_getElem?_getD]
    rw [h2]
    ring

/-- Rotating a tour keeps its closed length: the same cyclic edges are summed. -/
theorem closedLength_rotate (g : Graph) (l : List Nat) (k : Nat) :
    closedLength g (l.rotate k) = closedLength g l := by
  induction k with
  | zero => rw [List.rotate_zero]
  | succ n ih => rw [← List.rotate_rotate, closedLength_rotate_one, ih]

theorem routeLength_map (g : Graph) (m : List Nat) :
    routeLength g (m.map Int.ofNat) = pairSum g m := by
  unfold routeLength
  have e : ∀ i, ((m.map Int.ofNat).getD i 0).toNat = m.getD i 0 := by
    intro i
    rw [show (0 : Int) = Int.ofNat 0 from rfl, List.getD_map]
    rfl
  simp only [e, List.length_map]
  rw [foldl_pairs, zero_add]

/-- When the best-known tour has `num_cities` entries, contains city 0 and has
the best-known length as its closed length, the route returned by `final_route`
has that length. -/
theorem routeLength_final_route (a : ACO) (h : BestRoute a) :
    routeLength a.graph a.final_route = a.best_length := by
  obtain ⟨path, hp1, hp2, hp3, hp4⟩ := h
  have hmem : (0 : Int) ∈ a.best_tour := by
    rw [hp1]
    exact List.mem_map.mpr ⟨0, hp4, rfl⟩
  have hhead := Hybrid.rotate_indexOf_head a.best_tour hmem
  rw [final_route_of_tour a path hp1 hp3.symm]
  rw [hp1] at hhead ⊢
  rw [← List.map_rotate] at hhead ⊢
  have hne : path.rotate ((path.map Int.ofNat).indexOf 0) ≠ [] := by
    intro hnil
    rw [hnil] at hhead
    cases hhead
  have h0 : (path.rotate ((path.map Int.ofNat).indexOf 0)).getD 0 0 = 0 := by
    cases hrot : path.rotate ((path.map Int.ofNat).indexOf 0) with
    | nil => exact absurd hrot hne
    | cons y t =>
      rw [hrot] at hhead
      simp only [List.map_cons, List.head?_cons, Option.some.injEq] at hhead
      simp only [List.getD_cons_zero]
      exact Int.ofNat.inj hhead
  have hm : (path.rotate ((path.map Int.ofNat).indexOf 0)).map Int.ofNat ++ [0]
      = ((path.rotate ((path.map Int.ofNat).indexOf 0)) ++ [0]).map Int.ofNat := by
    rw [List.map_append]
    rfl
  rw [hm, routeLength_map]
  have hc := closedLength_eq_pairSum a.graph _ hne
  rw [h0] at hc
  rw [← hc, closedLength_rotate, hp2]

end ACO

/-- C25: after an `ACO::run` with at least one ant and one iteration on a fresh
object, whatever the hyperparameters and the random draws, the sum of the graph
distances between consecutive entries of `final_route()` equals
`best_distance()`; the route has `n + 1` entries, the best-known tour has `n`
entries among which city 0, and the best-known length is its closed length.
With `rho <= 1`, `Q >= 0`, canonical real draws in `[0,1)` and integer draws
that reach every city within `fuel` draws the run returns. -/
theorem C25_route_length_is_best_distance (fuel : Nat) (pts : List Point) (ants iters : Nat)
    (alpha beta rho Q : ℚ) (rng : Rng) (a0 : ACO)
    (hr : Graph.inIntRange pts) (hants : 1 ≤ ants) (hiters : 1 ≤ iters)
    (h0 : ACO.new pts ants alpha beta rho Q rng = some a0) :
    (∀ a, ACO.run fuel a0 iters = some a →
      ACO.routeLength a.graph a.final_route = a.best_distance ∧
        a.final_route.length = pts.length + 1 ∧ ACO.BestRoute a ∧
        a.graph = Graph.new pts) ∧
      (0 < pts.length → rho ≤ 1 → 0 ≤ Q → rng.RealsInUnit → rng.Fair fuel pts.length →
        ∃ a, ACO.run fuel a0 iters = some a) := by
  have hf : a0.graph = Graph.new pts ∧ a0.num_cities = pts.length ∧ a0.num_ants = ants ∧
      a0.best_length = ((DBL_MAX : ℚ) : ℝ) := by
    unfold ACO.new at h0
    split at h0
    · cases h0
    · simp only [Option.some.injEq] at h0
      rw [← h0]
      exact ⟨rfl, rfl, rfl, rfl⟩
  obtain ⟨hg, hn, hna, hb⟩ := hf
  constructor
  · intro a hrun
    have hlt := ACO.run_best_lt fuel pts hr a0 a iters hg hn (by omega) hiters hrun
    have hJ : ACO.BestRoute a ∨ a.best_length = ((DBL_MAX : ℚ) : ℝ) :=
      ACO.runLoop_inv (fun b => ACO.BestRoute b ∨ b.best_length = ((DBL_MAX : ℚ) : ℝ)) fuel
        (fun b ant b' hb hc => ACO.bestRoute_construct fuel b ant b' hb hc)
        (fun b b' hb hu => ACO.bestRoute_update b b' hb hu) _ _ _ a0 _ _ a (Or.inr hb) hrun
    have hfr : a.graph = a0.graph ∧ a.num_cities = a0.num_cities :=
      ACO.runLoop_inv (fun b => b.graph = a0.graph ∧ b.num_cities = a0.num_cities) fuel
        (fun b ant b' hb hc => by
          obtain ⟨e1, e2, _⟩ := ACO.construct_tour_frame fuel b ant b' hc
          exact ⟨e1.trans hb.1, e2.trans hb.2⟩)
        (fun b b' hb hu => by
          obtain ⟨e1, e2, _⟩ := ACO.update_pher_frame b b' hu
          exact ⟨e1.trans hb.1, e2.trans hb.2⟩) _ _ _ a0 _ _ a ⟨rfl, rfl⟩ hrun
    rcases hJ with hJ | hJ
    · refine ⟨ACO.routeLength_final_route a hJ, ?_, hJ, hfr.1.trans hg⟩
      unfold ACO.final_route
      rw [List.length_append, List.length_map, List.length_range, hfr.2, hn]
      rfl
    · rw [hJ] at hlt
      exact absurd hlt (lt_irrefl _)
  · intro hpos hrho hQ hreals hfair
    obtain ⟨a, ha, hwf, hna', hb', _⟩ := ACO.new_ok fuel pts ants alpha beta rho Q rng hr hpos
      hrho hQ hreals hfair
    rw [h0] at ha
    simp only [Option.some.injEq] at ha
    subst ha
    obtain ⟨a', hrun, _⟩ := ACO.run_ok fuel pts a0 iters hwf (by omega) (by omega)
      (Or.inr (le_of_eq hb'.symm))
    exact ⟨a', hrun⟩

/-- The conditions of C25 hold for two ants and three rounds on the points
(0,0), (3,0), (0,4): the run returns and the returned route, of four entries,
has the reported length. -/
theorem C25_witness :
    ∃ a0 a, ACO.new [(0, 0), (3, 0), (0, 4)] 2 1 1 (1 / 2) 100 Rng.counting = some a0 ∧
      ACO.run 3 a0 3 = some a ∧
      ACO.routeLength a.graph a.final_route = a.best_distance ∧
      a.final_route.length = 4 := by
  obtain ⟨a0, h0, _⟩ := ACO.new_ok 3 [(0, 0), (3, 0), (0, 4)] 2 1 1 (1 / 2) 100 Rng.counting
    sample_inIntRange (by decide) (by norm_num) (by norm_num) Rng.counting_realsInUnit
    (Rng.counting_fair 3 3 (by decide) (by decide))
  have h := C25_route_length_is_best_distance 3 [(0, 0), (3, 0), (0, 4)] 2 3 1 1 (1 / 2) 100
    Rng.counting a0 sample_inIntRange (by decide) (by decide) h0
  obtain ⟨a, hrun⟩ := h.2 (by decide) (by norm_num) (by norm_num) Rng.counting_realsInUnit
    (Rng.counting_fair 3 3 (by decide) (by decide))
  obtain ⟨h1, h2, _⟩ := h.1 a hrun
  exact ⟨a0, a, h0, hrun, h1, h2⟩

/-- A loop whose every round returns from a state with property `P`, in a state
with property `P`, returns. -/
theorem foldlM_some {σ ι : Type} (P : σ → Prop) (f : σ → ι → Option σ)
    (hf : ∀ s i, P s → ∃ s', f s i = some s' ∧ P s') (l : List ι) (s : σ) (hs : P s) :
    ∃ s', l.foldlM f s = some s' ∧ P s' := by
  induction l generalizing s with
  | nil => exact ⟨s, rfl, hs⟩
  | cons x xs ih =>
    obtain ⟨s1, h1, hP1⟩ := hf s x hs
    obtain ⟨s2, h2, hP2⟩ := ih s1 hP1
    refine ⟨s2, ?_, hP2⟩
    simp only [List.foldlM_cons, Option.bind_eq_bind, h1, Option.some_bind]
    exact h2

theorem length_resize {α : Type} (l : List α) (n : Nat) (v : α) : (resize l n v).length = n := by
  unfold resize
  rw [List.length_append, List.length_take, List.length_replicate]
  omega

/-- A value that occurs at least twice in a list occurs at an index other than `i`. -/
theorem exists_peer (l : List Nat) (i g : Nat) (h : 2 ≤ l.count g) :
    ∃ k, k < l.length ∧ k ≠ i ∧ l.getD k 0 = g := by
  induction l generalizing i with
  | nil => simp at h
  | cons x t ih =>
    rw [List.count_cons] at h
    cases i with
    | zero =>
      have hpos : 0 < t.count g := by
        split at h <;> omega
      obtain ⟨k, hk, hkg⟩ := List.getElem_of_mem (List.count_pos_iff.mp hpos)
      refine ⟨k + 1, by simp only [List.length_cons]; omega, by omega, ?_⟩
      rw [List.getD_cons_succ, List.getD_eq_getElem _ _ hk]
      exact hkg
    | succ i' =>
      by_cases hx : x = g
      · exact ⟨0, by simp, by omega, by rw [List.getD_cons_zero]; exact hx⟩
      · have h2 : 2 ≤ t.count g := by
          rw [if_neg (by simpa using hx)] at h
          omega
        obtain ⟨k, hk, hki, hkg⟩ := ih i' h2
        exact ⟨k + 1, by simp only [List.length_cons]; omega, by omega,
          by rw [List.getD_cons_succ]; exact hkg⟩

namespace SMO

theorem SameGroups.refl_groups (s : SMO) : SameGroups s s :=
  ⟨rfl, rfl, rfl, rfl, rfl, rfl, fun _ _ h => h⟩

theorem SameGroups.trans_groups {s t u : SMO} (h1 : SameGroups s t) (h2 : SameGroups t u) :
    SameGroups s u :=
  ⟨h2.1.trans h1.1, h2.2.1.trans h1.2.1, h2.2.2.1.trans h1.2.2.1,
    h2.2.2.2.1.trans h1.2.2.2.1, h2.2.2.2.2.1.trans h1.2.2.2.2.1,
    h2.2.2.2.2.2.1.trans h1.2.2.2.2.2.1,
    fun fuel n h => h2.2.2.2.2.2.2 fuel n (h1.2.2.2.2.2.2 fuel n h)⟩

theorem sameGroups_foldl {ι : Type} (f : SMO → ι → SMO) (hf : ∀ t i, SameGroups t (f t i))
    (l : List ι) (s : SMO) : SameGroups s (l.foldl f s) :=
  foldl_inv (fun t => SameGroups s t) f (fun t i ht => ht.trans_groups (hf t i)) l s
    (SameGroups.refl_groups s)

theorem sameGroups_foldlM {ι : Type} (f : SMO → ι → Option SMO)
    (hf : ∀ t i t', f t i = some t' → SameGroups t t') (l : List ι) (s s' : SMO)
    (h : l.foldlM f s = some s') : SameGroups s s' :=
  foldlM_inv (fun t => SameGroups s t) f (fun t i t' ht h' => ht.trans_groups (hf t i t' h')) l s s'
    (SameGroups.refl_groups s) h

/-- A well-formed group structure stays well formed when the group members do
not change. -/
theorem GroupsWF.of_same {s t : SMO} (h : GroupsWF s) (e : SameGroups s t) : GroupsWF t := by
  obtain ⟨e1, e2, e3, e4, e5, e6, _⟩ := e
  refine ⟨?_, ?_, ?_, ?_, ?_, ?_, ?_, ?_, ?_⟩
  · rw [e1]; exact h.groups_pos
  · rw [e1, e2]; exact h.groups_le
  · rw [e1, e3]; exact h.leaders_len
  · rw [e1, e4]; exact h.fitness_len
  · rw [e1, e5]; exact h.count_len
  · rw [e2, e6]; exact h.ids_len
  · rw [e1, e2, e6]; exact h.ids_lt
  · rw [e2, e6]; exact h.ids_mono
  · rw [e1, e2, e6]; exact h.members

theorem drawCentroids_fair (xb yb : ℚ × ℚ) (k : Nat) (g : Rng) (fuel n : Nat)
    (h : g.Fair fuel n) : (drawCentroids xb yb k g).2.Fair fuel n := by
  induction k generalizing g with
  | zero => exact h
  | succ m ih => exact ih _ h

theorem initMonkey_sameGroups (s : SMO) (i : Nat) : SameGroups s (initMonkey s i) := by
  unfold initMonkey
  simp only
  split <;>
    exact ⟨rfl, rfl, rfl, rfl, rfl, rfl, fun fuel n h => drawCentroids_fair _ _ _ _ fuel n h⟩

theorem accept_sameGroups (s : SMO) (i : Nat) (np : List Point) (g : Rng)
    (hg : ∀ fuel n, s.m_rng.Fair fuel n → g.Fair fuel n) : SameGroups s (accept s i np g) := by
  unfold accept
  split <;> exact ⟨rfl, rfl, rfl, rfl, rfl, rfl, hg⟩

theorem pickPeer_fair (s : SMO) (i group fuel : Nat) (g : Rng) (k : Nat) (g' : Rng)
    (h : pickPeer s i group fuel g = some (k, g')) (F n : Nat) (hf : g.Fair F n) :
    g'.Fair F n := by
  induction fuel generalizing g with
  | zero => simp [pickPeer] at h
  | succ m ih =>
    unfold pickPeer at h
    split at h
    · exact ih _ h (Rng.fair_nextInt g F n _ hf)
    · simp only [Option.some.injEq] at h
      have hg' : (g.nextInt s.m_population_size).2 = g' := congrArg Prod.snd h
      rw [← hg']
      exact Rng.fair_nextInt g F n _ hf

theorem llpCentroid_fair (fuel : Nat) (s : SMO) (i : Nat) (acc acc' : List Point × Rng)
    (j : Nat) (h : llpCentroid fuel s i acc j = some acc') (F n : Nat) (hf : acc.2.Fair F n) :
    acc'.2.Fair F n := by
  unfold llpCentroid at h
  split at h
  · split at h
    · cases h
    · rename_i k g hpick
      simp only [Option.some.injEq] at h
      rw [← h]
      exact pickPeer_fair s i _ fuel _ k g hpick F n hf
  · simp only [Option.some.injEq] at h
    rw [← h]
    exact hf

theorem llpMonkey_sameGroups (fuel : Nat) (s s' : SMO) (i : Nat)
    (h : llpMonkey fuel s i = some s') : SameGroups s s' := by
  unfold llpMonkey at h
  split at h
  · cases h
  · rename_i np g hfold
    simp only [Option.some.injEq] at h
    rw [← h]
    apply accept_sameGroups
    intro F n hf
    exact foldlM_inv (fun acc : List Point × Rng => acc.2.Fair F n) (llpCentroid fuel s i)
      (fun acc j acc' hacc hj => llpCentroid_fair fuel s i acc acc' j hj F n hacc) _ _ (np, g)
      hf hfold

theorem localLeaderPhase_sameGroups (fuel : Nat) (s s' : SMO)
    (h : localLeaderPhase fuel s = some s') : SameGroups s s' :=
  sameGroups_foldlM (llpMonkey fuel) (fun t i t' ht => llpMonkey_sameGroups fuel t t' i ht)
    _ s s' h

theorem glpCentroid_fair (s : SMO) (sel : Nat) (acc : List Point × Rng) (j : Nat) (F n : Nat)
    (hf : acc.2.Fair F n) : (glpCentroid s sel acc j).2.Fair F n := by
  unfold glpCentroid
  split <;> exact hf

theorem glpMonkey_sameGroups (fitness0 : List ℚ) (s : SMO) (i : Nat) :
    SameGroups s (glpMonkey fitness0 s i) := by
  unfold glpMonkey
  simp only
  apply accept_sameGroups
  intro F n hf
  exact foldl_inv (fun acc : List Point × Rng => acc.2.Fair F n) (glpCentroid s _)
    (fun acc j hacc => glpCentroid_fair s _ acc j F n hacc) _ _ hf

theorem globalLeaderPhase_sameGroups (s : SMO) : SameGroups s (globalLeaderPhase s) :=
  sameGroups_foldl (glpMonkey s.m_fitness) (fun t i => glpMonkey_sameGroups s.m_fitness t i) _ s

theorem gllpMonkey_sameGroups (s : SMO) (i : Nat) : SameGroups s (gllpMonkey s i) := by
  unfold gllpMonkey
  split
  · exact ⟨rfl, rfl, by simp, by simp, rfl, rfl, fun _ _ h => h⟩
  · exact SameGroups.refl_groups s

theorem globalLeaderLearningPhase_sameGroups (s : SMO) :
    SameGroups s (globalLeaderLearningPhase s) := by
  have h0 : SameGroups s
      { s with m_local_leader_fitness := s.m_local_leader_fitness.map fun _ => DBL_MAX } :=
    ⟨rfl, rfl, rfl, by simp, rfl, rfl, fun _ _ h => h⟩
  have h1 := h0.trans_groups (sameGroups_foldl gllpMonkey gllpMonkey_sameGroups
    (List.range s.m_population_size)
    { s with m_local_leader_fitness := s.m_local_leader_fitness.map fun _ => DBL_MAX })
  unfold globalLeaderLearningPhase
  simp only
  split
  · exact h1.trans_groups ⟨rfl, rfl, rfl, rfl, rfl, rfl, fun _ _ h => h⟩
  · exact h1.trans_groups ⟨rfl, rfl, rfl, rfl, rfl, rfl, fun _ _ h => h⟩

theorem localLeaderLearningPhase_sameGroups (s : SMO) :
    SameGroups s (localLeaderLearningPhase s) := by
  unfold localLeaderLearningPhase
  apply sameGroups_foldl
  intro t g
  split
  · exact ⟨rfl, rfl, rfl, rfl, by simp, rfl, fun _ _ h => h⟩
  · exact ⟨rfl, rfl, rfl, rfl, by simp, rfl, fun _ _ h => h⟩

theorem reseedCentroid_sameGroups (g i : Nat) (s : SMO) (j : Nat) :
    SameGroups s (reseedCentroid g i s j) :=
  ⟨rfl, rfl, rfl, rfl, rfl, rfl, fun _ _ h => h⟩

theorem reseedMonkey_sameGroups (g : Nat) (s : SMO) (i : Nat) :
    SameGroups s (reseedMonkey g s i) := by
  unfold reseedMonkey
  split
  · simp only
    exact (sameGroups_foldl (reseedCentroid g i) (reseedCentroid_sameGroups g i) _ s).trans_groups
      ⟨rfl, rfl, rfl, rfl, rfl, rfl, fun _ _ h => h⟩
  · exact SameGroups.refl_groups s

theorem reseedGroup_sameGroups (s : SMO) (g : Nat) : SameGroups s (reseedGroup s g) := by
  unfold reseedGroup
  split
  · have h0 : SameGroups s
        { s with m_local_leader_limit_count := s.m_local_leader_limit_count.set g 0 } :=
      ⟨rfl, rfl, rfl, rfl, by simp, rfl, fun _ _ h => h⟩
    exact h0.trans_groups (sameGroups_foldl (reseedMonkey g) (reseedMonkey_sameGroups g) _ _)
  · exact SameGroups.refl_groups s

theorem localLeaderDecisionPhase_sameGroups (s : SMO) :
    SameGroups (regroup s) (localLeaderDecisionPhase s) := by
  unfold localLeaderDecisionPhase
  exact sameGroups_foldl reseedGroup reseedGroup_sameGroups _ _

theorem regroup_frame (s : SMO) :
    (regroup s).m_population_size = s.m_population_size ∧ (regroup s).m_rng = s.m_rng := by
  unfold regroup
  split
  · split <;> exact ⟨rfl, rfl⟩
  · exact ⟨rfl, rfl⟩

/-- The split or merge of `localLeaderDecisionPhase` keeps the group structure
well formed. -/
theorem regroup_wf (s : SMO) (h : GroupsWF s) : GroupsWF (regroup s) := by
  by_cases hcount : s.m_global_leader_limit_count > s.m_global_leader_limit
  · by_cases hsplit : s.m_num_groups < max 1 (s.m_population_size / 5)
    · obtain ⟨h1, h2⟩ := regroup_split s hcount hsplit h.ids_len
      have hG := h.groups_pos
      have hP : s.m_num_groups + 1 ≤ s.m_population_size / 5 := by
        rcases Nat.le_total 1 (s.m_population_size / 5) with h' | h'
        · rw [Nat.max_eq_right h'] at hsplit; omega
        · rw [Nat.max_eq_left h'] at hsplit; omega
      have hq : 5 ≤ s.m_population_size / (s.m_num_groups + 1) := by
        rw [Nat.le_div_iff_mul_le (by omega)]
        have := Nat.div_mul_le_self s.m_population_size 5
        nlinarith
      have hqP : (s.m_num_groups + 1) * (s.m_population_size / (s.m_num_groups + 1))
          ≤ s.m_population_size := Nat.mul_div_le _ _
      have hPs : (regroup s).m_population_size = s.m_population_size := (regroup_frame s).1
      have hlens : (regroup s).m_local_leaders.length = s.m_num_groups + 1 ∧
          (regroup s).m_local_leader_fitness.length = s.m_num_groups + 1 ∧
          (regroup s).m_local_leader_limit_count.length = s.m_num_groups + 1 := by
        unfold regroup
        rw [if_pos hcount, if_pos hsplit]
        exact ⟨length_resize _ _ _, length_resize _ _ _, length_resize _ _ _⟩
      have hget : ∀ i, i < s.m_population_size → (regroup s).m_group_id.getD i 0
          = min (i / (s.m_population_size / (s.m_num_groups + 1))) s.m_num_groups := by
        intro i hi
        rw [h2, List.getD_eq_getElem _ _ (by simpa using hi)]
        simp
      refine ⟨?_, ?_, ?_, ?_, ?_, ?_, ?_, ?_, ?_⟩
      · rw [h1]; omega
      · rw [h1, hPs]
        exact le_trans hP (le_max_right _ _)
      · rw [h1]; exact hlens.1
      · rw [h1]; exact hlens.2.1
      · rw [h1]; exact hlens.2.2
      · rw [h2, hPs]; simp
      · intro i hi
        rw [hPs] at hi
        rw [hget i hi, h1]
        exact lt_of_le_of_lt (min_le_right _ _) (Nat.lt_succ_self _)
      · intro i j hij hj
        rw [hPs] at hj
        rw [hget i (by omega), hget j hj]
        exact min_le_min (Nat.div_le_div_right hij) (le_refl _)
      · intro _ g hg
        rw [h1] at hg
        rw [h2, count_split _ _ hG hP g (by omega)]
        split
        · omega
        · have e : (s.m_num_groups + 1) * (s.m_population_size / (s.m_num_groups + 1))
              = s.m_num_groups * (s.m_population_size / (s.m_num_groups + 1))
                + s.m_population_size / (s.m_num_groups + 1) := by ring
          omega
    · have hr : regroup s =
          { s with
            m_global_leader_limit_count := 0
            m_num_groups := 1
            m_local_leaders := resize s.m_local_leaders 1 s.m_global_leader
            m_local_leader_fitness := resize s.m_local_leader_fitness 1 s.m_global_leader_fitness
            m_local_leader_limit_count := resize s.m_local_leader_limit_count 1 0
            m_group_id := s.m_group_id.map fun _ => 0 } := by
        unfold regroup
        rw [if_pos hcount, if_neg hsplit]
      rw [hr]
      have hz : ∀ i, (s.m_group_id.map fun _ => 0).getD i 0 = 0 := by
        intro i
        rw [List.getD_eq_getElem?_getD, List.getElem?_map]
        cases s.m_group_id[i]? <;> rfl
      refine ⟨le_refl _, le_max_left _ _, length_resize _ _ _, length_resize _ _ _,
        length_resize _ _ _, ?_, ?_, ?_, ?_⟩
      · simp only [List.length_map]; exact h.ids_len
      · intro i _
        simp only [hz]
        exact Nat.zero_lt_one
      · intro i j _ _
        simp only [hz]
        exact le_refl _
      · intro hP2 g hg
        have hg0 : g = 0 := by
          have : g < 1 := hg
          omega
        subst hg0
        have : (s.m_group_id.map fun _ => 0) = List.replicate s.m_group_id.length 0 := by
          rw [List.eq_replicate_iff]
          constructor
          · simp
          · intro b hb
            obtain ⟨_, _, rfl⟩ := List.mem_map.mp hb
            rfl
        simp only [this, List.count_replicate_self, h.ids_len]
        exact hP2
  · have hr : regroup s = s := by
      unfold regroup
      rw [if_neg hcount]
    rw [hr]
    exact h

/-- After `initialize` on a fresh object the group structure is well formed: one
group holding every monkey. -/
theorem init_wf (s : SMO) (hG : s.m_num_groups = 1) :
    GroupsWF (init s) ∧ (init s).m_population_size = s.m_population_size ∧
      ∀ fuel n, s.m_rng.Fair fuel n → (init s).m_rng.Fair fuel n := by
  have hfold := sameGroups_foldl initMonkey initMonkey_sameGroups
    (List.range s.m_population_size)
    { s with
      m_x_bounds := (boundsOf s.m_graph.getPoints).1
      m_y_bounds := (boundsOf s.m_graph.getPoints).2
      m_population := List.replicate s.m_population_size (List.replicate s.m_num_clusters (0, 0))
      m_fitness := List.replicate s.m_population_size DBL_MAX
      m_group_id := List.replicate s.m_population_size 0
      m_local_leaders := [List.replicate s.m_num_clusters (0, 0)]
      m_local_leader_fitness := [DBL_MAX]
      m_local_leader_limit_count := [0]
      m_global_leader := resize s.m_global_leader s.m_num_clusters (0, 0) }
  obtain ⟨e1, e2, e3, e4, e5, e6, e7⟩ := hfold
  simp only at e1 e2 e3 e4 e5 e6 e7
  have hz : ∀ i, (List.replicate s.m_population_size 0).getD i 0 = 0 := by
    intro i
    rw [List.getD_eq_getElem?_getD]
    by_cases hi : i < s.m_population_size
    · rw [List.getElem?_replicate_of_lt hi]; rfl
    · rw [List.getElem?_eq_none (by simpa using hi)]; rfl
  refine ⟨⟨?_, ?_, ?_, ?_, ?_, ?_, ?_, ?_, ?_⟩, ?_, ?_⟩
  · show 1 ≤ (init s).m_num_groups
    unfold init
    simp only
    rw [e1, hG]
  · show (init s).m_num_groups ≤ max 1 ((init s).m_population_size / 5)
    unfold init
    simp only
    rw [e1, hG]
    exact le_max_left _ _
  · show (init s).m_local_leaders.length = (init s).m_num_groups
    unfold init
    simp only
    rw [List.length_set, e3, e1, hG]
    rfl
  · show (init s).m_local_leader_fitness.length = (init s).m_num_groups
    unfold init
    simp only
    rw [List.length_set, e4, e1, hG]
    rfl
  · show (init s).m_local_leader_limit_count.length = (init s).m_num_groups
    unfold init
    simp only
    rw [e5, e1, hG]
    rfl
  · show (init s).m_group_id.length = (init s).m_population_size
    unfold init
    simp only
    rw [e6, e2, List.length_replicate]
  · intro i _
    show (init s).m_group_id.getD i 0 < (init s).m_num_groups
    unfold init
    simp only
    rw [e6, e1, hG, hz]
    exact Nat.zero_lt_one
  · intro i j _ _
    show (init s).m_group_id.getD i 0 ≤ (init s).m_group_id.getD j 0
    unfold init
    simp only
    rw [e6, hz, hz]
  · intro hP g hg
    have hP' : 2 ≤ s.m_population_size := by
      have : (init s).m_population_size = s.m_population_size := by
        unfold init
        simp only
        exact e2
      rw [this] at hP
      exact hP
    have hg' : g < 1 := by
      have : (init s).m_num_groups = 1 := by
        unfold init
        simp only
        rw [e1, hG]
      rw [this] at hg
      exact hg
    have hg0 : g = 0 := by omega
    subst hg0
    show 2 ≤ (init s).m_group_id.count 0
    unfold init
    simp only
    rw [e6, List.count_replicate_self]
    exact hP'
  · unfold init
    simp only
    exact e2
  · intro fuel n hf
    unfold init
    simp only
    exact e7 fuel n hf

/-- The peer loop of `localLeaderPhase` returns when the integer draws reach,
within `fuel` draws, a monkey of the group other than monkey `i`. -/
theorem pickPeer_some (s : SMO) (i group : Nat) (fuel : Nat) (g : Rng)
    (hex : ∃ d, d < fuel ∧ s.m_group_id.getD (g.ints d % s.m_population_size) 0 = group ∧
      g.ints d % s.m_population_size ≠ i) :
    ∃ k g', pickPeer s i group fuel g = some (k, g') ∧
      s.m_group_id.getD k 0 = group ∧ k ≠ i := by
  induction fuel generalizing g with
  | zero => obtain ⟨d, hd, _⟩ := hex; omega
  | succ m ih =>
    unfold pickPeer
    by_cases hc : s.m_group_id.getD (g.nextInt s.m_population_size).1 0 ≠ group
        ∨ (g.nextInt s.m_population_size).1 = i
    · rw [if_pos hc]
      apply ih
      obtain ⟨d, hd, hd1, hd2⟩ := hex
      cases d with
      | zero =>
        exfalso
        rcases hc with hc | hc
        · exact hc hd1
        · exact hd2 hc
      | succ d' => exact ⟨d', by omega, hd1, hd2⟩
    · rw [if_neg hc]
      push_neg at hc
      exact ⟨_, _, rfl, hc.1, hc.2⟩

/-- In a well-formed group structure with at least two monkeys every monkey has
a peer: another monkey of its group. -/
theorem GroupsWF.peer {s : SMO} (h : GroupsWF s) (hP : 2 ≤ s.m_population_size) (i : Nat)
    (hi : i < s.m_population_size) :
    ∃ k, k < s.m_population_size ∧ k ≠ i ∧ s.m_group_id.getD k 0 = s.m_group_id.getD i 0 := by
  obtain ⟨k, hk, hki, hkg⟩ := exists_peer s.m_group_id i (s.m_group_id.getD i 0)
    (h.members hP _ (h.ids_lt i hi))
  exact ⟨k, by rw [← h.ids_len]; exact hk, hki, hkg⟩

theorem llpCentroid_some (fuel : Nat) (s : SMO) (h : GroupsWF s) (hP : 2 ≤ s.m_population_size)
    (i : Nat) (hi : i < s.m_population_size) (acc : List Point × Rng) (j : Nat)
    (hf : acc.2.Fair fuel s.m_population_size) :
    ∃ acc', llpCentroid fuel s i acc j = some acc' ∧ acc'.2.Fair fuel s.m_population_size := by
  have key : ∃ acc', llpCentroid fuel s i acc j = some acc' := by
    unfold llpCentroid
    split
    · obtain ⟨k, hk, hki, hkg⟩ := h.peer hP i hi
      obtain ⟨d, hd, hdk⟩ := hf 0 k hk
      rw [Nat.zero_add] at hdk
      obtain ⟨k', g', hpick, _⟩ := pickPeer_some s i (s.m_group_id.getD i 0) fuel
        acc.2.nextReal.2.nextReal.2.nextReal.2
        ⟨d, hd, by
          show s.m_group_id.getD (acc.2.ints d % s.m_population_size) 0 = _
          rw [hdk]; exact hkg, by
          show acc.2.ints d % s.m_population_size ≠ i
          rw [hdk]; exact hki⟩
      rw [hpick]
      exact ⟨_, rfl⟩
    · exact ⟨_, rfl⟩
  obtain ⟨acc', hacc⟩ := key
  exact ⟨acc', hacc, llpCentroid_fair fuel s i acc acc' j hacc _ _ hf⟩

/-- With at least two monkeys in a well-formed group structure and integer draws
that reach every monkey within `fuel` draws, `localLeaderPhase` returns. -/
theorem localLeaderPhase_some (fuel : Nat) (s : SMO) (h : GroupsWF s)
    (hP : 2 ≤ s.m_population_size) (hf : s.m_rng.Fair fuel s.m_population_size) :
    ∃ s', localLeaderPhase fuel s = some s' := by
  unfold localLeaderPhase
  have key : ∀ (l : List Nat), (∀ i ∈ l, i < s.m_population_size) → ∀ t : SMO,
      (GroupsWF t ∧ t.m_population_size = s.m_population_size ∧
        t.m_rng.Fair fuel s.m_population_size) →
      ∃ t', l.foldlM (llpMonkey fuel) t = some t' := by
    intro l
    induction l with
    | nil => intro _ t _; exact ⟨t, rfl⟩
    | cons x xs ih =>
      intro hl t ht
      obtain ⟨hwf, hPt, hft⟩ := ht
      have hx : x < t.m_population_size := by rw [hPt]; exact hl x (List.mem_cons_self _ _)
      obtain ⟨acc', hacc, _⟩ := foldlM_some
        (fun acc : List Point × Rng => acc.2.Fair fuel t.m_population_size)
        (llpCentroid fuel t x)
        (fun acc j hacc => llpCentroid_some fuel t hwf (by rw [hPt]; exact hP) x hx acc j hacc)
        (List.range t.m_num_clusters) (t.m_population.getD x [], t.m_rng)
        (by rw [hPt]; exact hft)
      have hm : llpMonkey fuel t x = some (accept t x acc'.1 acc'.2) := by
        unfold llpMonkey
        rw [hacc]
      have hsg := llpMonkey_sameGroups fuel t _ x hm
      obtain ⟨t', ht'⟩ := ih (fun i hi => hl i (List.mem_cons_of_mem _ hi)) _
        ⟨hwf.of_same hsg, hsg.2.1.trans hPt, hsg.2.2.2.2.2.2 _ _ hft⟩
      refine ⟨t', ?_⟩
      simp only [List.foldlM_cons, Option.bind_eq_bind, hm, Option.some_bind]
      exact ht'
  exact key _ (fun i hi => List.mem_range.mp hi) s ⟨h, rfl, hf⟩

/-- One round of `SMO::run` keeps the group structure well formed, the
population size, and the fairness of the integer draws. -/
theorem iteration_wf (fuel : Nat) (s s' : SMO) (h : GroupsWF s)
    (hit : iteration fuel s = some s') :
    GroupsWF s' ∧ s'.m_population_size = s.m_population_size ∧
      ∀ F n, s.m_rng.Fair F n → s'.m_rng.Fair F n := by
  unfold iteration at hit
  split at hit
  · cases hit
  · rename_i s1 h1
    simp only [Option.some.injEq] at hit
    have e1 := localLeaderPhase_sameGroups fuel s s1 h1
    have e2 := e1.trans_groups (globalLeaderPhase_sameGroups s1)
    have e3 := e2.trans_groups (globalLeaderLearningPhase_sameGroups _)
    have e4 := e3.trans_groups (localLeaderLearningPhase_sameGroups _)
    have hw4 := h.of_same e4
    have hw5 := regroup_wf _ hw4
    have e5 := localLeaderDecisionPhase_sameGroups
      (localLeaderLearningPhase (globalLeaderLearningPhase (globalLeaderPhase s1)))
    have hfr := regroup_frame
      (localLeaderLearningPhase (globalLeaderLearningPhase (globalLeaderPhase s1)))
    rw [← hit]
    refine ⟨hw5.of_same e5, ?_, ?_⟩
    · rw [e5.2.1, hfr.1]; exact e4.2.1
    · intro F n hf
      apply e5.2.2.2.2.2.2 F n
      rw [hfr.2]
      exact e4.2.2.2.2.2.2 F n hf

theorem iteration_some (fuel : Nat) (s : SMO) (h : GroupsWF s)
    (hP : 2 ≤ s.m_population_size) (hf : s.m_rng.Fair fuel s.m_population_size) :
    ∃ s', iteration fuel s = some s' := by
  obtain ⟨s1, h1⟩ := localLeaderPhase_some fuel s h hP hf
  unfold iteration
  rw [h1]
  exact ⟨_, rfl⟩

/-- Every state reached by the main loop of `SMO::run` from a well-formed one is
well formed. -/
theorem runLoop_wf (fuel k : Nat) (s s' : SMO) (h : GroupsWF s)
    (hrun : runLoop fuel k s = some s') :
    GroupsWF s' ∧ s'.m_population_size = s.m_population_size ∧
      ∀ F n, s.m_rng.Fair F n → s'.m_rng.Fair F n := by
  induction k generalizing s with
  | zero =>
    simp only [runLoop, Option.some.injEq] at hrun
    rw [← hrun]
    exact ⟨h, rfl, fun _ _ hf => hf⟩
  | succ m ih =>
    unfold runLoop at hrun
    split at hrun
    · cases hrun
    · rename_i s1 h1
      obtain ⟨hw1, hP1, hf1⟩ := iteration_wf fuel s s1 h h1
      obtain ⟨hw2, hP2, hf2⟩ := ih s1 hw1 hrun
      exact ⟨hw2, hP2.trans hP1, fun F n hf => hf2 F n (hf1 F n hf)⟩

theorem runLoop_some (fuel k : Nat) (s : SMO) (h : GroupsWF s)
    (hP : 2 ≤ s.m_population_size) (hf : s.m_rng.Fair fuel s.m_population_size) :
    ∃ s', runLoop fuel k s = some s' := by
  induction k generalizing s with
  | zero => exact ⟨s, rfl⟩
  | succ m ih =>
    obtain ⟨s1, h1⟩ := iteration_some fuel s h hP hf
    obtain ⟨hw1, hP1, hf1⟩ := iteration_wf fuel s s1 h h1
    obtain ⟨s2, h2⟩ := ih s1 hw1 (by rw [hP1]; exact hP) (by rw [hP1]; exact hf1 _ _ hf)
    refine ⟨s2, ?_⟩
    unfold runLoop
    rw [h1]
    exact h2

/-- With a single monkey the peer loop of `localLeaderPhase` finds no peer,
however many draws it is given. -/
theorem pickPeer_single (s : SMO) (hP : s.m_population_size = 1) (group fuel : Nat) (g : Rng) :
    pickPeer s 0 group fuel g = none := by
  induction fuel generalizing g with
  | zero => rfl
  | succ m ih =>
    unfold pickPeer
    have h0 : (g.nextInt s.m_population_size).1 = 0 := by
      simp only [Rng.nextInt, hP, Nat.mod_one]
    rw [if_pos (Or.inr h0)]
    exact ih _

end SMO

/-- C24: for every population size `P >= 2`, in every state reached by
`SMO::run` on a fresh object (after `initialize`, `k = 0`, and after the decision
phase of each of the first `k` iterations) the group structure is well formed:
`1 <= m_num_groups <= max(1, P/5)`, the three local-leader vectors have length
`m_num_groups`, every `m_group_id[i]` is below `m_num_groups`, the group
numbers do not decrease with the monkey's index, the divisor `P / m_num_groups`
is not zero (nor is the divisor `P / (m_num_groups + 1)` of a split that is still
allowed), every group has at least two monkeys, and every monkey `i` has a peer
`k != i` in its group.  With integer draws that reach every monkey within `fuel`
draws, `localLeaderPhase` then returns, and so do every number of iterations and
`SMO::run`.  With a single monkey there is no peer and the peer loop does not
return, however many draws it is given. -/
theorem C24_group_structure_well_formed (K si P : Nat) (g : Graph) (ll gl : Int) (pr : ℚ)
    (rng : Rng) (fuel : Nat) (hP : 2 ≤ P) :
    (∀ k s, SMO.runLoop fuel k (SMO.new K si g P ll gl pr rng).init = some s →
      s.m_population_size = P ∧
        1 ≤ s.m_num_groups ∧ s.m_num_groups ≤ max 1 (P / 5) ∧
        s.m_local_leaders.length = s.m_num_groups ∧
        s.m_local_leader_fitness.length = s.m_num_groups ∧
        s.m_local_leader_limit_count.length = s.m_num_groups ∧
        s.m_group_id.length = P ∧
        (∀ i, i < P → s.m_group_id.getD i 0 < s.m_num_groups) ∧
        (∀ i j, i ≤ j → j < P → s.m_group_id.getD i 0 ≤ s.m_group_id.getD j 0) ∧
        0 < P / s.m_num_groups ∧
        (s.m_num_groups < max 1 (P / 5) → 0 < P / (s.m_num_groups + 1)) ∧
        (∀ g, g < s.m_num_groups → 2 ≤ s.m_group_id.count g) ∧
        (∀ i, i < P →
          ∃ k, k < P ∧ k ≠ i ∧ s.m_group_id.getD k 0 = s.m_group_id.getD i 0) ∧
        (rng.Fair fuel P → ∃ s1, SMO.localLeaderPhase fuel s = some s1)) ∧
      (rng.Fair fuel P →
        (∀ k, ∃ s, SMO.runLoop fuel k (SMO.new K si g P ll gl pr rng).init = some s) ∧
          ∃ s, (SMO.new K si g P ll gl pr rng).run fuel = some s) ∧
      ∀ t : SMO, t.m_population_size = 1 →
        (¬ ∃ k, k < t.m_population_size ∧ k ≠ 0) ∧
          ∀ group fuel1 g1, SMO.pickPeer t 0 group fuel1 g1 = none := by
  obtain ⟨hw0, hP0, hf0⟩ := SMO.init_wf (SMO.new K si g P ll gl pr rng) rfl
  have hP0' : (SMO.new K si g P ll gl pr rng).init.m_population_size = P := hP0
  refine ⟨fun k s hs => ?_, fun hfair => ⟨fun k => ?_, ?_⟩, fun t ht => ⟨?_, ?_⟩⟩
  · obtain ⟨hw, hPs, hfs⟩ := SMO.runLoop_wf fuel k _ s hw0 hs
    have hPs' : s.m_population_size = P := hPs.trans hP0'
    have hle := hw.groups_le
    have hpos := hw.groups_pos
    rw [hPs'] at hle
    have hdiv : ∀ G, 1 ≤ G → G ≤ max 1 (P / 5) → 0 < P / G := by
      intro G h1 h2
      apply Nat.div_pos _ (by omega)
      rcases Nat.le_total 1 (P / 5) with h' | h'
      · rw [Nat.max_eq_right h'] at h2
        have := Nat.div_mul_le_self P 5
        omega
      · rw [Nat.max_eq_left h'] at h2
        omega
    refine ⟨hPs', hpos, hle, hw.leaders_len, hw.fitness_len, hw.count_len, ?_, ?_, ?_,
      hdiv _ hpos hle, fun hlt => hdiv _ (by omega) (by omega), ?_, ?_, ?_⟩
    · rw [← hPs']; exact hw.ids_len
    · intro i hi; exact hw.ids_lt i (by rw [hPs']; exact hi)
    · intro i j hij hj; exact hw.ids_mono i j hij (by rw [hPs']; exact hj)
    · exact hw.members (by rw [hPs']; exact hP)
    · intro i hi
      obtain ⟨k', hk', h1, h2⟩ := hw.peer (by rw [hPs']; exact hP) i (by rw [hPs']; exact hi)
      exact ⟨k', by rw [← hPs']; exact hk', h1, h2⟩
    · intro hfair
      exact SMO.localLeaderPhase_some fuel s hw (by rw [hPs']; exact hP)
        (by rw [hPs']; exact hfs _ _ (hf0 _ _ hfair))
  · exact SMO.runLoop_some fuel k _ hw0 (by rw [hP0']; exact hP)
      (by rw [hP0']; exact hf0 _ _ hfair)
  · exact SMO.runLoop_some fuel _ _ hw0 (by rw [hP0']; exact hP)
      (by rw [hP0']; exact hf0 _ _ hfair)
  · rintro ⟨k, hk, hk0⟩
    omega
  · intro group fuel1 g1
    exact SMO.pickPeer_single t ht group fuel1 g1

/-- The conditions of C24 hold for ten monkeys and the generator whose integer
draws are 0, 1, 2, ...: a run of three iterations returns, in a state whose
groups have at least two monkeys each. -/
theorem C24_witness :
    ∃ s, (SMO.new 1 3 (Graph.new [(1, 2), (3, 2)]) 10 20 0 (1 / 10) Rng.counting).run 10
        = some s ∧
      1 ≤ s.m_num_groups ∧ s.m_num_groups ≤ max 1 (10 / 5) ∧
      ∀ g, g < s.m_num_groups → 2 ≤ s.m_group_id.count g := by
  have h := C24_group_structure_well_formed 1 3 10 (Graph.new [(1, 2), (3, 2)]) 20 0 (1 / 10)
    Rng.counting 10 (by decide)
  obtain ⟨s, hs⟩ := (h.2.1 (Rng.counting_fair 10 10 (by decide) (by decide))).2
  obtain ⟨_, h1, h2, _, _, _, _, _, _, _, _, h3, _⟩ := h.1 3 s hs
  exact ⟨s, hs, h1, h2, h3⟩

namespace SMO

theorem leadersOf_step (s t : SMO) (n : Nat) (h : LeadersOf s n t)
    (hlen : s.m_local_leaders.length = s.m_local_leader_fitness.length)
    (hid : s.m_group_id.getD n 0 < s.m_local_leader_fitness.length) :
    LeadersOf s (n + 1) (gllpMonkey t n) := by
  have hfl := h.fit_len
  have hll := h.lead_len
  by_cases hlt : s.m_fitness.getD n 0
      < t.m_local_leader_fitness.getD (s.m_group_id.getD n 0) 0
  · have hrw : gllpMonkey t n =
        { t with
          m_local_leader_fitness :=
            t.m_local_leader_fitness.set (s.m_group_id.getD n 0) (s.m_fitness.getD n 0)
          m_local_leaders :=
            t.m_local_leaders.set (s.m_group_id.getD n 0) (s.m_population.getD n []) } := by
      unfold gllpMonkey
      rw [h.fitness_eq, h.ids_eq, h.pop_eq, if_pos hlt]
    rw [hrw]
    refine ⟨h.fitness_eq, h.ids_eq, h.pop_eq, h.size_eq, h.count_eq, h.leader_eq, h.glf_eq,
      h.groups_eq, h.x_eq, h.y_eq, ?_, ?_, ?_, ?_⟩
    · simp only [List.length_set]; exact hfl
    · simp only [List.length_set]; exact hll
    · intro i hi
      simp only
      by_cases hg : s.m_group_id.getD n 0 = s.m_group_id.getD i 0
      · rw [← hg, ACO.getD_set_eq _ _ _ _ (by rw [hfl]; exact hid)]
        by_cases hin : i = n
        · rw [hin]
        · have := h.le_member i (by omega)
          rw [← hg] at this
          exact le_of_lt (lt_of_lt_of_le hlt this)
      · rw [ACO.getD_set_ne _ _ _ _ _ hg]
        have hin : i ≠ n := fun e => hg (by rw [e])
        exact h.le_member i (by omega)
    · intro g hg
      simp only
      by_cases hgn : s.m_group_id.getD n 0 = g
      · rw [← hgn, ACO.getD_set_eq _ _ _ _ (by rw [hfl]; exact hid),
          ACO.getD_set_eq _ _ _ _ (by rw [hll, hlen]; exact hid)]
        refine ⟨le_trans (le_of_lt hlt) (h.attained _ hid).1, Or.inr ⟨n, by omega, rfl, rfl, rfl⟩⟩
      · rw [ACO.getD_set_ne _ _ _ _ _ hgn, ACO.getD_set_ne _ _ _ _ _ hgn]
        obtain ⟨h1, h2⟩ := h.attained g hg
        refine ⟨h1, ?_⟩
        rcases h2 with h2 | ⟨i, hi, h3⟩
        · exact Or.inl h2
        · exact Or.inr ⟨i, by omega, h3⟩
  · have hrw : gllpMonkey t n = t := by
      unfold gllpMonkey
      rw [h.fitness_eq, h.ids_eq, if_neg hlt]
    rw [hrw]
    refine ⟨h.fitness_eq, h.ids_eq, h.pop_eq, h.size_eq, h.count_eq, h.leader_eq, h.glf_eq,
      h.groups_eq, h.x_eq, h.y_eq, hfl, hll, ?_, ?_⟩
    · intro i hi
      by_cases hin : i = n
      · rw [hin]; exact not_lt.mp hlt
      · exact h.le_member i (by omega)
    · intro g hg
      obtain ⟨h1, h2⟩ := h.attained g hg
      refine ⟨h1, ?_⟩
      rcases h2 with h2 | ⟨i, hi, h3⟩
      · exact Or.inl h2
      · exact Or.inr ⟨i, by omega, h3⟩

/-- The first loop of `globalLeaderLearningPhase`, started on fitnesses all equal
to `numeric_limits<double>::max()`, leaves for each group the least of that
value and the fitnesses of the group's monkeys. -/
theorem leadersOf_fold (s : SMO)
    (hlen : s.m_local_leaders.length = s.m_local_leader_fitness.length)
    (hid : ∀ i, i < s.m_population_size →
      s.m_group_id.getD i 0 < s.m_local_leader_fitness.length)
    (hmax : ∀ g, g < s.m_local_leader_fitness.length → s.m_local_leader_fitness.getD g 0 = DBL_MAX)
    (n : Nat) (hn : n ≤ s.m_population_size) :
    LeadersOf s n ((List.range n).foldl gllpMonkey s) := by
  induction n with
  | zero =>
    exact ⟨rfl, rfl, rfl, rfl, rfl, rfl, rfl, rfl, rfl, rfl, rfl, rfl,
      fun i hi => absurd hi (Nat.not_lt_zero i),
      fun g hg => ⟨le_of_eq (hmax g hg), Or.inl (hmax g hg)⟩⟩
  | succ m ih =>
    rw [List.range_succ, List.foldl_append]
    exact leadersOf_step s _ m (ih (by omega)) hlen (hid m (by omega))

/-- The state after `globalLeaderLearningPhase`, seen from the state `s` before
it: the recorded fitness of every group is the least of
`numeric_limits<double>::max()` and the fitnesses of its monkeys. -/
theorem globalLeaderLearningPhase_leaders (s : SMO) (h : GroupsWF s) :
    ∃ t1, LeadersOf
        { s with m_local_leader_fitness := s.m_local_leader_fitness.map fun _ => DBL_MAX }
        s.m_population_size t1 ∧
      (globalLeaderLearningPhase s).m_local_leader_fitness = t1.m_local_leader_fitness ∧
      (globalLeaderLearningPhase s).m_local_leaders = t1.m_local_leaders ∧
      (globalLeaderLearningPhase s).m_fitness = s.m_fitness ∧
      (globalLeaderLearningPhase s).m_group_id = s.m_group_id ∧
      (globalLeaderLearningPhase s).m_population = s.m_population ∧
      (globalLeaderLearningPhase s).m_population_size = s.m_population_size ∧
      (globalLeaderLearningPhase s).m_local_leader_limit_count = s.m_local_leader_limit_count ∧
      (globalLeaderLearningPhase s).m_num_groups = s.m_num_groups ∧
      ((globalLeaderLearningPhase s).m_global_leader = s.m_global_leader ∨
        ((bestLocal t1).1 < s.m_global_leader_fitness ∧
          (globalLeaderLearningPhase s).m_global_leader
            = t1.m_local_leaders.getD (bestLocal t1).2 [])) := by
  have hL := leadersOf_fold
    { s with m_local_leader_fitness := s.m_local_leader_fitness.map fun _ => DBL_MAX }
    (by simp only [List.length_map]; rw [h.leaders_len, h.fitness_len])
    (fun i hi => by
      simp only [List.length_map]
      rw [h.fitness_len]
      exact h.ids_lt i hi)
    (fun g hg => by
      simp only [List.length_map] at hg
      simp only
      rw [List.getD_eq_getElem _ _ (by simpa using hg)]
      simp)
    s.m_population_size (le_refl _)
  refine ⟨_, hL, ?_⟩
  unfold globalLeaderLearningPhase
  simp only
  split
  · rename_i hlt
    rw [hL.glf_eq] at hlt
    exact ⟨rfl, rfl, hL.fitness_eq, hL.ids_eq, hL.pop_eq, hL.size_eq, hL.count_eq, hL.groups_eq,
      Or.inr ⟨hlt, rfl⟩⟩
  · exact ⟨rfl, rfl, hL.fitness_eq, hL.ids_eq, hL.pop_eq, hL.size_eq, hL.count_eq, hL.groups_eq,
      Or.inl hL.leader_eq⟩

theorem localLeaderUpdated_false (t : SMO) (g : Nat)
    (h : ∀ i, i < t.m_population_size →
      t.m_local_leader_fitness.getD (t.m_group_id.getD i 0) 0 ≤ t.m_fitness.getD i 0) :
    localLeaderUpdated t g = false := by
  unfold localLeaderUpdated
  rw [List.any_eq_false]
  intro i hi
  have hi' := List.mem_range.mp hi
  simp only [decide_eq_true_eq, not_and, not_lt]
  intro hg
  rw [← hg]
  exact h i hi'

theorem bump_step (l : List Int) (n : Nat) (hn : n < l.length) :
    ((l.take n).map (· + 1) ++ l.drop n).set n
        (((l.take n).map (· + 1) ++ l.drop n).getD n 0 + 1)
      = (l.take (n + 1)).map (· + 1) ++ l.drop (n + 1) := by
  obtain ⟨a, b, x, rfl, ha⟩ : ∃ a b x, l = a ++ x :: b ∧ a.length = n :=
    ⟨l.take n, l.drop (n + 1), l[n], by
      rw [← List.drop_eq_getElem_cons hn, List.take_append_drop], by
      rw [List.length_take]; omega⟩
  have h1 : (a ++ x :: b).take n = a := by rw [← ha, List.take_left]
  have h2 : (a ++ x :: b).drop n = x :: b := by rw [← ha, List.drop_left]
  have h3 : (a ++ x :: b).take (n + 1) = a ++ [x] := by
    rw [← ha, List.take_append, List.take_succ_cons, List.take_zero]
  have h4 : (a ++ x :: b).drop (n + 1) = b := by
    rw [← ha, List.drop_append, List.drop_succ_cons, List.drop_zero]
  have hlen : (a.map (· + 1)).length = n := by rw [List.length_map, ha]
  rw [h1, h2, h3, h4, List.set_append_right _ _ (by omega), hlen, Nat.sub_self,
    List.getD_eq_getElem?_getD, List.getElem?_append_right (by omega), hlen, Nat.sub_self]
  simp

/-- When no group counts as updated, `localLeaderLearningPhase` adds one to the
counter of every group. -/
theorem localLeaderLearningPhase_counts (t : SMO)
    (hno : ∀ g, localLeaderUpdated t g = false)
    (hlen : t.m_local_leader_limit_count.length = t.m_num_groups) :
    (localLeaderLearningPhase t).m_local_leader_limit_count
      = t.m_local_leader_limit_count.map (· + 1) := by
  have key : ∀ n, n ≤ t.m_local_leader_limit_count.length →
      (List.range n).foldl
        (fun s g =>
          if localLeaderUpdated s g = true then
            { s with m_local_leader_limit_count := s.m_local_leader_limit_count.set g 0 }
          else
            { s with
              m_local_leader_limit_count :=
                s.m_local_leader_limit_count.set g (s.m_local_leader_limit_count.getD g 0 + 1) })
        t
      = { t with
          m_local_leader_limit_count :=
            (t.m_local_leader_limit_count.take n).map (· + 1)
              ++ t.m_local_leader_limit_count.drop n } := by
    intro n hn
    induction n with
    | zero => rfl
    | succ m ih =>
      rw [List.range_succ, List.foldl_append, ih (by omega)]
      simp only [List.foldl_cons, List.foldl_nil]
      have hu : localLeaderUpdated
          { t with
            m_local_leader_limit_count :=
              (t.m_local_leader_limit_count.take m).map (· + 1)
                ++ t.m_local_leader_limit_count.drop m } m = false := hno m
      rw [if_neg (by rw [hu]; exact Bool.false_ne_true)]
      rw [bump_step _ m (by omega)]
  unfold localLeaderLearningPhase
  rw [← hlen, key _ (le_refl _)]
  simp

theorem accept_counts (s : SMO) (i : Nat) (np : List Point) (g : Rng) :
    (accept s i np g).m_local_leader_limit_count = s.m_local_leader_limit_count := by
  unfold accept
  split <;> rfl

theorem localLeaderPhase_counts (fuel : Nat) (s s' : SMO)
    (h : localLeaderPhase fuel s = some s') :
    s'.m_local_leader_limit_count = s.m_local_leader_limit_count :=
  foldlM_inv (fun t : SMO => t.m_local_leader_limit_count = s.m_local_leader_limit_count)
    (llpMonkey fuel)
    (fun t i t' ht hm => by
      unfold llpMonkey at hm
      split at hm
      · cases hm
      · simp only [Option.some.injEq] at hm
        rw [← hm, accept_counts]
        exact ht) _ s s' rfl h

theorem globalLeaderPhase_counts (s : SMO) :
    (globalLeaderPhase s).m_local_leader_limit_count = s.m_local_leader_limit_count :=
  foldl_inv (fun t : SMO => t.m_local_leader_limit_count = s.m_local_leader_limit_count)
    (glpMonkey s.m_fitness)
    (fun t i ht => by
      unfold glpMonkey
      simp only
      rw [accept_counts]
      exact ht) _ s rfl

end SMO

/-- C23: in every iteration of `SMO::run` on a fresh object (the state `s` is the
one reached after `k` iterations and `s1` the one after its `localLeaderPhase`),
`localLeaderLearningPhase` runs on the state `t` that
`globalLeaderLearningPhase` has just left.  In `t` the recorded fitness of every
group is the least of `numeric_limits<double>::max()` and the fitnesses of the
group's monkeys, so no monkey is strictly better than its group's local leader,
the flag `local_leader_updated` is false for every group, and
`localLeaderLearningPhase` adds exactly one to every group's counter, whose
value before was the one at the start of the iteration. -/
theorem C23_reset_branch_unreachable (K si P : Nat) (g : Graph) (ll gl : Int) (pr : ℚ)
    (rng : Rng) (fuel k : Nat) (s s1 t : SMO)
    (hs : SMO.runLoop fuel k (SMO.new K si g P ll gl pr rng).init = some s)
    (h1 : SMO.localLeaderPhase fuel s = some s1)
    (ht : t = SMO.globalLeaderLearningPhase (SMO.globalLeaderPhase s1)) :
    SMO.iteration fuel s
        = some (SMO.localLeaderDecisionPhase (SMO.localLeaderLearningPhase t)) ∧
      t.m_population_size = P ∧
      (∀ i, i < P →
        t.m_local_leader_fitness.getD (t.m_group_id.getD i 0) 0 ≤ t.m_fitness.getD i 0) ∧
      (∀ g, g < t.m_num_groups →
        t.m_local_leader_fitness.getD g 0 ≤ DBL_MAX ∧
          (t.m_local_leader_fitness.getD g 0 = DBL_MAX ∨
            ∃ i, i < P ∧ t.m_group_id.getD i 0 = g ∧
              t.m_local_leader_fitness.getD g 0 = t.m_fitness.getD i 0)) ∧
      (∀ g, SMO.localLeaderUpdated t g = false) ∧
      t.m_local_leader_limit_count.length = t.m_num_groups ∧
      t.m_local_leader_limit_count = s.m_local_leader_limit_count ∧
      (SMO.localLeaderLearningPhase t).m_local_leader_limit_count
        = s.m_local_leader_limit_count.map (· + 1) := by
  obtain ⟨hw0, hP0, _⟩ := SMO.init_wf (SMO.new K si g P ll gl pr rng) rfl
  have hP0' : (SMO.new K si g P ll gl pr rng).init.m_population_size = P := hP0
  obtain ⟨hw, hPs, _⟩ := SMO.runLoop_wf fuel k _ s hw0 hs
  have e1 := SMO.localLeaderPhase_sameGroups fuel s s1 h1
  have e2 := e1.trans_groups (SMO.globalLeaderPhase_sameGroups s1)
  have e3 := e2.trans_groups (SMO.globalLeaderLearningPhase_sameGroups _)
  have hw2 := hw.of_same e2
  have hw3 := hw.of_same e3
  obtain ⟨t1, hL, hf, _, hfit, hgid, _, hsize, hcnt, hgrp, _⟩ :=
    SMO.globalLeaderLearningPhase_leaders (SMO.globalLeaderPhase s1) hw2
  rw [← ht] at hw3 hf hfit hgid hsize hcnt hgrp
  have hPt : t.m_population_size = P := by
    rw [hsize, e2.2.1, hPs, hP0']
  have hle : ∀ i, i < P →
      t.m_local_leader_fitness.getD (t.m_group_id.getD i 0) 0 ≤ t.m_fitness.getD i 0 := by
    intro i hi
    rw [hf, hgid, hfit]
    exact hL.le_member i (by
      show i < (SMO.globalLeaderPhase s1).m_population_size
      rw [e2.2.1, hPs, hP0']; exact hi)
  have hno : ∀ g, SMO.localLeaderUpdated t g = false := fun g =>
    SMO.localLeaderUpdated_false t g (fun i hi => hle i (by rw [← hPt]; exact hi))
  have hcs : t.m_local_leader_limit_count = s.m_local_leader_limit_count := by
    rw [hcnt, SMO.globalLeaderPhase_counts, SMO.localLeaderPhase_counts fuel s s1 h1]
  refine ⟨?_, hPt, hle, ?_, hno, hw3.count_len, hcs, ?_⟩
  · unfold SMO.iteration
    rw [h1, ht]
  · intro g' hg'
    have hg2 : g' < (SMO.globalLeaderPhase s1).m_local_leader_fitness.length := by
      rw [hw2.fitness_len, ← hgrp]; exact hg'
    obtain ⟨h3, h4⟩ := hL.attained g' (by simpa using hg2)
    rw [hf, hgid, hfit]
    refine ⟨h3, ?_⟩
    rcases h4 with h4 | ⟨i, hi, hig, hif, _⟩
    · exact Or.inl h4
    · refine Or.inr ⟨i, ?_, hig, hif⟩
      have : i < (SMO.globalLeaderPhase s1).m_population_size := hi
      rw [e2.2.1, hPs, hP0'] at this
      exact this
  · rw [SMO.localLeaderLearningPhase_counts t hno hw3.count_len, hcs]

/-- The conditions of C23 hold in the second iteration of a run with ten monkeys:
the state after one iteration exists, its `localLeaderPhase` returns, and
`localLeaderLearningPhase` then adds one to every counter. -/
theorem C23_witness :
    ∃ s s1,
      SMO.runLoop 10 1
          (SMO.new 1 3 (Graph.new [(1, 2), (3, 2)]) 10 20 0 (1 / 10) Rng.counting).init
        = some s ∧
      SMO.localLeaderPhase 10 s = some s1 ∧
      (SMO.localLeaderLearningPhase
          (SMO.globalLeaderLearningPhase (SMO.globalLeaderPhase s1))).m_local_leader_limit_count
        = s.m_local_leader_limit_count.map (· + 1) := by
  obtain ⟨hw0, hP0, hf0⟩ := SMO.init_wf
    (SMO.new 1 3 (Graph.new [(1, 2), (3, 2)]) 10 20 0 (1 / 10) Rng.counting) rfl
  have hfair : Rng.counting.Fair 10 10 := Rng.counting_fair 10 10 (by decide) (by decide)
  have hP0' : (SMO.new 1 3 (Graph.new [(1, 2), (3, 2)]) 10 20 0 (1 / 10)
      Rng.counting).init.m_population_size = 10 := hP0
  obtain ⟨s, hs⟩ := SMO.runLoop_some 10 1 _ hw0 (by rw [hP0']; decide)
    (by rw [hP0']; exact hf0 _ _ hfair)
  obtain ⟨hw, hPs, hfs⟩ := SMO.runLoop_wf 10 1 _ s hw0 hs
  obtain ⟨s1, h1⟩ := SMO.localLeaderPhase_some 10 s hw (by rw [hPs, hP0']; decide)
    (by rw [hPs, hP0']; exact hfs _ _ (hf0 _ _ hfair))
  exact ⟨s, s1, hs, h1,
    (C23_reset_branch_unreachable 1 3 10 (Graph.new [(1, 2), (3, 2)]) 20 0 (1 / 10) Rng.counting
      10 1 s s1 _ hs h1 rfl).2.2.2.2.2.2.2⟩

theorem getD_mem_or {α : Type} (l : List α) (i : Nat) (d : α) : l.getD i d ∈ l ∨ l.getD i d = d := by
  by_cases h : i < l.length
  · left
    rw [List.getD_eq_getElem _ _ h]
    exact List.getElem_mem h
  · right
    exact List.getD_eq_default _ _ (by omega)

/-- The running minimum of `f` over a list: below the start value and every
value of `f`, and equal to the start value or to a value of `f`. -/
theorem foldl_lt_spec (f : Point → ℚ) (l : List Point) (m0 : ℚ) :
    l.foldl (fun m pt => if f pt < m then f pt else m) m0 ≤ m0 ∧
      (∀ p ∈ l, l.foldl (fun m pt => if f pt < m then f pt else m) m0 ≤ f p) ∧
      (l.foldl (fun m pt => if f pt < m then f pt else m) m0 = m0 ∨
        ∃ p ∈ l, f p = l.foldl (fun m pt => if f pt < m then f pt else m) m0) := by
  induction l generalizing m0 with
  | nil => exact ⟨le_refl _, fun p hp => absurd hp (List.not_mem_nil p), Or.inl rfl⟩
  | cons x xs ih =>
    simp only [List.foldl_cons]
    obtain ⟨h1, h2, h3⟩ := ih (if f x < m0 then f x else m0)
    have hstep : (if f x < m0 then f x else m0) ≤ m0 ∧ (if f x < m0 then f x else m0) ≤ f x := by
      split
      · rename_i hlt; exact ⟨le_of_lt hlt, le_refl _⟩
      · rename_i hlt; exact ⟨le_refl _, not_lt.mp hlt⟩
    refine ⟨le_trans h1 hstep.1, ?_, ?_⟩
    · intro p hp
      rcases List.mem_cons.mp hp with hp | hp
      · rw [hp]; exact le_trans h1 hstep.2
      · exact h2 p hp
    · rcases h3 with h3 | ⟨p, hp, hpe⟩
      · by_cases hlt : f x < m0
        · right
          rw [if_pos hlt] at h3 ⊢
          exact ⟨x, List.mem_cons_self _ _, h3.symm⟩
        · left
          rw [if_neg hlt] at h3 ⊢
          exact h3
      · exact Or.inr ⟨p, List.mem_cons_of_mem _ hp, hpe⟩

/-- The running maximum of `f` over a list. -/
theorem foldl_gt_spec (f : Point → ℚ) (l : List Point) (m0 : ℚ) :
    m0 ≤ l.foldl (fun m pt => if f pt > m then f pt else m) m0 ∧
      (∀ p ∈ l, f p ≤ l.foldl (fun m pt => if f pt > m then f pt else m) m0) ∧
      (l.foldl (fun m pt => if f pt > m then f pt else m) m0 = m0 ∨
        ∃ p ∈ l, f p = l.foldl (fun m pt => if f pt > m then f pt else m) m0) := by
  induction l generalizing m0 with
  | nil => exact ⟨le_refl _, fun p hp => absurd hp (List.not_mem_nil p), Or.inl rfl⟩
  | cons x xs ih =>
    simp only [List.foldl_cons]
    obtain ⟨h1, h2, h3⟩ := ih (if f x > m0 then f x else m0)
    have hstep : m0 ≤ (if f x > m0 then f x else m0) ∧ f x ≤ (if f x > m0 then f x else m0) := by
      split
      · rename_i hlt; exact ⟨le_of_lt hlt, le_refl _⟩
      · rename_i hlt; exact ⟨le_refl _, not_lt.mp hlt⟩
    refine ⟨le_trans hstep.1 h1, ?_, ?_⟩
    · intro p hp
      rcases List.mem_cons.mp hp with hp | hp
      · rw [hp]; exact le_trans hstep.2 h1
      · exact h2 p hp
    · rcases h3 with h3 | ⟨p, hp, hpe⟩
      · by_cases hlt : f x > m0
        · right
          rw [if_pos hlt] at h3 ⊢
          exact ⟨x, List.mem_cons_self _ _, h3.symm⟩
        · left
          rw [if_neg hlt] at h3 ⊢
          exact h3
      · exact Or.inr ⟨p, List.mem_cons_of_mem _ hp, hpe⟩

namespace SMO

theorem boundsOf_fold_proj (l : List Point) (b0 : (ℚ × ℚ) × (ℚ × ℚ)) :
    (l.foldl
      (fun (b : (ℚ × ℚ) × (ℚ × ℚ)) pt =>
        ((if pt.1 < b.1.1 then pt.1 else b.1.1, if pt.1 > b.1.2 then pt.1 else b.1.2),
          (if pt.2 < b.2.1 then pt.2 else b.2.1, if pt.2 > b.2.2 then pt.2 else b.2.2))) b0)
      = ((l.foldl (fun m pt => if (fun p : Point => p.1) pt < m then (fun p : Point => p.1) pt
            else m) b0.1.1,
          l.foldl (fun m pt => if (fun p : Point => p.1) pt > m then (fun p : Point => p.1) pt
            else m) b0.1.2),
        (l.foldl (fun m pt => if (fun p : Point => p.2) pt < m then (fun p : Point => p.2) pt
            else m) b0.2.1,
          l.foldl (fun m pt => if (fun p : Point => p.2) pt > m then (fun p : Point => p.2) pt
            else m) b0.2.2)) := by
  induction l generalizing b0 with
  | nil => rfl
  | cons x xs ih =>
    simp only [List.foldl_cons]
    rw [ih]

/-- The bounds computed by `initialize` for a non-empty list of points with
coordinates of magnitude at most `numeric_limits<double>::max()`: every point
lies between them and each bound is a coordinate of some point. -/
theorem boundsOf_spec (pts : List Point) (hne : pts ≠ [])
    (hfin : ∀ p ∈ pts, -DBL_MAX ≤ p.1 ∧ p.1 ≤ DBL_MAX ∧ -DBL_MAX ≤ p.2 ∧ p.2 ≤ DBL_MAX) :
    (∀ p ∈ pts, InBounds (boundsOf pts).1 (boundsOf pts).2 p) ∧
      (∃ p ∈ pts, p.1 = (boundsOf pts).1.1) ∧ (∃ p ∈ pts, p.1 = (boundsOf pts).1.2) ∧
      (∃ p ∈ pts, p.2 = (boundsOf pts).2.1) ∧ (∃ p ∈ pts, p.2 = (boundsOf pts).2.2) := by
  obtain ⟨p0, hp0⟩ := List.exists_mem_of_ne_nil pts hne
  obtain ⟨f1, f2, f3, f4⟩ := hfin p0 hp0
  have hb : boundsOf pts = _ := boundsOf_fold_proj pts ((DBL_MAX, -DBL_MAX), (DBL_MAX, -DBL_MAX))
  obtain ⟨a1, a2, a3⟩ := foldl_lt_spec (fun p : Point => p.1) pts DBL_MAX
  obtain ⟨b1, b2, b3⟩ := foldl_gt_spec (fun p : Point => p.1) pts (-DBL_MAX)
  obtain ⟨c1, c2, c3⟩ := foldl_lt_spec (fun p : Point => p.2) pts DBL_MAX
  obtain ⟨d1, d2, d3⟩ := foldl_gt_spec (fun p : Point => p.2) pts (-DBL_MAX)
  rw [hb]
  refine ⟨fun p hp => ⟨a2 p hp, b2 p hp, c2 p hp, d2 p hp⟩, ?_, ?_, ?_, ?_⟩
  · rcases a3 with h | h
    · exact ⟨p0, hp0, le_antisymm (by rw [h]; exact f2) (a2 p0 hp0)⟩
    · exact h
  · rcases b3 with h | h
    · exact ⟨p0, hp0, le_antisymm (b2 p0 hp0) (by rw [h]; exact f1)⟩
    · exact h
  · rcases c3 with h | h
    · exact ⟨p0, hp0, le_antisymm (by rw [h]; exact f4) (c2 p0 hp0)⟩
    · exact h
  · rcases d3 with h | h
    · exact ⟨p0, hp0, le_antisymm (d2 p0 hp0) (by rw [h]; exact f3)⟩
    · exact h

theorem clamp_inBounds (s : SMO) (xb yb : ℚ × ℚ) (hx : xb.1 ≤ xb.2) (hy : yb.1 ≤ yb.2)
    (h1 : s.m_x_bounds = xb) (h2 : s.m_y_bounds = yb) (c : Point) :
    InBounds xb yb (clampCentroid s c) := by
  unfold clampCentroid InBounds
  rw [h1, h2]
  exact ⟨le_max_left _ _, max_le hx (min_le_left _ _), le_max_left _ _,
    max_le hy (min_le_left _ _)⟩

theorem drawCentroids_box (xb yb : ℚ × ℚ) (hx : xb.1 ≤ xb.2) (hy : yb.1 ≤ yb.2) (k : Nat)
    (g : Rng) (hg : g.RealsInUnit) :
    (∀ c ∈ (drawCentroids xb yb k g).1, InBounds xb yb c) ∧
      (drawCentroids xb yb k g).1.length = k ∧ (drawCentroids xb yb k g).2.RealsInUnit := by
  induction k generalizing g with
  | zero => exact ⟨fun c hc => absurd hc (List.not_mem_nil c), rfl, hg⟩
  | succ m ih =>
    have hg2 : g.nextReal.2.nextReal.2.RealsInUnit :=
      Rng.realsInUnit_nextReal _ (Rng.realsInUnit_nextReal _ hg)
    obtain ⟨i1, i2, i3⟩ := ih _ hg2
    have hu1 : 0 ≤ g.nextReal.1 ∧ g.nextReal.1 < 1 := hg 0
    have hu2 : 0 ≤ g.nextReal.2.nextReal.1 ∧ g.nextReal.2.nextReal.1 < 1 :=
      (Rng.realsInUnit_nextReal _ hg) 0
    unfold drawCentroids
    refine ⟨fun c hc => ?_, by simp only [List.length_cons, i2], i3⟩
    rcases List.mem_cons.mp hc with hc | hc
    · rw [hc]
      unfold InBounds
      simp only
      refine ⟨?_, ?_, ?_, ?_⟩
      · nlinarith [mul_nonneg hu1.1 (sub_nonneg.mpr hx)]
      · nlinarith [mul_nonneg (sub_nonneg.mpr (le_of_lt hu1.2)) (sub_nonneg.mpr hx)]
      · nlinarith [mul_nonneg hu2.1 (sub_nonneg.mpr hy)]
      · nlinarith [mul_nonneg (sub_nonneg.mpr (le_of_lt hu2.2)) (sub_nonneg.mpr hy)]
    · exact i1 c hc

/-- The SSE of a position with at least one centroid, all centroids and all
points between the bounds, is below `numeric_limits<double>::max()` when the
number of points times the squared diagonal of the bounds is. -/
theorem calculateFitness_lt (s : SMO) (pos : List Point) (xb yb : ℚ × ℚ)
    (hK : 1 ≤ s.m_num_clusters) (hpos : pos ≠ [])
    (hp : ∀ c ∈ pos, InBounds xb yb c)
    (hpts : ∀ p ∈ s.m_graph.getPoints, InBounds xb yb p)
    (hne : s.m_graph.getPoints ≠ [])
    (hsat : (s.m_graph.getPoints.length : ℚ)
      * ((xb.2 - xb.1) * (xb.2 - xb.1) + (yb.2 - yb.1) * (yb.2 - yb.1)) < DBL_MAX) :
    calculateFitness s pos < DBL_MAX := by
  have hn : (1 : ℚ) ≤ (s.m_graph.getPoints.length : ℚ) := by
    have : 1 ≤ s.m_graph.getPoints.length := List.length_pos.mpr hne
    exact_mod_cast this
  have hD0 : 0 ≤ (xb.2 - xb.1) * (xb.2 - xb.1) + (yb.2 - yb.1) * (yb.2 - yb.1) := by
    nlinarith [mul_self_nonneg (xb.2 - xb.1), mul_self_nonneg (yb.2 - yb.1)]
  have hD : (xb.2 - xb.1) * (xb.2 - xb.1) + (yb.2 - yb.1) * (yb.2 - yb.1) < DBL_MAX := by
    nlinarith
  have hc0 : InBounds xb yb (pos.getD 0 (0, 0)) := by
    cases pos with
    | nil => exact absurd rfl hpos
    | cons c t => exact hp c (List.mem_cons_self _ _)
  have hterm : ∀ i, i < s.m_graph.getPoints.length →
      (nearestCentroid s.m_num_clusters (s.m_graph.getPoints.getD i (0, 0)) pos).1
        ≤ (xb.2 - xb.1) * (xb.2 - xb.1) + (yb.2 - yb.1) * (yb.2 - yb.1) := by
    intro i hi
    have hpt : InBounds xb yb (s.m_graph.getPoints.getD i (0, 0)) := by
      rw [List.getD_eq_getElem _ _ hi]
      exact hpts _ (List.getElem_mem hi)
    have hd : distSq (s.m_graph.getPoints.getD i (0, 0)) (pos.getD 0 (0, 0))
        ≤ (xb.2 - xb.1) * (xb.2 - xb.1) + (yb.2 - yb.1) * (yb.2 - yb.1) := by
      unfold distSq
      unfold InBounds at hpt hc0
      obtain ⟨p1, p2, p3, p4⟩ := hpt
      obtain ⟨q1, q2, q3, q4⟩ := hc0
      have hxx : ((s.m_graph.getPoints.getD i (0, 0)).1 - (pos.getD 0 (0, 0)).1)
          * ((s.m_graph.getPoints.getD i (0, 0)).1 - (pos.getD 0 (0, 0)).1)
          ≤ (xb.2 - xb.1) * (xb.2 - xb.1) := by
        nlinarith [mul_nonneg (sub_nonneg.mpr p1) (sub_nonneg.mpr q2),
          mul_nonneg (sub_nonneg.mpr q1) (sub_nonneg.mpr p2),
          mul_nonneg (sub_nonneg.mpr p1) (sub_nonneg.mpr p2),
          mul_nonneg (sub_nonneg.mpr q1) (sub_nonneg.mpr q2)]
      have hyy : ((s.m_graph.getPoints.getD i (0, 0)).2 - (pos.getD 0 (0, 0)).2)
          * ((s.m_graph.getPoints.getD i (0, 0)).2 - (pos.getD 0 (0, 0)).2)
          ≤ (yb.2 - yb.1) * (yb.2 - yb.1) := by
        nlinarith [mul_nonneg (sub_nonneg.mpr p3) (sub_nonneg.mpr q4),
          mul_nonneg (sub_nonneg.mpr q3) (sub_nonneg.mpr p4),
          mul_nonneg (sub_nonneg.mpr p3) (sub_nonneg.mpr p4),
          mul_nonneg (sub_nonneg.mpr q3) (sub_nonneg.mpr q4)]
      linarith
    exact le_trans ((nearestCentroid_spec s.m_num_clusters _ pos
      ⟨0, hK, lt_of_le_of_lt hd hD⟩).2.2.1 0 hK) hd
  have hspec := (assign_fold_spec s pos hK s.m_graph.getPoints.length).1
  have hsum : calculateFitness s pos
      = ((List.range s.m_graph.getPoints.length).map fun i =>
        (nearestCentroid s.m_num_clusters (s.m_graph.getPoints.getD i (0, 0)) pos).1).sum :=
    hspec
  rw [hsum]
  have hle := List.sum_le_card_nsmul
    ((List.range s.m_graph.getPoints.length).map fun i =>
      (nearestCentroid s.m_num_clusters (s.m_graph.getPoints.getD i (0, 0)) pos).1)
    ((xb.2 - xb.1) * (xb.2 - xb.1) + (yb.2 - yb.1) * (yb.2 - yb.1))
    (fun x hx => by
      obtain ⟨i, hi, rfl⟩ := List.mem_map.mp hx
      exact hterm i (List.mem_range.mp hi))
  rw [List.length_map, List.length_range, nsmul_eq_mul] at hle
  exact lt_of_le_of_lt hle hsat

theorem accept_box (xb yb : ℚ × ℚ) (s : SMO) (h : BoxInv xb yb s) (i : Nat) (np : List Point)
    (g : Rng) (hnp : ∀ c ∈ np, InBounds xb yb c) : BoxInv xb yb (accept s i np g) := by
  unfold accept
  split
  · refine ⟨h.x_bounds, h.y_bounds, ?_, h.leader, h.glf_le, h.lens⟩
    intro pos hpos c hc
    rcases List.mem_or_eq_of_mem_set hpos with h1 | h1
    · exact h.pop pos h1 c hc
    · rw [h1] at hc; exact hnp c hc
  · exact ⟨h.x_bounds, h.y_bounds, h.pop, h.leader, h.glf_le, h.lens⟩

theorem BoxInv.getD_pop {xb yb : ℚ × ℚ} {s : SMO} (h : BoxInv xb yb s) (i : Nat) :
    ∀ c ∈ s.m_population.getD i [], InBounds xb yb c := by
  intro c hc
  rcases getD_mem_or s.m_population i [] with h1 | h1
  · exact h.pop _ h1 c hc
  · rw [h1] at hc; exact absurd hc (List.not_mem_nil c)

theorem llpCentroid_box (xb yb : ℚ × ℚ) (hx : xb.1 ≤ xb.2) (hy : yb.1 ≤ yb.2) (fuel : Nat)
    (s : SMO) (h : BoxInv xb yb s) (i : Nat) (acc acc' : List Point × Rng) (j : Nat)
    (hacc : ∀ c ∈ acc.1, InBounds xb yb c) (hj : llpCentroid fuel s i acc j = some acc') :
    ∀ c ∈ acc'.1, InBounds xb yb c := by
  unfold llpCentroid at hj
  split at hj
  · split at hj
    · cases hj
    · simp only [Option.some.injEq] at hj
      rw [← hj]
      intro c hc
      rcases List.mem_or_eq_of_mem_set hc with h1 | h1
      · exact hacc c h1
      · rw [h1]; exact clamp_inBounds s xb yb hx hy h.x_bounds h.y_bounds _
  · simp only [Option.some.injEq] at hj
    rw [← hj]
    intro c hc
    rcases List.mem_or_eq_of_mem_set hc with h1 | h1
    · exact hacc c h1
    · rw [h1]; exact clamp_inBounds s xb yb hx hy h.x_bounds h.y_bounds _

theorem localLeaderPhase_box (xb yb : ℚ × ℚ) (hx : xb.1 ≤ xb.2) (hy : yb.1 ≤ yb.2) (fuel : Nat)
    (s s' : SMO) (h : BoxInv xb yb s) (hs : localLeaderPhase fuel s = some s') :
    BoxInv xb yb s' := by
  refine foldlM_inv (BoxInv xb yb) (llpMonkey fuel) (fun t i t' ht hm => ?_) _ s s' h hs
  unfold llpMonkey at hm
  split at hm
  · cases hm
  · rename_i np g hfold
    simp only [Option.some.injEq] at hm
    rw [← hm]
    apply accept_box xb yb t ht
    exact foldlM_inv (fun acc : List Point × Rng => ∀ c ∈ acc.1, InBounds xb yb c)
      (llpCentroid fuel t i)
      (fun acc j acc' hacc hj => llpCentroid_box xb yb hx hy fuel t ht i acc acc' j hacc hj)
      _ _ (np, g) (ht.getD_pop i) hfold

theorem glpCentroid_box (xb yb : ℚ × ℚ) (hx : xb.1 ≤ xb.2) (hy : yb.1 ≤ yb.2)
    (s : SMO) (h : BoxInv xb yb s) (sel : Nat) (acc : List Point × Rng) (j : Nat)
    (hacc : ∀ c ∈ acc.1, InBounds xb yb c) :
    ∀ c ∈ (glpCentroid s sel acc j).1, InBounds xb yb c := by
  unfold glpCentroid
  split
  · intro c hc
    rcases List.mem_or_eq_of_mem_set hc with h1 | h1
    · exact hacc c h1
    · rw [h1]; exact clamp_inBounds s xb yb hx hy h.x_bounds h.y_bounds _
  · intro c hc
    rcases List.mem_or_eq_of_mem_set hc with h1 | h1
    · exact hacc c h1
    · rw [h1]; exact clamp_inBounds s xb yb hx hy h.x_bounds h.y_bounds _

theorem globalLeaderPhase_box (xb yb : ℚ × ℚ) (hx : xb.1 ≤ xb.2) (hy : yb.1 ≤ yb.2)
    (s : SMO) (h : BoxInv xb yb s) : BoxInv xb yb (globalLeaderPhase s) := by
  unfold globalLeaderPhase
  refine foldl_inv (BoxInv xb yb) (glpMonkey s.m_fitness) (fun t i ht => ?_) _ s h
  unfold glpMonkey
  simp only
  apply accept_box xb yb t ht
  exact foldl_inv (fun acc : List Point × Rng => ∀ c ∈ acc.1, InBounds xb yb c)
    (glpCentroid t _) (fun acc j hacc => glpCentroid_box xb yb hx hy t ht _ acc j hacc) _ _
    (ht.getD_pop i)

theorem bestLocal_spec (t : SMO) (hG : 1 ≤ t.m_num_groups) :
    (bestLocal t).1 = t.m_local_leader_fitness.getD (bestLocal t).2 0 ∧
      (bestLocal t).2 < t.m_num_groups := by
  unfold bestLocal
  refine foldl_inv_mem
    (fun acc : ℚ × Nat => acc.1 = t.m_local_leader_fitness.getD acc.2 0 ∧ acc.2 < t.m_num_groups)
    _ (List.range (t.m_num_groups - 1)) (fun acc g0 hg0 hacc => ?_) _ ⟨rfl, by omega⟩
  have := List.mem_range.mp hg0
  split
  · exact ⟨rfl, by omega⟩
  · exact hacc

theorem globalLeaderLearningPhase_bounds (s : SMO) :
    (globalLeaderLearningPhase s).m_x_bounds = s.m_x_bounds ∧
      (globalLeaderLearningPhase s).m_y_bounds = s.m_y_bounds := by
  have h1 := foldl_inv (fun t : SMO => t.m_x_bounds = s.m_x_bounds ∧ t.m_y_bounds = s.m_y_bounds)
    gllpMonkey
    (fun t i ht => by
      unfold gllpMonkey
      split
      · exact ht
      · exact ht) (List.range s.m_population_size)
    { s with m_local_leader_fitness := s.m_local_leader_fitness.map fun _ => DBL_MAX }
    ⟨rfl, rfl⟩
  unfold globalLeaderLearningPhase
  simp only
  split
  · exact h1
  · exact h1

/-- The local leader that `globalLeaderLearningPhase` copies into the global
leader is the position of a monkey. -/
theorem leader_of_best (xb yb : ℚ × ℚ) (s0 t1 : SMO) (n : Nat) (hL : LeadersOf s0 n t1)
    (hpop : ∀ i, ∀ c ∈ s0.m_population.getD i [], InBounds xb yb c)
    (hG : 1 ≤ s0.m_num_groups) (hlen : s0.m_local_leader_fitness.length = s0.m_num_groups)
    (hlt : (bestLocal t1).1 < DBL_MAX) :
    ∀ c ∈ t1.m_local_leaders.getD (bestLocal t1).2 [], InBounds xb yb c := by
  obtain ⟨hb1, hb2⟩ := bestLocal_spec t1 (by rw [hL.groups_eq]; exact hG)
  rw [hL.groups_eq, ← hlen] at hb2
  obtain ⟨_, ha⟩ := hL.attained _ hb2
  rcases ha with ha | ⟨i, _, _, _, hlead⟩
  · exfalso
    rw [hb1, ha] at hlt
    exact absurd hlt (lt_irrefl _)
  · rw [hlead]
    exact hpop i

/-- The phase `globalLeaderLearningPhase` keeps the positions between the bounds:
a new global leader is the position of a monkey. -/
theorem globalLeaderLearningPhase_box (xb yb : ℚ × ℚ) (s : SMO) (h : BoxInv xb yb s)
    (hw : GroupsWF s) : BoxInv xb yb (globalLeaderLearningPhase s) := by
  obtain ⟨t1, hL, _, _, _, _, hp, _, _, _, hcase⟩ := globalLeaderLearningPhase_leaders s hw
  obtain ⟨hbx, hby⟩ := globalLeaderLearningPhase_bounds s
  obtain ⟨_, _, e3, e4, _⟩ := globalLeaderLearningPhase_sameGroups s
  refine ⟨hbx.trans h.x_bounds, hby.trans h.y_bounds, ?_, ?_,
    le_trans (globalLeaderLearningPhase_glf s) h.glf_le, ?_⟩
  · rw [hp]; exact h.pop
  · rcases hcase with hc | ⟨hlt, hc⟩
    · rw [hc]; exact h.leader
    · rw [hc]
      exact leader_of_best xb yb _ t1 _ hL (fun i => h.getD_pop i) hw.groups_pos
        (by simp only [List.length_map]; exact hw.fitness_len)
        (lt_of_lt_of_le hlt h.glf_le)
  · rw [e3, e4]; exact h.lens

theorem localLeaderLearningPhase_box (xb yb : ℚ × ℚ) (s : SMO) (h : BoxInv xb yb s) :
    BoxInv xb yb (localLeaderLearningPhase s) := by
  unfold localLeaderLearningPhase
  refine foldl_inv (BoxInv xb yb) _ (fun t g ht => ?_) _ s h
  split
  · exact ⟨ht.x_bounds, ht.y_bounds, ht.pop, ht.leader, ht.glf_le, ht.lens⟩
  · exact ⟨ht.x_bounds, ht.y_bounds, ht.pop, ht.leader, ht.glf_le, ht.lens⟩

theorem regroup_box (xb yb : ℚ × ℚ) (s : SMO) (h : BoxInv xb yb s) :
    BoxInv xb yb (regroup s) := by
  unfold regroup
  split
  · split
    · exact ⟨h.x_bounds, h.y_bounds, h.pop, h.leader, h.glf_le,
        (length_resize _ _ _).trans (length_resize _ _ _).symm⟩
    · exact ⟨h.x_bounds, h.y_bounds, h.pop, h.leader, h.glf_le,
        (length_resize _ _ _).trans (length_resize _ _ _).symm⟩
  · exact h

theorem reseedCentroid_box (xb yb : ℚ × ℚ) (hx : xb.1 ≤ xb.2) (hy : yb.1 ≤ yb.2)
    (g i : Nat) (s : SMO) (h : BoxInv xb yb s) (j : Nat) :
    BoxInv xb yb (reseedCentroid g i s j) := by
  unfold reseedCentroid
  refine ⟨h.x_bounds, h.y_bounds, ?_, h.leader, h.glf_le, h.lens⟩
  intro pos hpos c hc
  rcases List.mem_or_eq_of_mem_set hpos with h1 | h1
  · exact h.pop pos h1 c hc
  · rw [h1] at hc
    rcases List.mem_or_eq_of_mem_set hc with h2 | h2
    · exact h.getD_pop i c h2
    · rw [h2]; exact clamp_inBounds s xb yb hx hy h.x_bounds h.y_bounds _

theorem reseedGroup_box (xb yb : ℚ × ℚ) (hx : xb.1 ≤ xb.2) (hy : yb.1 ≤ yb.2)
    (s : SMO) (h : BoxInv xb yb s) (g : Nat) : BoxInv xb yb (reseedGroup s g) := by
  unfold reseedGroup
  split
  · refine foldl_inv (BoxInv xb yb) (reseedMonkey g) (fun t i ht => ?_) _ _
      ⟨h.x_bounds, h.y_bounds, h.pop, h.leader, h.glf_le, h.lens⟩
    unfold reseedMonkey
    split
    · have h1 := foldl_inv (BoxInv xb yb) (reseedCentroid g i)
        (fun u j hu => reseedCentroid_box xb yb hx hy g i u hu j)
        (List.range t.m_num_clusters) t ht
      exact ⟨h1.x_bounds, h1.y_bounds, h1.pop, h1.leader, h1.glf_le, h1.lens⟩
    · exact ht
  · exact h

theorem localLeaderDecisionPhase_box (xb yb : ℚ × ℚ) (hx : xb.1 ≤ xb.2) (hy : yb.1 ≤ yb.2)
    (s : SMO) (h : BoxInv xb yb s) : BoxInv xb yb (localLeaderDecisionPhase s) := by
  unfold localLeaderDecisionPhase
  exact foldl_inv (BoxInv xb yb) reseedGroup
    (fun t g ht => reseedGroup_box xb yb hx hy t ht g) _ _ (regroup_box xb yb s h)

/-- One round of `SMO::run` keeps the positions between the bounds, after each
of its five phases. -/
theorem phases_box (xb yb : ℚ × ℚ) (hx : xb.1 ≤ xb.2) (hy : yb.1 ≤ yb.2) (fuel : Nat)
    (s s1 : SMO) (h : BoxInv xb yb s) (hw : GroupsWF s)
    (h1 : localLeaderPhase fuel s = some s1) :
    BoxInv xb yb s1 ∧ BoxInv xb yb (globalLeaderPhase s1) ∧
      BoxInv xb yb (globalLeaderLearningPhase (globalLeaderPhase s1)) ∧
      BoxInv xb yb
        (localLeaderLearningPhase (globalLeaderLearningPhase (globalLeaderPhase s1))) ∧
      BoxInv xb yb (localLeaderDecisionPhase
        (localLeaderLearningPhase (globalLeaderLearningPhase (globalLeaderPhase s1)))) := by
  have b1 := localLeaderPhase_box xb yb hx hy fuel s s1 h h1
  have b2 := globalLeaderPhase_box xb yb hx hy s1 b1
  have w2 := hw.of_same
    ((localLeaderPhase_sameGroups fuel s s1 h1).trans_groups (globalLeaderPhase_sameGroups s1))
  have b3 := globalLeaderLearningPhase_box xb yb _ b2 w2
  have b4 := localLeaderLearningPhase_box xb yb _ b3
  exact ⟨b1, b2, b3, b4, localLeaderDecisionPhase_box xb yb hx hy _ b4⟩

theorem runLoop_box (xb yb : ℚ × ℚ) (hx : xb.1 ≤ xb.2) (hy : yb.1 ≤ yb.2) (fuel k : Nat)
    (s s' : SMO) (h : BoxInv xb yb s) (hw : GroupsWF s) (hrun : runLoop fuel k s = some s') :
    BoxInv xb yb s' := by
  induction k generalizing s with
  | zero =>
    simp only [runLoop, Option.some.injEq] at hrun
    rw [← hrun]; exact h
  | succ m ih =>
    unfold runLoop at hrun
    split at hrun
    · cases hrun
    · rename_i s1 h1
      have hw1 := (iteration_wf fuel s s1 hw h1).1
      have hb1 : BoxInv xb yb s1 := by
        unfold iteration at h1
        split at h1
        · cases h1
        · rename_i t ht
          simp only [Option.some.injEq] at h1
          rw [← h1]
          exact (phases_box xb yb hx hy fuel s t h hw ht).2.2.2.2
      exact ih s1 hb1 hw1 hrun

end SMO

namespace SMO

theorem initMonkey_step (xb yb : ℚ × ℚ) (hx : xb.1 ≤ xb.2) (hy : yb.1 ≤ yb.2) (s t : SMO)
    (n : Nat) (h : InitInv xb yb s n t) (hn : n < s.m_population_size)
    (hK : 1 ≤ s.m_num_clusters) (hpts : ∀ p ∈ s.m_graph.getPoints, InBounds xb yb p)
    (hne : s.m_graph.getPoints ≠ [])
    (hsat : (s.m_graph.getPoints.length : ℚ)
      * ((xb.2 - xb.1) * (xb.2 - xb.1) + (yb.2 - yb.1) * (yb.2 - yb.1)) < DBL_MAX) :
    InitInv xb yb s (n + 1) (initMonkey t n) := by
  obtain ⟨e1, e2, e3, e4, e5, e6, e7, e8, e9⟩ := h
  subst e1
  subst e2
  obtain ⟨d1, d2, d3⟩ := drawCentroids_box t.m_x_bounds t.m_y_bounds hx hy t.m_num_clusters
    t.m_rng e6
  have hne' : (drawCentroids t.m_x_bounds t.m_y_bounds t.m_num_clusters t.m_rng).1 ≠ [] := by
    intro e
    rw [e, e3] at d2
    simp only [List.length_nil] at d2
    omega
  have hfit : calculateFitness t
      (drawCentroids t.m_x_bounds t.m_y_bounds t.m_num_clusters t.m_rng).1 < DBL_MAX :=
    calculateFitness_lt t _ t.m_x_bounds t.m_y_bounds (by rw [e3]; exact hK) hne' d1
      (by rw [e4]; exact hpts) (by rw [e4]; exact hne) (by rw [e4]; exact hsat)
  have hdrawn : ∀ i, i < n + 1 →
      ∀ c ∈ (t.m_population.set n
        (drawCentroids t.m_x_bounds t.m_y_bounds t.m_num_clusters t.m_rng).1).getD i [],
        InBounds t.m_x_bounds t.m_y_bounds c := by
    intro i hi c hc
    by_cases hin : n = i
    · rw [← hin, ACO.getD_set_eq _ _ _ _ (by rw [e5]; exact hn)] at hc
      exact d1 c hc
    · rw [ACO.getD_set_ne _ _ _ _ _ hin] at hc
      exact e8 i (by omega) c hc
  unfold initMonkey
  simp only
  split
  · exact ⟨rfl, rfl, e3, e4, by simp only [List.length_set]; exact e5, d3, e7, hdrawn,
      Or.inr ⟨hfit, d1⟩⟩
  · rename_i hnlt
    refine ⟨rfl, rfl, e3, e4, by simp only [List.length_set]; exact e5, d3, e7, hdrawn, ?_⟩
    rcases e9 with ⟨_, hg⟩ | hr
    · exfalso
      rw [hg] at hnlt
      exact hnlt hfit
    · exact Or.inr hr

/-- After `initialize` on a fresh object with at least one cluster and one
monkey, every centroid of the population and of the global leader lies between
the bounds, when the SSE of a position between the bounds cannot reach
`numeric_limits<double>::max()`. -/
theorem init_box (s : SMO) (xb yb : ℚ × ℚ) (hb : boundsOf s.m_graph.getPoints = (xb, yb))
    (hx : xb.1 ≤ xb.2) (hy : yb.1 ≤ yb.2) (hK : 1 ≤ s.m_num_clusters)
    (hP : 1 ≤ s.m_population_size) (hgf : s.m_global_leader_fitness = DBL_MAX)
    (hreals : s.m_rng.RealsInUnit) (hpts : ∀ p ∈ s.m_graph.getPoints, InBounds xb yb p)
    (hne : s.m_graph.getPoints ≠ [])
    (hsat : (s.m_graph.getPoints.length : ℚ)
      * ((xb.2 - xb.1) * (xb.2 - xb.1) + (yb.2 - yb.1) * (yb.2 - yb.1)) < DBL_MAX) :
    BoxInv xb yb (init s) := by
  have key : ∀ n, n ≤ s.m_population_size →
      InitInv xb yb s n ((List.range n).foldl initMonkey
        { s with
          m_x_bounds := (boundsOf s.m_graph.getPoints).1
          m_y_bounds := (boundsOf s.m_graph.getPoints).2
          m_population :=
            List.replicate s.m_population_size (List.replicate s.m_num_clusters (0, 0))
          m_fitness := List.replicate s.m_population_size DBL_MAX
          m_group_id := List.replicate s.m_population_size 0
          m_local_leaders := [List.replicate s.m_num_clusters (0, 0)]
          m_local_leader_fitness := [DBL_MAX]
          m_local_leader_limit_count := [0]
          m_global_leader := resize s.m_global_leader s.m_num_clusters (0, 0) }) := by
    intro n hn
    induction n with
    | zero =>
      exact ⟨by simp only [List.range_zero, List.foldl_nil]; rw [hb],
        by simp only [List.range_zero, List.foldl_nil]; rw [hb], rfl, rfl,
        by simp only [List.range_zero, List.foldl_nil, List.length_replicate], hreals, rfl,
        fun i hi => absurd hi (Nat.not_lt_zero i), Or.inl ⟨rfl, hgf⟩⟩
    | succ m ih =>
      rw [List.range_succ, List.foldl_append]
      exact initMonkey_step xb yb hx hy s _ m (ih (by omega)) (by omega) hK hpts hne hsat
  have h := key s.m_population_size (le_refl _)
  unfold init
  simp only
  refine ⟨h.x_bounds, h.y_bounds, ?_, ?_, ?_, ?_⟩
  · intro pos hpos c hc
    obtain ⟨i, hi, hie⟩ := List.getElem_of_mem hpos
    have hi' : i < s.m_population_size := by rw [← h.pop_len]; exact hi
    refine h.drawn i hi' c ?_
    rw [List.getD_eq_getElem _ _ hi, hie]
    exact hc
  · rcases h.leader with ⟨h0, _⟩ | hr
    · omega
    · exact hr.2
  · rcases h.leader with ⟨h0, _⟩ | hr
    · omega
    · exact le_of_lt hr.1
  · simp only [List.length_set]
    exact h.lens

/-- A centroid between the bounds computed by `initialize` lies inside the
bounding box of the points. -/
theorem inBox_of_inBounds (pts : List Point) (hne : pts ≠ [])
    (hfin : ∀ p ∈ pts, -DBL_MAX ≤ p.1 ∧ p.1 ≤ DBL_MAX ∧ -DBL_MAX ≤ p.2 ∧ p.2 ≤ DBL_MAX)
    (c : Point) (h : InBounds (boundsOf pts).1 (boundsOf pts).2 c) : InBox pts c := by
  obtain ⟨_, ⟨p1, hp1, e1⟩, ⟨p2, hp2, e2⟩, ⟨p3, hp3, e3⟩, ⟨p4, hp4, e4⟩⟩ :=
    boundsOf_spec pts hne hfin
  obtain ⟨h1, h2, h3, h4⟩ := h
  exact ⟨⟨p1, hp1, by rw [e1]; exact h1⟩, ⟨p2, hp2, by rw [e2]; exact h2⟩,
    ⟨p3, hp3, by rw [e3]; exact h3⟩, ⟨p4, hp4, by rw [e4]; exact h4⟩⟩

theorem allInBox_of_box (pts : List Point) (hne : pts ≠ [])
    (hfin : ∀ p ∈ pts, -DBL_MAX ≤ p.1 ∧ p.1 ≤ DBL_MAX ∧ -DBL_MAX ≤ p.2 ∧ p.2 ≤ DBL_MAX)
    (t : SMO) (hg : t.m_graph = Graph.new pts)
    (h : BoxInv (boundsOf pts).1 (boundsOf pts).2 t) : AllInBox t := by
  have hp : t.m_graph.getPoints = pts := by rw [hg]; rfl
  unfold AllInBox
  rw [hp]
  exact ⟨fun pos hpos c hc => inBox_of_inBounds pts hne hfin c (h.pop pos hpos c hc),
    fun c hc => inBox_of_inBounds pts hne hfin c (h.leader c hc)⟩

end SMO

/-- C21 (amended): for every non-empty point set with coordinates of magnitude at
most `numeric_limits<double>::max()`, at least one cluster and one monkey,
canonical real draws in `[0,1)`, and a bounding box so small that the number of
points times its squared diagonal stays below `numeric_limits<double>::max()`
(no SSE of a position in the box reaches the start value of the global leader's
fitness): after `initialize`, in the state reached after any number of
iterations, and after each of the five phases of the next iteration, every
centroid of every monkey and every centroid of the global leader lies inside the
bounding box of the points. -/
theorem C21_centroids_stay_in_bounding_box (pts : List Point) (K si P : Nat) (ll gl : Int)
    (pr : ℚ) (rng : Rng) (fuel : Nat) (hne : pts ≠ []) (hK : 1 ≤ K) (hP : 1 ≤ P)
    (hfin : ∀ p ∈ pts, -DBL_MAX ≤ p.1 ∧ p.1 ≤ DBL_MAX ∧ -DBL_MAX ≤ p.2 ∧ p.2 ≤ DBL_MAX)
    (hsat : ∀ p ∈ pts, ∀ q ∈ pts, ∀ p' ∈ pts, ∀ q' ∈ pts,
      (pts.length : ℚ) * ((p.1 - q.1) * (p.1 - q.1) + (p'.2 - q'.2) * (p'.2 - q'.2)) < DBL_MAX)
    (hreals : rng.RealsInUnit) :
    SMO.AllInBox (SMO.new K si (Graph.new pts) P ll gl pr rng).init ∧
      ∀ k s, SMO.runLoop fuel k (SMO.new K si (Graph.new pts) P ll gl pr rng).init = some s →
        SMO.AllInBox s ∧
          ∀ s1, SMO.localLeaderPhase fuel s = some s1 →
            SMO.AllInBox s1 ∧ SMO.AllInBox (SMO.globalLeaderPhase s1) ∧
              SMO.AllInBox (SMO.globalLeaderLearningPhase (SMO.globalLeaderPhase s1)) ∧
              SMO.AllInBox (SMO.localLeaderLearningPhase
                (SMO.globalLeaderLearningPhase (SMO.globalLeaderPhase s1))) ∧
              SMO.AllInBox (SMO.localLeaderDecisionPhase (SMO.localLeaderLearningPhase
                (SMO.globalLeaderLearningPhase (SMO.globalLeaderPhase s1)))) := by
  obtain ⟨hin, ⟨p1, hp1, e1⟩, ⟨p2, hp2, e2⟩, ⟨p3, hp3, e3⟩, ⟨p4, hp4, e4⟩⟩ :=
    SMO.boundsOf_spec pts hne hfin
  obtain ⟨p0, hp0⟩ := List.exists_mem_of_ne_nil pts hne
  have hx : (SMO.boundsOf pts).1.1 ≤ (SMO.boundsOf pts).1.2 :=
    le_trans (hin p0 hp0).1 (hin p0 hp0).2.1
  have hy : (SMO.boundsOf pts).2.1 ≤ (SMO.boundsOf pts).2.2 :=
    le_trans (hin p0 hp0).2.2.1 (hin p0 hp0).2.2.2
  have hsat' : (pts.length : ℚ)
      * (((SMO.boundsOf pts).1.2 - (SMO.boundsOf pts).1.1)
          * ((SMO.boundsOf pts).1.2 - (SMO.boundsOf pts).1.1)
        + ((SMO.boundsOf pts).2.2 - (SMO.boundsOf pts).2.1)
          * ((SMO.boundsOf pts).2.2 - (SMO.boundsOf pts).2.1)) < DBL_MAX := by
    rw [← e1, ← e2, ← e3, ← e4]
    exact hsat p2 hp2 p1 hp1 p4 hp4 p3 hp3
  have hb0 : SMO.BoxInv (SMO.boundsOf pts).1 (SMO.boundsOf pts).2
      (SMO.new K si (Graph.new pts) P ll gl pr rng).init :=
    SMO.init_box (SMO.new K si (Graph.new pts) P ll gl pr rng) _ _ rfl hx hy hK hP rfl hreals
      hin hne hsat'
  obtain ⟨hw0, _, _⟩ := SMO.init_wf (SMO.new K si (Graph.new pts) P ll gl pr rng) rfl
  have hg0 : (SMO.new K si (Graph.new pts) P ll gl pr rng).init.m_graph = Graph.new pts :=
    (SMO.init_config _).2.2.1
  refine ⟨SMO.allInBox_of_box pts hne hfin _ hg0 hb0, fun k s hs => ?_⟩
  have hbs := SMO.runLoop_box _ _ hx hy fuel k _ s hb0 hw0 hs
  have hws := (SMO.runLoop_wf fuel k _ s hw0 hs).1
  have hgs : s.m_graph = Graph.new pts := ((SMO.runLoop_config fuel k _ s hs).2.2.1).trans hg0
  refine ⟨SMO.allInBox_of_box pts hne hfin s hgs hbs, fun s1 h1 => ?_⟩
  obtain ⟨b1, b2, b3, b4, b5⟩ := SMO.phases_box _ _ hx hy fuel s s1 hbs hws h1
  have g1 : s1.m_graph = Graph.new pts :=
    ((SMO.localLeaderPhase_config fuel s s1 h1).2.2.1).trans hgs
  have g2 := ((SMO.globalLeaderPhase_config s1).2.2.1).trans g1
  have g3 := ((SMO.globalLeaderLearningPhase_config (SMO.globalLeaderPhase s1)).2.2.1).trans g2
  have g4 := ((SMO.localLeaderLearningPhase_config
    (SMO.globalLeaderLearningPhase (SMO.globalLeaderPhase s1))).2.2.1).trans g3
  have g5 := ((SMO.localLeaderDecisionPhase_config (SMO.localLeaderLearningPhase
    (SMO.globalLeaderLearningPhase (SMO.globalLeaderPhase s1)))).2.2.1).trans g4
  exact ⟨SMO.allInBox_of_box pts hne hfin _ g1 b1, SMO.allInBox_of_box pts hne hfin _ g2 b2,
    SMO.allInBox_of_box pts hne hfin _ g3 b3, SMO.allInBox_of_box pts hne hfin _ g4 b4,
    SMO.allInBox_of_box pts hne hfin _ g5 b5⟩

/-- C21 fails when no position in the box has an SSE below the start value of the
global leader's fitness.  For the points `(2^600, 0)` and `(3 * 2^600, 0)`, one
cluster and two monkeys (all draws 0) both monkeys are drawn at `(2^600, 0)`; the
second point is `2^601` away, its squared distance `2^1202` is not below
`numeric_limits<double>::max()`, so each fitness is that value, the comparison
`m_fitness[i] < m_global_leader_fitness` never holds, and the global leader keeps
the centroid `(0, 0)` that `resize` gave it, after `initialize` and after a run
of one iteration; `(0, 0)` is left of every point.  The same happens with an
empty population on the points (1,2), (2,2). -/
theorem C21_counterexample :
    (SMO.new 1 1 (Graph.new [((2 : ℚ) ^ 600, 0), (3 * 2 ^ 600, 0)]) 2 20 20 (1 / 10)
        Rng.zeros).init.m_global_leader = [(0, 0)] ∧
      ((SMO.new 1 1 (Graph.new [((2 : ℚ) ^ 600, 0), (3 * 2 ^ 600, 0)]) 2 20 20 (1 / 10)
        Rng.zeros).run 1).map
          (fun s => (s.m_population, s.m_fitness, s.m_global_leader_fitness, s.m_global_leader))
        = some ([[((2 : ℚ) ^ 600, 0)], [((2 : ℚ) ^ 600, 0)]], [DBL_MAX, DBL_MAX], DBL_MAX,
          [(0, 0)]) ∧
      ¬ SMO.InBox [((2 : ℚ) ^ 600, 0), (3 * 2 ^ 600, 0)] (0, 0) ∧
      ¬ SMO.AllInBox (SMO.new 1 1 (Graph.new [((2 : ℚ) ^ 600, 0), (3 * 2 ^ 600, 0)]) 2 20 20
        (1 / 10) Rng.zeros).init ∧
      (SMO.new 1 1 (Graph.new [(1, 2), (2, 2)]) 0 20 20 (1 / 10)
        Rng.zeros).init.m_global_leader = [(0, 0)] ∧
      ¬ SMO.InBox [(1, 2), (2, 2)] (0, 0) := by
  have h1 : (SMO.new 1 1 (Graph.new [((2 : ℚ) ^ 600, 0), (3 * 2 ^ 600, 0)]) 2 20 20 (1 / 10)
      Rng.zeros).init.m_global_leader = [(0, 0)] := by decide!
  have h3 : ¬ SMO.InBox [((2 : ℚ) ^ 600, 0), (3 * 2 ^ 600, 0)] (0, 0) := by
    unfold SMO.InBox
    decide!
  refine ⟨h1, by decide!, h3, fun h => ?_, by decide!, ?_⟩
  · apply h3
    have hg : (SMO.new 1 1 (Graph.new [((2 : ℚ) ^ 600, 0), (3 * 2 ^ 600, 0)]) 2 20 20 (1 / 10)
        Rng.zeros).init.m_graph.getPoints = [((2 : ℚ) ^ 600, 0), (3 * 2 ^ 600, 0)] := by
      rw [(SMO.init_config _).2.2.1]
      rfl
    have := h.2 (0, 0) (by rw [h1]; exact List.mem_singleton_self _)
    rw [hg] at this
    exact this
  · unfold SMO.InBox
    decide!

/-- The conditions of C21 hold for ten monkeys on the points (1,2), (3,2): the
state after one iteration exists, its `localLeaderPhase` returns, and every
centroid lies in the box after `initialize` and after the second iteration. -/
theorem C21_witness :
    ∃ s s1,
      SMO.runLoop 10 1
          (SMO.new 1 3 (Graph.new [(1, 2), (3, 2)]) 10 20 0 (1 / 10) Rng.counting).init
        = some s ∧
      SMO.localLeaderPhase 10 s = some s1 ∧
      SMO.AllInBox (SMO.new 1 3 (Graph.new [(1, 2), (3, 2)]) 10 20 0 (1 / 10) Rng.counting).init ∧
      SMO.AllInBox s ∧
      SMO.AllInBox (SMO.localLeaderDecisionPhase (SMO.localLeaderLearningPhase
        (SMO.globalLeaderLearningPhase (SMO.globalLeaderPhase s1)))) := by
  obtain ⟨hw0, hP0, hf0⟩ := SMO.init_wf
    (SMO.new 1 3 (Graph.new [(1, 2), (3, 2)]) 10 20 0 (1 / 10) Rng.counting) rfl
  have hfair : Rng.counting.Fair 10 10 := Rng.counting_fair 10 10 (by decide) (by decide)
  have hP0' : (SMO.new 1 3 (Graph.new [(1, 2), (3, 2)]) 10 20 0 (1 / 10)
      Rng.counting).init.m_population_size = 10 := hP0
  obtain ⟨s, hs⟩ := SMO.runLoop_some 10 1 _ hw0 (by rw [hP0']; decide)
    (by rw [hP0']; exact hf0 _ _ hfair)
  obtain ⟨hw, hPs, hfs⟩ := SMO.runLoop_wf 10 1 _ s hw0 hs
  obtain ⟨s1, h1⟩ := SMO.localLeaderPhase_some 10 s hw (by rw [hPs, hP0']; decide)
    (by rw [hPs, hP0']; exact hfs _ _ (hf0 _ _ hfair))
  have h := C21_centroids_stay_in_bounding_box [(1, 2), (3, 2)] 1 3 10 20 0 (1 / 10)
    Rng.counting 10 (by decide) (by decide) (by decide) (by decide!) (by decide!)
    Rng.counting_realsInUnit
  obtain ⟨ha, hb⟩ := h.2 1 s hs
  exact ⟨s, s1, hs, h1, h.1, ha, (hb s1 h1).2.2.2.2⟩

/-- C22 fails on the code right after a split.  In the run below (one cluster,
the points (1,2), (3,2), ten monkeys, global limit 0, all draws 0) every monkey is
drawn at `(1, 2)` and stays there through the first iteration, whose decision
phase splits the population into two groups.  The state in which the second
iteration's `localLeaderPhase` starts has, for the new group 1, the local leader
`(0, 0)`, the value with which `resize` padded `m_local_leaders`, and the
recorded fitness `numeric_limits<double>::max()`, the value with which `resize`
padded `m_local_leader_fitness`.  No monkey has held the position `(0, 0)`, which
is outside the bounding box, and its SSE is 18, not the recorded fitness.  Group
0 has the leader `(1, 2)` with the recorded fitness 4, its SSE. -/
theorem C22_split_leaves_placeholder_leader :
    (SMO.runLoop 1 1
        (SMO.new 1 2 (Graph.new [(1, 2), (3, 2)]) 10 20 0 (1 / 10) Rng.zeros).init).map
        (fun s => (s.m_num_groups, s.m_group_id)) = some (2, [0, 0, 0, 0, 0, 1, 1, 1, 1, 1]) ∧
      (SMO.runLoop 1 1
        (SMO.new 1 2 (Graph.new [(1, 2), (3, 2)]) 10 20 0 (1 / 10) Rng.zeros).init).map
        (fun s => s.m_local_leaders) = some [[(1, 2)], [(0, 0)]] ∧
      (SMO.runLoop 1 1
        (SMO.new 1 2 (Graph.new [(1, 2), (3, 2)]) 10 20 0 (1 / 10) Rng.zeros).init).map
        (fun s => s.m_local_leader_fitness) = some [4, DBL_MAX] ∧
      (SMO.runLoop 1 1
        (SMO.new 1 2 (Graph.new [(1, 2), (3, 2)]) 10 20 0 (1 / 10) Rng.zeros).init).map
        (fun s => (s.calculateFitness [(1, 2)], s.calculateFitness [(0, 0)])) = some (4, 18) ∧
      (SMO.new 1 2 (Graph.new [(1, 2), (3, 2)]) 10 20 0 (1 / 10) Rng.zeros).init.m_population
        = List.replicate 10 [(1, 2)] ∧
      (SMO.localLeaderPhase 1
        (SMO.new 1 2 (Graph.new [(1, 2), (3, 2)]) 10 20 0 (1 / 10) Rng.zeros).init).map
        (fun s1 => s1.m_population) = some (List.replicate 10 [(1, 2)]) ∧
      (SMO.localLeaderPhase 1
        (SMO.new 1 2 (Graph.new [(1, 2), (3, 2)]) 10 20 0 (1 / 10) Rng.zeros).init).map
        (fun s1 => (SMO.globalLeaderPhase s1).m_population) = some (List.replicate 10 [(1, 2)]) ∧
      (SMO.runLoop 1 1
        (SMO.new 1 2 (Graph.new [(1, 2), (3, 2)]) 10 20 0 (1 / 10) Rng.zeros).init).map
        (fun s => s.m_population) = some (List.replicate 10 [(1, 2)]) ∧
      ((SMO.runLoop 1 1
        (SMO.new 1 2 (Graph.new [(1, 2), (3, 2)]) 10 20 0 (1 / 10) Rng.zeros).init).bind
        (SMO.localLeaderPhase 1)).isSome = true ∧
      ¬ SMO.InBox [(1, 2), (3, 2)] (0, 0) := by
  refine ⟨?_, ?_, ?_, ?_, ?_, ?_, ?_, ?_, ?_, ?_⟩
  · decide!
  · decide!
  · decide!
  · decide!
  · decide!
  · decide!
  · decide!
  · decide!
  · decide!
  · unfold SMO.InBox
    decide!

end MTSP
